import Mathlib

/-!
# Verification of the n-ary tree engine

Shallow embedding of the tree engine found in `narytree_src/nary_tree.cpp`
(pointer-based `NaryTree<T>` with succinct encoding and balancing),
`narytree_src/succinct_narytree_unified.cpp` (flat-array `SuccinctNaryTree<T>`)
and `succinct_narytree_unified.cpp` (the `PyObject*` arena variant), together
with proofs and refutations of the specified properties.
-/

set_option maxHeartbeats 1000000

namespace NaryPkg

/-- A pointer-based tree node of `NaryTree<T>` (`nary_tree.cpp`): a payload and
the ordered list of children.  The `parent_` back pointer of the C++ class is
represented implicitly by the nesting. -/
inductive Tree (V : Type) : Type
  | node (data : V) (children : List (Tree V)) : Tree V

variable {V : Type}

mutual
/-- `Node::depth()`: `max` over the children's depths, plus one. -/
def depth : Tree V → Nat
  | .node _ cs => depthList cs + 1

/-- The loop `for child : max_depth = max(max_depth, child->depth())`. -/
def depthList : List (Tree V) → Nat
  | [] => 0
  | t :: ts => max (depth t) (depthList ts)
end

mutual
/-- `Node::total_nodes()`: this node plus all descendants. -/
def total_nodes : Tree V → Nat
  | .node _ cs => totalNodesList cs + 1

def totalNodesList : List (Tree V) → Nat
  | [] => 0
  | t :: ts => total_nodes t + totalNodesList ts
end

mutual
/-- The preorder value sequence of a node (`for_each_preorder` collecting
`data()`). -/
def preorderVals : Tree V → List V
  | .node v cs => v :: preorderValsList cs

def preorderValsList : List (Tree V) → List V
  | [] => []
  | t :: ts => preorderVals t ++ preorderValsList ts
end

/-- The `NaryTree<T>` object: an optional owned root plus the `size_` field.
`size_` is a plain stored field of the C++ class, so theorems that need it to
agree with the number of nodes below `root_` take that as a hypothesis. -/
structure NaryTree (V : Type) where
  root : Option (Tree V)
  size_ : Nat

/-- `NaryTree::set_root`: replaces the owned root by a fresh single node and
sets `size_ = 1` (`nary_tree.cpp` lines 241-244). -/
def NaryTree.set_root (_t : NaryTree V) (v : V) : NaryTree V :=
  ⟨some (Tree.node v []), 1⟩

/-! ## Structural codec (`encode_succinct` / `decode_succinct`) -/

/-- `NaryTree<T>::SuccinctEncoding`. -/
structure SuccinctEncoding (V : Type) where
  structure_bits : List Bool
  data_array : List V
  node_count : Nat

mutual
/-- The structure bits emitted by `encode_succinct_preorder`
(`nary_tree.cpp` lines 471-484): an open (`true`) bit, the bits of every
child in order, then a close (`false`) bit. -/
def encodeBits : Tree V → List Bool
  | .node _ cs => true :: (encodeBitsList cs ++ [false])

def encodeBitsList : List (Tree V) → List Bool
  | [] => []
  | t :: ts => encodeBits t ++ encodeBitsList ts
end

mutual
/-- The value array emitted by `encode_succinct_preorder`: preorder values. -/
def encodeData : Tree V → List V
  | .node v cs => v :: encodeDataList cs

def encodeDataList : List (Tree V) → List V
  | [] => []
  | t :: ts => encodeData t ++ encodeDataList ts
end

/-- `NaryTree::encode_succinct` (`nary_tree.cpp` lines 459-467).  For an empty
tree the C++ returns a default `SuccinctEncoding` whose `node_count` field is
left uninitialized and never read; we pick 0 for it. -/
def encode_succinct (t : NaryTree V) : SuccinctEncoding V :=
  match t.root with
  | none => ⟨[], [], 0⟩
  | some r => ⟨encodeBits r, encodeData r, t.size_⟩

/-- The `while (bit_index < structure.size() && structure[bit_index])` loop of
`decode_succinct_preorder` (`nary_tree.cpp` lines 644-674), reading a maximal
run of sibling nodes.  It operates on the not-yet-consumed suffixes of the bit
and value arrays; the result carries the fact that it returns a suffix of the
bits it was given, which justifies termination of the sibling recursion.
A `true` head starts a node: the recursive `decode_succinct_preorder` call
consumes the open bit, reads the next value (returning null when the values
are exhausted, in which case nothing is appended and the loop goes on), reads
the node's children by the same loop one level down, then skips the close bit
if the stream has not ended (`if (bit_index < structure.size()) bit_index++`,
modeled by `List.tail`). -/
def decodeChildren : (bits : List Bool) → (data : List V) →
    {r : List (Tree V) × List Bool × List V // r.2.1.length ≤ bits.length}
  | [], data => ⟨([], [], data), by simp⟩
  | false :: bits, data => ⟨([], false :: bits, data), le_refl _⟩
  | true :: bits, [] =>
      ⟨(decodeChildren bits []).val,
        (decodeChildren bits []).property.trans (Nat.le_succ _)⟩
  | true :: bits, v :: data =>
      match decodeChildren bits data with
      | ⟨(cs, bits1, data1), hle⟩ =>
        match decodeChildren bits1.tail data1 with
        | ⟨(sib, bits2, data2), hle2⟩ =>
          ⟨(Tree.node v cs :: sib, bits2, data2), by
            simp at hle hle2 ⊢
            have := List.length_tail bits1
            omega⟩
termination_by bits _ => bits.length
decreasing_by
  · simp
  · simp
  · simp
    have := List.length_tail bits1
    simp at hle
    omega

/-- `decodeChildren` without the termination bound. -/
def decodeChildrenV (bits : List Bool) (data : List V) :
    List (Tree V) × List Bool × List V :=
  (decodeChildren bits data).val

theorem decodeChildrenV_nil (data : List V) :
    decodeChildrenV ([] : List Bool) data = ([], [], data) := by
  simp [decodeChildrenV, decodeChildren]

theorem decodeChildrenV_false (bits : List Bool) (data : List V) :
    decodeChildrenV (false :: bits) data = ([], false :: bits, data) := by
  simp [decodeChildrenV, decodeChildren]

theorem decodeChildrenV_true_nil (bits : List Bool) :
    decodeChildrenV (true :: bits) ([] : List V) = decodeChildrenV bits [] := by
  simp only [decodeChildrenV]
  rw [decodeChildren]

theorem decodeChildrenV_true_cons (bits : List Bool) (v : V) (data : List V) :
    decodeChildrenV (true :: bits) (v :: data) =
      (Tree.node v (decodeChildrenV bits data).1 ::
        (decodeChildrenV (decodeChildrenV bits data).2.1.tail
          (decodeChildrenV bits data).2.2).1,
       (decodeChildrenV (decodeChildrenV bits data).2.1.tail
          (decodeChildrenV bits data).2.2).2.1,
       (decodeChildrenV (decodeChildrenV bits data).2.1.tail
          (decodeChildrenV bits data).2.2).2.2) := by
  simp only [decodeChildrenV]
  rw [decodeChildren]

/-- `NaryTree::decode_succinct_preorder` at the top entry: decodes one node
and also reports the unread suffixes (unused by the caller). -/
def decode_succinct_preorder (bits : List Bool) (data : List V) :
    Option (Tree V) × List Bool × List V :=
  match bits, data with
  | [], data => (none, [], data)
  | false :: bits, data => (none, false :: bits, data)
  | true :: bits, [] => (none, bits, [])
  | true :: bits, v :: data =>
      let c := decodeChildrenV bits data
      (some (Tree.node v c.1), c.2.1.tail, c.2.2)

/-- `NaryTree::decode_succinct` (`nary_tree.cpp` lines 488-502): returns a
default (empty) tree when either array is empty, otherwise decodes a root and
copies `node_count` into `size_` unconditionally. -/
def decode_succinct (e : SuccinctEncoding V) : NaryTree V :=
  if e.structure_bits.isEmpty ∨ e.data_array.isEmpty then ⟨none, 0⟩
  else ⟨(decode_succinct_preorder e.structure_bits e.data_array).1, e.node_count⟩

/-! ### Round-trip -/

theorem encodeBitsList_eq (ts : List (Tree V)) :
    encodeBitsList ts = match ts with
      | [] => []
      | t :: ts => encodeBits t ++ encodeBitsList ts := by
  cases ts <;> simp [encodeBitsList]

/-- Decoding reads back exactly the sibling run that encoding wrote, leaving
any continuation of the two streams untouched. -/
theorem decodeChildren_encode :
    ∀ (n : Nat) (ts : List (Tree V)), (encodeBitsList ts).length ≤ n →
    ∀ (bs : List Bool) (ds : List V),
      decodeChildrenV (encodeBitsList ts ++ false :: bs)
        (encodeDataList ts ++ ds) = (ts, false :: bs, ds) := by
  intro n
  induction n with
  | zero =>
      intro ts hts bs ds
      match ts with
      | [] => simp [encodeBitsList, encodeDataList, decodeChildrenV_false]
      | Tree.node v cs :: ts =>
          exfalso
          simp [encodeBitsList, encodeBits] at hts
  | succ n ih =>
      intro ts hts bs ds
      match ts with
      | [] => simp [encodeBitsList, encodeDataList, decodeChildrenV_false]
      | Tree.node v cs :: ts =>
          have hlen : (encodeBitsList (Tree.node v cs :: ts)).length
              = (encodeBitsList cs).length + 2 + (encodeBitsList ts).length := by
            simp [encodeBitsList, encodeBits]
            omega
          have hcs : (encodeBitsList cs).length ≤ n := by omega
          have hts2 : (encodeBitsList ts).length ≤ n := by omega
          have hstream : encodeBitsList (Tree.node v cs :: ts) ++ false :: bs
              = true :: (encodeBitsList cs
                  ++ false :: (encodeBitsList ts ++ false :: bs)) := by
            simp [encodeBitsList, encodeBits]
          have hdata : encodeDataList (Tree.node v cs :: ts) ++ ds
              = v :: (encodeDataList cs ++ (encodeDataList ts ++ ds)) := by
            simp [encodeDataList, encodeData]
          rw [hstream, hdata, decodeChildrenV_true_cons]
          rw [ih cs hcs (encodeBitsList ts ++ false :: bs)
            (encodeDataList ts ++ ds)]
          simp only [List.tail_cons]
          rw [ih ts hts2 bs ds]

/-- Decoding the encoding of a single tree returns that tree and consumes
everything. -/
theorem decode_encode_tree (t : Tree V) :
    decode_succinct_preorder (encodeBits t) (encodeData t) = (some t, [], []) := by
  match t with
  | Tree.node v cs =>
      have hb : encodeBits (Tree.node v cs)
          = true :: (encodeBitsList cs ++ false :: ([] : List Bool)) := by
        simp [encodeBits]
      have hd : encodeData (Tree.node v cs)
          = v :: (encodeDataList cs ++ ([] : List V)) := by
        simp [encodeData]
      rw [hb, hd]
      show (some (Tree.node v (decodeChildrenV (encodeBitsList cs ++ false :: [])
          (encodeDataList cs ++ [])).1), _, _) = _
      rw [decodeChildren_encode (encodeBitsList cs).length cs (le_refl _) [] []]
      simp

/-- C1.  `decode(encode(T))` rebuilds a tree with exactly the same shape and
the same preorder value sequence as `T`: in this pointer representation the
shape together with the value sequence IS the `Tree` value, so the decoded
root equals the original root (node identities are not part of the value). -/
theorem round_trip (T : NaryTree V) :
    (decode_succinct (encode_succinct T)).root = T.root := by
  match hr : T.root with
  | none => simp [encode_succinct, hr, decode_succinct]
  | some r =>
      match r with
      | Tree.node v cs =>
          have henc : encode_succinct T
              = ⟨encodeBits (Tree.node v cs), encodeData (Tree.node v cs),
                 T.size_⟩ := by
            simp [encode_succinct, hr]
          rw [henc]
          have hbne : (encodeBits (Tree.node v cs)).isEmpty = false := by
            simp [encodeBits]
          have hdne : (encodeData (Tree.node v cs)).isEmpty = false := by
            simp [encodeData]
          simp [decode_succinct, hbne, hdne, decode_encode_tree]

/-- C2, counterexample.  The bit stream `[open, open]` with a single value is
malformed in two of the ways named by the claim: the number of open bits (2)
differs from the value-sequence length (1), and the stream ends mid-structure
(no close bit at all).  Yet `decode_succinct` does not fail: it silently
returns a one-node tree.  There is no `MalformedEncoding` check anywhere in
the decoder. -/
theorem malformed_decode_produces_tree :
    ((List.count true [true, true] = [(0 : Nat)].length) = False) ∧
    (decode_succinct (⟨[true, true], [0], 1⟩ : SuccinctEncoding Nat)).root
      = some (Tree.node 0 []) := by
  constructor
  · simp
  · show (decode_succinct_preorder [true, true] [(0 : Nat)]).1 = _
    show (some (Tree.node 0 (decodeChildrenV [true] ([] : List Nat)).1), _, _).1 = _
    rw [decodeChildrenV_true_nil, decodeChildrenV_nil]

/-- C2, amended.  The decoder never signals any error: it is a total function.
When either input array is empty it returns the default (empty) tree; whenever
the first structure bit is an open bit and the value array is non-empty it
returns a tree whose root holds the first value — even for malformed input
(mismatched open-bit/value counts, truncated streams).  It never mutates an
existing tree: it builds its result from scratch. -/
theorem decode_total_no_error (e : SuccinctEncoding V) :
    (e.structure_bits = [] ∨ e.data_array = [] → decode_succinct e = ⟨none, 0⟩) ∧
    (∀ bs v ds, e.structure_bits = true :: bs → e.data_array = v :: ds →
      ∃ cs, (decode_succinct e).root = some (Tree.node v cs)) := by
  constructor
  · intro h
    rcases h with h | h <;> simp [decode_succinct, h]
  · intro bs v ds hb hd
    refine ⟨(decodeChildrenV bs ds).1, ?_⟩
    simp [decode_succinct, hb, hd, decode_succinct_preorder]

theorem decode_total_no_error_witness :
    (decode_succinct (⟨[], [], 0⟩ : SuccinctEncoding Nat) = ⟨none, 0⟩) ∧
    (∃ cs, (decode_succinct
        (⟨[true, false], [5], 1⟩ : SuccinctEncoding Nat)).root
      = some (Tree.node 5 cs)) :=
  ⟨(decode_total_no_error _).1 (Or.inl rfl),
   (decode_total_no_error _).2 [false] 5 [] rfl rfl⟩

/-! ## Rebalancing (`nary_tree.cpp`) -/

/-- The level-order data collection of `NaryTree::collect_all_data`
(`nary_tree.cpp` lines 323-344), expressed on the explicit BFS queue. -/
def collectQueue : List (Tree V) → List V
  | [] => []
  | Tree.node v cs :: q => v :: collectQueue (q ++ cs)
termination_by q => totalNodesList q
decreasing_by
  have h : ∀ (a b : List (Tree V)),
      totalNodesList (a ++ b) = totalNodesList a + totalNodesList b := by
    intro a b
    induction a with
    | nil => simp [totalNodesList]
    | cons t ts ih => simp [totalNodesList, ih]; omega
  simp [totalNodesList, h, total_nodes]
  omega

/-- `NaryTree::collect_all_data`. -/
def collect_all_data (t : NaryTree V) : List V :=
  match t.root with
  | none => []
  | some r => collectQueue [r]

/-- The chunk sizes used by `build_balanced_subtree` for `r` remaining values
distributed over `c` children: `base_size = r / c` each, the first
`extra = r % c` chunks receiving one more. -/
def chunkSizes (r c : Nat) : List Nat :=
  (List.range c).map (fun i => r / c + if i < r % c then 1 else 0)

mutual
/-- `NaryTree::build_balanced_subtree` (`nary_tree.cpp` lines 347-388) on the
slice `data[start..end)`, here the explicit list of that slice: the first
value becomes the subtree root, the remaining `r` values are split over
`min r max_children` chunks as evenly as possible and each chunk is built
recursively.  (`List.take`/`List.drop` clamp exactly like the C++ guards
`current_start < end` / `child_end > end`.) -/
def build_balanced_subtree (data : List V) (k : Nat) : Option (Tree V) :=
  match data with
  | [] => none
  | v :: rest =>
    if rest.length = 0 then some (Tree.node v []) else
    if min rest.length k = 0 then some (Tree.node v []) else
    some (Tree.node v
      (buildChildren rest (chunkSizes rest.length (min rest.length k)) k))
termination_by (data.length, 0)
decreasing_by
  all_goals (apply Prod.Lex.left; simp)

/-- The `for (i = 0; i < children_count && current_start < end; ++i)` loop:
build each chunk, appending the child when non-null. -/
def buildChildren (data : List V) (sizes : List Nat) (k : Nat) :
    List (Tree V) :=
  match sizes with
  | [] => []
  | s :: ss =>
    match build_balanced_subtree (data.take s) k with
    | some t => t :: buildChildren (data.drop s) ss k
    | none => buildChildren (data.drop s) ss k
termination_by (data.length, sizes.length + 1)
decreasing_by
  all_goals (apply Prod.Lex.right' <;> simp)
end

/-- `NaryTree::balance_tree` (`nary_tree.cpp` lines 391-399): no-op on an
empty or size-≤-1 tree, otherwise rebuilds `root_` from the level-order data
(the `size_` field is not touched). -/
def balance_tree (t : NaryTree V) (k : Nat) : NaryTree V :=
  match t.root with
  | none => t
  | some _ =>
    if t.size_ ≤ 1 then t
    else ⟨build_balanced_subtree (collect_all_data t) k, t.size_⟩

/-! ### Facts about the chunk sizes -/

theorem sum_range_add_ite (a m : Nat) :
    ∀ c, ((List.range c).map (fun i => a + if i < m then 1 else 0)).sum
      = c * a + min c m := by
  intro c
  induction c with
  | zero => simp
  | succ c ih =>
      rw [List.range_succ]
      simp only [List.map_append, List.sum_append, ih]
      simp only [List.map_cons, List.map_nil, List.sum_cons, List.sum_nil]
      have hsm : (c + 1) * a = c * a + a := by ring
      by_cases h : c < m
      · rw [if_pos h, hsm]
        have h1 : min c m = c := by omega
        have h2 : min (c + 1) m = c + 1 := by omega
        omega
      · rw [if_neg h, hsm]
        have h1 : min c m = m := by omega
        have h2 : min (c + 1) m = m := by omega
        omega

theorem chunkSizes_sum (r c : Nat) (hc : 0 < c) : (chunkSizes r c).sum = r := by
  unfold chunkSizes
  rw [sum_range_add_ite]
  have h1 : min c (r % c) = r % c := by
    have := Nat.mod_lt r hc
    omega
  rw [h1]
  have := Nat.div_add_mod r c
  omega

theorem chunkSizes_pos (r c : Nat) (hc : 0 < c) (hcr : c ≤ r) :
    ∀ s ∈ chunkSizes r c, 1 ≤ s := by
  intro s hs
  unfold chunkSizes at hs
  simp only [List.mem_map, List.mem_range] at hs
  obtain ⟨i, _, rfl⟩ := hs
  have h1 : 1 ≤ r / c := (Nat.one_le_div_iff hc).2 hcr
  by_cases h : i < r % c
  · rw [if_pos h]
    omega
  · rw [if_neg h]
    omega

/-- The ceiling division `(r + c - 1) / c` in closed form. -/
theorem ceil_div_eq (r c : Nat) (hc : 0 < c) :
    (r + c - 1) / c = r / c + if r % c = 0 then 0 else 1 := by
  rcases Nat.eq_zero_or_pos r with hr | hr
  · subst hr
    rw [if_pos (by simp)]
    simp [Nat.div_eq_of_lt (by omega : c - 1 < c)]
  · have hdm := Nat.div_add_mod r c
    have hmod := Nat.mod_lt r hc
    by_cases h : r % c = 0
    · rw [if_pos h]
      have h2 : r + c - 1 = c * (r / c) + (c - 1) := by omega
      rw [h2, Nat.mul_add_div hc, Nat.div_eq_of_lt (by omega : c - 1 < c)]
    · rw [if_neg h]
      have h3 : c * (r / c + 1) = c * (r / c) + c := by ring
      have h2 : r + c - 1 = c * (r / c + 1) + (r % c - 1) := by omega
      rw [h2, Nat.mul_add_div hc, Nat.div_eq_of_lt (by omega : r % c - 1 < c)]

theorem chunkSizes_le_ceil (r c : Nat) (hc : 0 < c) :
    ∀ s ∈ chunkSizes r c, s ≤ (r + c - 1) / c := by
  intro s hs
  unfold chunkSizes at hs
  simp only [List.mem_map, List.mem_range] at hs
  obtain ⟨i, _, rfl⟩ := hs
  rw [ceil_div_eq r c hc]
  by_cases h : i < r % c
  · rw [if_pos h, if_neg (by omega)]
  · rw [if_neg h]
    by_cases h2 : r % c = 0
    · rw [if_pos h2]
    · rw [if_neg h2]
      omega

/-! ### `build_balanced_subtree` reproduces the data slice in preorder -/

theorem preorderValsList_append (ts us : List (Tree V)) :
    preorderValsList (ts ++ us) = preorderValsList ts ++ preorderValsList us := by
  induction ts with
  | nil => simp [preorderValsList]
  | cons t ts ih => simp [preorderValsList, ih]

theorem totalNodesList_append (ts us : List (Tree V)) :
    totalNodesList (ts ++ us) = totalNodesList ts + totalNodesList us := by
  induction ts with
  | nil => simp [totalNodesList]
  | cons t ts ih => simp [totalNodesList, ih]; omega

theorem preorderValsList_length (n : Nat) :
    ∀ ts : List (Tree V), totalNodesList ts ≤ n →
      (preorderValsList ts).length = totalNodesList ts := by
  induction n with
  | zero =>
      intro ts hts
      match ts with
      | [] => simp [preorderValsList, totalNodesList]
      | Tree.node v cs :: ts =>
          exfalso
          simp [totalNodesList, total_nodes] at hts
  | succ n ih =>
      intro ts hts
      match ts with
      | [] => simp [preorderValsList, totalNodesList]
      | Tree.node v cs :: ts =>
          have h0 : totalNodesList (Tree.node v cs :: ts)
              = totalNodesList cs + 1 + totalNodesList ts := by
            simp [totalNodesList, total_nodes]
          have h1 : totalNodesList cs ≤ n := by omega
          have h2 : totalNodesList ts ≤ n := by omega
          simp [preorderValsList, preorderVals, totalNodesList, total_nodes,
            ih cs h1, ih ts h2]
          omega

theorem preorderVals_length (t : Tree V) :
    (preorderVals t).length = total_nodes t := by
  have h := preorderValsList_length (totalNodesList [t]) [t] (le_refl _)
  simp [preorderValsList, totalNodesList] at h
  omega

/-- The inner loop of `build_balanced_subtree`: chunks of positive size that
exactly cover the remaining data concatenate back to it in preorder. -/
theorem buildChildren_flat (k n : Nat)
    (IH : ∀ data : List V, data.length ≤ n → data ≠ [] →
      ∃ t, build_balanced_subtree data k = some t ∧ preorderVals t = data) :
    ∀ (sizes : List Nat) (rest : List V),
      (∀ s ∈ sizes, 1 ≤ s) → sizes.sum = rest.length → rest.length ≤ n →
      preorderValsList (buildChildren rest sizes k) = rest := by
  intro sizes
  induction sizes with
  | nil =>
      intro rest _ hsum _
      simp only [List.sum_nil] at hsum
      have : rest = [] := List.length_eq_zero.1 hsum.symm
      subst this
      simp [buildChildren, preorderValsList]
  | cons s ss ihs =>
      intro rest hpos hsum hlen2
      simp only [List.sum_cons] at hsum
      have hs1 : 1 ≤ s := hpos s (by simp)
      have htake : (rest.take s).length = s := by
        simp [List.length_take]
        omega
      have htne : rest.take s ≠ [] := by
        intro h
        rw [h] at htake
        simp at htake
        omega
      obtain ⟨t, hbt, hpre⟩ := IH (rest.take s) (by rw [htake]; omega) htne
      rw [buildChildren, hbt]
      simp only [preorderValsList, hpre]
      have hdrop : preorderValsList (buildChildren (rest.drop s) ss k)
          = rest.drop s := by
        apply ihs
        · intro x hx
          exact hpos x (by simp [hx])
        · simp [List.length_drop]
          omega
        · simp [List.length_drop]
          omega
      rw [hdrop, List.take_append_drop]

/-- The preorder value sequence of the rebuilt subtree is exactly the data
slice it was built from (for a branching bound `k ≥ 1`). -/
theorem build_preorder (k : Nat) (hk : 1 ≤ k) :
    ∀ (n : Nat) (data : List V), data.length ≤ n → data ≠ [] →
      ∃ t, build_balanced_subtree data k = some t ∧ preorderVals t = data := by
  intro n
  induction n with
  | zero =>
      intro data hlen hne
      match data with
      | [] => exact absurd rfl hne
      | v :: rest => simp at hlen
  | succ n ih =>
      intro data hlen hne
      match data with
      | v :: rest =>
          by_cases hrest : rest.length = 0
          · have : rest = [] := List.length_eq_zero.1 hrest
            subst this
            refine ⟨Tree.node v [], ?_, ?_⟩
            · rw [build_balanced_subtree]
              simp
            · simp [preorderVals, preorderValsList]
          · have hr1 : 1 ≤ rest.length := by omega
            have hcpos : 0 < min rest.length k := by omega
            refine ⟨Tree.node v (buildChildren rest
              (chunkSizes rest.length (min rest.length k)) k), ?_, ?_⟩
            · rw [build_balanced_subtree]
              simp only [hrest, if_false]
              rw [if_neg (by omega)]
            · simp only [preorderVals]
              congr 1
              apply buildChildren_flat k n ih
              · exact chunkSizes_pos rest.length (min rest.length k) hcpos
                  (by omega)
              · exact chunkSizes_sum _ _ hcpos
              · simp at hlen
                omega

/-! ### Depth bound for `build_balanced_subtree` -/

theorem clog_chunk_step (k r : Nat) (hk : 2 ≤ k) (hr : 1 ≤ r) :
    Nat.clog k ((r + min r k - 1) / min r k) + 1 ≤ Nat.clog k (r + 1) := by
  rcases le_or_lt r k with h | h
  · -- every child is a single node
    have hmin : min r k = r := by omega
    rw [hmin]
    have h1 : (r + r - 1) / r = 1 := by
      have h2 : r + r - 1 = r * 1 + (r - 1) := by omega
      rw [h2, Nat.mul_add_div (by omega : 0 < r),
        Nat.div_eq_of_lt (by omega : r - 1 < r)]
    rw [h1, Nat.clog_one_right]
    have := Nat.clog_pos (b := k) (n := r + 1) (by omega) (by omega)
    omega
  · have hmin : min r k = k := by omega
    rw [hmin]
    rw [Nat.clog_of_two_le (by omega : 1 < k) (by omega : 2 ≤ r + 1)]
    have hle : (r + k - 1) / k ≤ (r + 1 + k - 1) / k :=
      Nat.div_le_div_right (by omega)
    have := Nat.clog_mono_right k hle
    omega

/-- The inner loop of `build_balanced_subtree`: when every chunk size is at
most `M`, every child subtree has depth at most `⌈log_k M⌉ + 1`. -/
theorem buildChildren_depth (k n M : Nat)
    (IH : ∀ (data : List V) (t : Tree V), data.length ≤ n →
      build_balanced_subtree data k = some t →
      depth t ≤ Nat.clog k data.length + 1) :
    ∀ (sizes : List Nat) (rest : List V),
      (∀ s ∈ sizes, s ≤ M) → rest.length ≤ n →
      depthList (buildChildren rest sizes k) ≤ Nat.clog k M + 1 := by
  intro sizes
  induction sizes with
  | nil =>
      intro rest _ _
      simp [buildChildren, depthList]
  | cons s ss ihs =>
      intro rest hbound hlen
      have hsM : s ≤ M := hbound s (by simp)
      have hdrop : depthList (buildChildren (rest.drop s) ss k)
          ≤ Nat.clog k M + 1 := by
        apply ihs
        · intro x hx
          exact hbound x (by simp [hx])
        · simp [List.length_drop]
          omega
      rw [buildChildren]
      cases hbt2 : build_balanced_subtree (rest.take s) k with
      | none => exact hdrop
      | some t2 =>
          simp only [depthList]
          have hd2 : depth t2 ≤ Nat.clog k (rest.take s).length + 1 :=
            IH (rest.take s) t2 (by simp [List.length_take]; omega) hbt2
          have htakeM : (rest.take s).length ≤ M := by
            simp [List.length_take]
            omega
          have h3 : depth t2 ≤ Nat.clog k M + 1 :=
            le_trans hd2 (by
              have := Nat.clog_mono_right k htakeM
              omega)
          omega

theorem build_depth (k : Nat) (hk : 2 ≤ k) :
    ∀ (n : Nat) (data : List V) (t : Tree V), data.length ≤ n →
      build_balanced_subtree data k = some t →
      depth t ≤ Nat.clog k data.length + 1 := by
  intro n
  induction n with
  | zero =>
      intro data t hlen hbt
      match data with
      | [] => simp [build_balanced_subtree] at hbt
      | v :: rest => simp at hlen
  | succ n ih =>
      intro data t hlen hbt
      match data with
      | [] => simp [build_balanced_subtree] at hbt
      | v :: rest =>
          by_cases hrest : rest.length = 0
          · rw [build_balanced_subtree] at hbt
            rw [if_pos hrest] at hbt
            cases hbt
            simp [depth, depthList]
          · have hr1 : 1 ≤ rest.length := by omega
            have hcpos : 0 < min rest.length k := by omega
            rw [build_balanced_subtree] at hbt
            rw [if_neg hrest, if_neg (by omega)] at hbt
            cases hbt
            simp only [depth]
            have hstep := clog_chunk_step k rest.length hk hr1
            have hlen2 : rest.length ≤ n := by simp at hlen; omega
            have hchild : depthList (buildChildren rest
                (chunkSizes rest.length (min rest.length k)) k)
                ≤ Nat.clog k ((rest.length + min rest.length k - 1)
                    / min rest.length k) + 1 :=
              buildChildren_depth k n _ ih _ rest
                (chunkSizes_le_ceil rest.length (min rest.length k) hcpos)
                hlen2
            have hfin : Nat.clog k (rest.length + 1)
                ≤ Nat.clog k (v :: rest).length := by
              simp
            omega

/-! ### BFS data collection is a permutation of the preorder values -/

theorem collectQueue_perm (n : Nat) :
    ∀ q : List (Tree V), totalNodesList q ≤ n →
      (collectQueue q).Perm (preorderValsList q) := by
  induction n with
  | zero =>
      intro q hq
      match q with
      | [] => simp [collectQueue, preorderValsList]
      | Tree.node v cs :: q =>
          exfalso
          simp [totalNodesList, total_nodes] at hq
  | succ n ih =>
      intro q hq
      match q with
      | [] => simp [collectQueue, preorderValsList]
      | Tree.node v cs :: q =>
          have h0 : totalNodesList (Tree.node v cs :: q)
              = totalNodesList cs + 1 + totalNodesList q := by
            simp [totalNodesList, total_nodes]
          have h1 : totalNodesList (q ++ cs) ≤ n := by
            rw [totalNodesList_append]
            omega
          rw [collectQueue]
          have h2 := ih (q ++ cs) h1
          rw [preorderValsList_append] at h2
          have h3 : preorderValsList (Tree.node v cs :: q)
              = v :: (preorderValsList cs ++ preorderValsList q) := by
            simp [preorderValsList, preorderVals]
          rw [h3]
          exact List.Perm.trans (List.Perm.cons v h2)
            (List.Perm.cons v List.perm_append_comm)

theorem totalNodesList_eq_zero {ts : List (Tree V)} :
    totalNodesList ts = 0 → ts = [] := by
  intro h
  match ts with
  | [] => rfl
  | Tree.node v cs :: ts => simp [totalNodesList, total_nodes] at h

/-- C3.  `balance_tree k` on a tree honestly reporting `n = total_nodes root`
nodes, for any branching bound `k ≥ 2`: the rebuilt tree has depth at most
`⌈log_k n⌉ + 1`, the multiset of stored values is unchanged (stated as a
permutation of the preorder value sequences), the node count is unchanged and
the reported `size()` is unchanged — regardless of the input shape. -/
theorem balance_tree_spec (t : NaryTree V) (k : Nat) (r : Tree V)
    (hk : 2 ≤ k) (hr : t.root = some r) (hs : t.size_ = total_nodes r) :
    ∃ r2, (balance_tree t k).root = some r2 ∧
      depth r2 ≤ Nat.clog k (total_nodes r) + 1 ∧
      (preorderVals r2).Perm (preorderVals r) ∧
      total_nodes r2 = total_nodes r ∧
      (balance_tree t k).size_ = t.size_ := by
  have htot : 1 ≤ total_nodes r := by
    match r with
    | Tree.node v cs => simp [total_nodes]
  by_cases hsz : t.size_ ≤ 1
  · -- the guard `size_ <= 1` fires: the tree is a single node and unchanged
    have h1 : total_nodes r = 1 := by omega
    match r with
    | Tree.node v cs =>
        have hcs : cs = [] := by
          apply totalNodesList_eq_zero
          simp [total_nodes] at h1
          omega
        subst hcs
        refine ⟨Tree.node v [], ?_, ?_, ?_, ?_, ?_⟩
        · have hb : balance_tree t k = t := by
            simp [balance_tree, hr, hsz]
          rw [hb, hr]
        · simp [depth, depthList, h1]
        · exact List.Perm.refl _
        · rfl
        · have hb : balance_tree t k = t := by
            simp [balance_tree, hr, hsz]
          rw [hb]
  · have hcollect : collect_all_data t = collectQueue [r] := by
      simp [collect_all_data, hr]
    have hperm : (collectQueue [r]).Perm (preorderVals r) := by
      have h := collectQueue_perm (totalNodesList [r]) [r] (le_refl _)
      simpa [preorderValsList] using h
    have hclen : (collectQueue [r]).length = total_nodes r := by
      rw [hperm.length_eq]
      exact preorderVals_length r
    have hne : collectQueue [r] ≠ [] := by
      intro h
      rw [h] at hclen
      simp at hclen
      omega
    obtain ⟨r2, hbr2, hpre2⟩ := build_preorder k (by omega)
      (collectQueue [r]).length (collectQueue [r]) (le_refl _) hne
    have hdep := build_depth k hk (collectQueue [r]).length
      (collectQueue [r]) r2 (le_refl _) hbr2
    refine ⟨r2, ?_, ?_, ?_, ?_, ?_⟩
    · simp [balance_tree, hr, hsz, hcollect, hbr2]
    · rw [hclen] at hdep
      exact hdep
    · rw [hpre2]
      exact hperm
    · rw [← preorderVals_length r2, hpre2, hclen]
    · simp [balance_tree, hr, hsz]

theorem balance_tree_spec_witness :
    ∃ r2, (balance_tree
        (⟨some (Tree.node (0 : Nat) [Tree.node 1 [Tree.node 2 []]]), 3⟩) 2).root
        = some r2 ∧
      depth r2 ≤ Nat.clog 2
        (total_nodes (Tree.node (0 : Nat) [Tree.node 1 [Tree.node 2 []]])) + 1 ∧
      (preorderVals r2).Perm
        (preorderVals (Tree.node (0 : Nat) [Tree.node 1 [Tree.node 2 []]])) ∧
      total_nodes r2
        = total_nodes (Tree.node (0 : Nat) [Tree.node 1 [Tree.node 2 []]]) ∧
      (balance_tree
        (⟨some (Tree.node (0 : Nat) [Tree.node 1 [Tree.node 2 []]]), 3⟩) 2).size_
        = (⟨some (Tree.node (0 : Nat) [Tree.node 1 [Tree.node 2 []]]), 3⟩
            : NaryTree Nat).size_ :=
  balance_tree_spec _ 2 _ (le_refl 2) rfl
    (by simp [total_nodes, totalNodesList])

/-- `NaryTree::needs_rebalancing` (`nary_tree.cpp` lines 402-411): `false` for
a null root or `size_ <= 3`; otherwise compares the statistics `max_depth`
with twice `(size_t)(log(size_)/log(3)) + 1`.  The float expression computes
the floor of the base-3 logarithm (up to floating-point rounding, irrelevant
to claims about the guard), modeled as `Nat.log 3`. -/
def needs_rebalancing (t : NaryTree V) : Bool :=
  match t.root with
  | none => false
  | some r =>
    if t.size_ ≤ 3 then false
    else decide (depth r > (Nat.log 3 t.size_ + 1) * 2)

/-- C10.  `needs_rebalancing` reports `false` for every tree whose `size()`
is at most 3, whatever its shape: the guard `!root_ || size_ <= 3` short
circuits before any depth heuristic is consulted. -/
theorem needs_rebalancing_small_false (t : NaryTree V) (h : t.size_ ≤ 3) :
    needs_rebalancing t = false := by
  match hr : t.root with
  | none => simp [needs_rebalancing, hr]
  | some r => simp [needs_rebalancing, hr, h]

theorem needs_rebalancing_small_false_witness :
    (⟨some (Tree.node (0 : Nat) [Tree.node 1 [Tree.node 2 []]]), 3⟩
      : NaryTree Nat).size_ ≤ 3 ∧
    needs_rebalancing
      (⟨some (Tree.node (0 : Nat) [Tree.node 1 [Tree.node 2 []]]), 3⟩
        : NaryTree Nat) = false :=
  ⟨by decide, needs_rebalancing_small_false _ (by decide)⟩

/-! ## The `PyObject*` arena variant (`succinct_narytree_unified.cpp`)

The top-level `succinct_narytree_unified.cpp` defines a second class named
`SuccinctNaryTree`, storing one payload pointer and one child-id list per
node.  Payloads are opaque; reference counting (`Py_DECREF`) is not an
observable of any claim.  Every mutator ends in `balance_if_needed`; all
mutators here additionally report whether that call ran
`rebalance_for_locality` (the `Bool` component), which the C++ does not
return but which is the event the rebalance-policy claims talk about. -/

namespace PyVariant

structure SuccinctNaryTree (V : Type) where
  node_data : List V
  children : List (List Nat)
  next_id : Nat
  operations_since_balance : Nat
deriving DecidableEq

def LAZY_BALANCE_THRESHOLD : Nat := 100

variable {V : Type}

/-- `rebalance_for_locality` (lines 142-151): resets the counter and shrinks
vector capacities; the stored contents are untouched. -/
def rebalance_for_locality (t : SuccinctNaryTree V) : SuccinctNaryTree V :=
  { t with operations_since_balance := 0 }

/-- `balance_if_needed` (lines 22-28), with an explicit record of whether the
reorder ran: increments the counter and, exactly when it has reached
`LAZY_BALANCE_THRESHOLD`, runs `rebalance_for_locality` and zeroes the
counter. -/
def balance_if_needed (t : SuccinctNaryTree V) : SuccinctNaryTree V × Bool :=
  let t1 := { t with
    operations_since_balance := t.operations_since_balance + 1 }
  if LAZY_BALANCE_THRESHOLD ≤ t1.operations_since_balance then
    ({ rebalance_for_locality t1 with operations_since_balance := 0 }, true)
  else (t1, false)

/-- `set_root` (lines 65-77): on an empty tree, appends a root node; on a
non-empty tree it only overwrites slot 0's payload, leaving every other node,
every child link and the size untouched.  Ends in `balance_if_needed`. -/
def set_root (t : SuccinctNaryTree V) (v : V) : SuccinctNaryTree V × Bool :=
  if t.node_data.isEmpty then
    balance_if_needed
      { t with node_data := [v], children := t.children ++ [[]], next_id := 1 }
  else
    balance_if_needed { t with node_data := t.node_data.set 0 v }

/-- `add_child` (lines 79-91): `none` models the
`throw std::runtime_error("Invalid parent node ID")` on an out-of-range
parent (this arena never retires ids, so every id below `size()` is valid);
otherwise appends the node, links it under the parent, and returns the new id
`next_id`. -/
def add_child (t : SuccinctNaryTree V) (parent_id : Nat) (v : V) :
    Option (SuccinctNaryTree V × Bool × Nat) :=
  if t.node_data.length ≤ parent_id then none
  else
    let child_id := t.next_id
    let cs1 := t.children ++ [[]]
    let cs2 := cs1.set parent_id (cs1.getD parent_id [] ++ [child_id])
    let r := balance_if_needed
      ⟨t.node_data ++ [v], cs2, t.next_id + 1, t.operations_since_balance⟩
    some (r.1, r.2, child_id)

/-- `set_data` (lines 100-109). -/
def set_data (t : SuccinctNaryTree V) (node_id : Nat) (v : V) :
    Option (SuccinctNaryTree V × Bool) :=
  if t.node_data.length ≤ node_id then none
  else some (balance_if_needed { t with node_data := t.node_data.set node_id v })

/-- `child_count` (lines 111-116): `none` models the throw on a bad id. -/
def child_count (t : SuccinctNaryTree V) (node_id : Nat) : Option Nat :=
  if t.children.length ≤ node_id then none
  else some (t.children.getD node_id []).length

/-- `size` (lines 53-55). -/
def size (t : SuccinctNaryTree V) : Nat := t.node_data.length

/-- Modelled from the spec: the §4.4 locality score of this arena — the mean
over all parent→child edges of `1 / (1 + |child_id − parent_id| / 10)` (the
class itself never computes this quantity; its `get_locality_statistics` uses
an unrelated capacity-based formula, and its rebalance policy consults no
score at all). -/
def specLocalityScore (t : SuccinctNaryTree V) : ℚ :=
  let terms := (List.range t.children.length).flatMap (fun p =>
    (t.children.getD p []).map (fun c =>
      (1 : ℚ) / (1 + (Int.natAbs ((c : ℤ) - (p : ℤ)) : ℚ) / 10)))
  if terms.length = 0 then 1 else terms.sum / terms.length

/-- `balance_if_needed` only touches the operation counter: payloads, links
and `next_id` are left alone (the conditional `rebalance_for_locality` only
shrinks capacities). -/
theorem balance_if_needed_frame (s : SuccinctNaryTree V) :
    (balance_if_needed s).1.node_data = s.node_data ∧
    (balance_if_needed s).1.children = s.children ∧
    (balance_if_needed s).1.next_id = s.next_id := by
  unfold balance_if_needed rebalance_for_locality
  by_cases hb : LAZY_BALANCE_THRESHOLD
      ≤ s.operations_since_balance + 1 <;> simp [hb]

end PyVariant

/-- C5.  `add_child(parent_id, value)` on the arena variant: it succeeds if
and only if `parent_id` is in range (in this arena ids are never retired, so
every id below `size()` refers to a valid node); on success the parent's
child count grows by exactly one, the returned id is a fresh link recorded
under the parent and addresses the new node holding `value`, and the size
grows by one; on failure (`none`, the C++ throw) no state is produced, so
nothing changes.  Needs the class invariants `|children| = |node_data|` and
`next_id = |node_data|`, which every constructor and mutator maintains. -/
theorem add_child_spec (t : PyVariant.SuccinctNaryTree V)
    (hwf1 : t.children.length = t.node_data.length)
    (hwf2 : t.next_id = t.node_data.length)
    (p : Nat) (v : V) :
    ((PyVariant.add_child t p v).isSome ↔ p < PyVariant.size t) ∧
    (∀ t2 tr cid, PyVariant.add_child t p v = some (t2, tr, cid) →
      PyVariant.child_count t2 p
          = some ((t.children.getD p []).length + 1) ∧
      cid ∈ t2.children.getD p [] ∧
      t2.node_data[cid]? = some v ∧
      PyVariant.size t2 = PyVariant.size t + 1) := by
  have hbal := fun s : PyVariant.SuccinctNaryTree V =>
    PyVariant.balance_if_needed_frame s
  constructor
  · unfold PyVariant.add_child PyVariant.size
    by_cases h : t.node_data.length ≤ p
    · rw [if_pos h]
      simp
      omega
    · rw [if_neg h]
      simp
      omega
  · intro t2 tr cid hadd
    unfold PyVariant.add_child at hadd
    by_cases h : t.node_data.length ≤ p
    · rw [if_pos h] at hadd
      exact absurd hadd (by simp)
    · rw [if_neg h] at hadd
      have hpc : p < t.children.length := by omega
      have hpc1 : p < (t.children ++ [[]]).length := by
        simp
        omega
      have happ : (t.children ++ [[]]).getD p [] = t.children.getD p [] := by
        rw [List.getD_eq_getElem?_getD, List.getElem?_append_left hpc,
          ← List.getD_eq_getElem?_getD]
      have hset : ((t.children ++ [[]]).set p
            ((t.children ++ [[]]).getD p [] ++ [t.next_id])).getD p []
          = t.children.getD p [] ++ [t.next_id] := by
        rw [List.getD_eq_getElem?_getD, List.getElem?_set_self hpc1, happ]
        rfl
      cases hadd
      refine ⟨?_, ?_, ?_, ?_⟩
      · unfold PyVariant.child_count
        rw [(hbal _).2.1]
        rw [if_neg (by simp; omega), hset]
        simp
      · rw [(hbal _).2.1, hset]
        simp
      · rw [(hbal _).1, hwf2]
        simp
      · unfold PyVariant.size
        rw [(hbal _).1]
        simp

/-- C7, counterexample.  On the arena variant, `set_root` on a non-empty tree
does NOT discard the prior tree: on the two-node tree `0 → 1` it leaves the
size at 2 and keeps the root's child link, merely overwriting the root's
payload.  The claim's "size() equals 1 and the root has no children" is false
here. -/
theorem set_root_keeps_prior_tree :
    PyVariant.size (PyVariant.set_root
        (⟨[1, 2], [[1], []], 2, 0⟩ : PyVariant.SuccinctNaryTree Nat) 9).1 = 2 ∧
    (PyVariant.set_root
        (⟨[1, 2], [[1], []], 2, 0⟩ : PyVariant.SuccinctNaryTree Nat) 9).1.children
      = [[1], []] ∧
    (PyVariant.set_root
        (⟨[1, 2], [[1], []], 2, 0⟩ : PyVariant.SuccinctNaryTree Nat) 9).1.node_data
      = [9, 2] := by
  decide

/-- C7, amended.  `NaryTree::set_root` behaves exactly as claimed: the whole
prior tree is dropped and replaced by a single root holding the value, with
`size_ = 1` and no children.  The arena variant's `set_root`, however, only
creates a fresh single root when the tree is empty; on a non-empty tree it
overwrites the root payload in place and leaves every child link and the size
unchanged. -/
theorem set_root_spec :
    (∀ (t : NaryTree V) (v : V),
      NaryTree.set_root t v = ⟨some (Tree.node v []), 1⟩) ∧
    (∀ (s : PyVariant.SuccinctNaryTree V) (v : V), s.node_data = [] →
      (PyVariant.set_root s v).1.node_data = [v] ∧
      (PyVariant.set_root s v).1.children = s.children ++ [[]]) ∧
    (∀ (s : PyVariant.SuccinctNaryTree V) (v : V), s.node_data ≠ [] →
      (PyVariant.set_root s v).1.node_data = s.node_data.set 0 v ∧
      (PyVariant.set_root s v).1.children = s.children ∧
      PyVariant.size (PyVariant.set_root s v).1 = PyVariant.size s) := by
  refine ⟨fun t v => rfl, ?_, ?_⟩
  · intro s v hempty
    unfold PyVariant.set_root
    rw [if_pos (by simp [hempty])]
    exact ⟨(PyVariant.balance_if_needed_frame _).1,
      (PyVariant.balance_if_needed_frame _).2.1⟩
  · intro s v hne
    unfold PyVariant.set_root
    rw [if_neg (by simp [hne])]
    refine ⟨(PyVariant.balance_if_needed_frame _).1,
      (PyVariant.balance_if_needed_frame _).2.1, ?_⟩
    unfold PyVariant.size
    rw [(PyVariant.balance_if_needed_frame _).1]
    simp

theorem set_root_spec_witness :
    (NaryTree.set_root (⟨none, 0⟩ : NaryTree Nat) 4
      = ⟨some (Tree.node 4 []), 1⟩) ∧
    ((PyVariant.set_root
        (⟨[], [], 0, 0⟩ : PyVariant.SuccinctNaryTree Nat) 4).1.node_data = [4]) ∧
    (PyVariant.size (PyVariant.set_root
        (⟨[1, 2], [[1], []], 2, 0⟩ : PyVariant.SuccinctNaryTree Nat) 9).1
      = PyVariant.size
        (⟨[1, 2], [[1], []], 2, 0⟩ : PyVariant.SuccinctNaryTree Nat)) :=
  ⟨set_root_spec.1 (⟨none, 0⟩ : NaryTree Nat) 4,
   (set_root_spec.2.1 (⟨[], [], 0, 0⟩ : PyVariant.SuccinctNaryTree Nat) 4 rfl).1,
   (set_root_spec.2.2 (⟨[1, 2], [[1], []], 2, 0⟩ : PyVariant.SuccinctNaryTree Nat)
     9 (by decide)).2.2⟩

theorem add_child_spec_witness :
    ((PyVariant.add_child
        (⟨[7], [[]], 1, 0⟩ : PyVariant.SuccinctNaryTree Nat) 0 8).isSome
      ↔ 0 < PyVariant.size (⟨[7], [[]], 1, 0⟩ : PyVariant.SuccinctNaryTree Nat)) ∧
    (∀ t2 tr cid, PyVariant.add_child
        (⟨[7], [[]], 1, 0⟩ : PyVariant.SuccinctNaryTree Nat) 0 8
          = some (t2, tr, cid) →
      PyVariant.child_count t2 0 = some 1 ∧
      cid ∈ t2.children.getD 0 [] ∧
      t2.node_data[cid]? = some 8 ∧
      PyVariant.size t2 = 2) :=
  add_child_spec (⟨[7], [[]], 1, 0⟩ : PyVariant.SuccinctNaryTree Nat)
    rfl rfl 0 8

/-! ## The unified flat-array engine
(`narytree_src/succinct_narytree_unified.cpp`)

`SuccinctNaryTree<T>` keeps the whole tree in parallel arrays
(`SuccinctWorkingStorage`).  Ids are positions in those arrays.  While-loops
over worklists are modeled with an explicit fuel argument; every claim below
supplies enough fuel (`node_count`) and proves, under the class invariants,
that the loop terminates within it exactly as the C++ does. -/

namespace Unified

structure SuccinctWorkingStorage (V : Type) where
  structure_bits : List Bool
  data_array : List V
  parent_indices : List Nat
  first_child_pos : List Nat
  child_counts : List Nat
  node_count : Nat
  operations_since_balance : Nat
deriving DecidableEq

def LAZY_BALANCE_THRESHOLD : Nat := 100

variable {V : Type}

/-- The scan loop of `get_child_node_index` (lines 384-399): walk the
candidate indices, counting nodes whose parent is `p`, until the target-th
one is found. -/
def findNthChild (parents : List Nat) (p : Nat) :
    List Nat → Nat → Option Nat
  | [], _ => none
  | i :: is, target =>
    if parents.getD i 0 = p then
      if target = 0 then some i else findNthChild parents p is (target - 1)
    else findNthChild parents p is target

/-- `get_child_node_index` (lines 384-399): `none` models `SIZE_MAX`.  The
scan runs over `i = parent_index + 1, …, node_count - 1`. -/
def get_child_node_index (s : SuccinctWorkingStorage V)
    (parent_index child_index : Nat) : Option Nat :=
  if s.child_counts.length ≤ parent_index then none
  else if s.child_counts.getD parent_index 0 ≤ child_index then none
  else findNthChild s.parent_indices parent_index
    (List.range' (parent_index + 1) (s.node_count - (parent_index + 1)))
    child_index

/-- The child ids a node enqueues (`for j < child_counts[i]:
queue.push(get_child_node_index(i, j))`).  The C++ pushes the raw result and
would index out of bounds on a `SIZE_MAX`; under the class invariants the
lookup never fails (`get_child_eq` below), so the model drops the impossible
sentinel. -/
def childIndices (s : SuccinctWorkingStorage V) (i : Nat) : List Nat :=
  (List.range (s.child_counts.getD i 0)).filterMap (get_child_node_index s i)

/-- The per-edge proximity terms accumulated by `calculate_locality_score`
(lines 472-497): one term `1 / (1 + |child − parent| / 10)` per found edge.
The C++ computes in `double`; the model computes the same expression
exactly in `ℚ`. -/
def localityTerms (s : SuccinctWorkingStorage V) : List ℚ :=
  (List.range s.node_count).flatMap (fun i =>
    (List.range (s.child_counts.getD i 0)).filterMap (fun j =>
      (get_child_node_index s i j).map (fun c : Nat =>
        (1 : ℚ) / (1 + (Int.natAbs ((c : ℤ) - (i : ℤ)) : ℚ) / 10))))

/-- `calculate_locality_score` (lines 472-497). -/
def calculate_locality_score (s : SuccinctWorkingStorage V) : ℚ :=
  if s.node_count ≤ 1 then 1
  else if (localityTerms s).length = 0 then 1
  else (localityTerms s).sum / (localityTerms s).length

/-- `needs_locality_rebalancing` (lines 464-470). -/
def needs_locality_rebalancing (s : SuccinctWorkingStorage V) : Bool :=
  if s.node_count ≤ 3 then false
  else decide (calculate_locality_score s < 7 / 10)

/-- The state threaded through the breadth-first reordering loop of
`rebalance_for_locality` (lines 263-326). -/
structure RebalState (V : Type) where
  queue : List Nat
  mapping : List Nat
  reordered_data : List V
  new_parent_indices : List Nat
  new_child_counts : List Nat
  new_first_child_pos : List Nat

/-- One `while (!queue.empty())` body plus the loop, with fuel: pop a node,
record its new index (`old_to_new_mapping[old] = new_index` happens at pop
time), append its payload and child count, translate its parent through the
mapping (the root keeps parent 0), push a placeholder `first_child_pos`, and
enqueue its children. -/
def rebalLoop [Inhabited V] (s : SuccinctWorkingStorage V) :
    Nat → RebalState V → RebalState V
  | 0, st => st
  | fuel + 1, st =>
    match st.queue with
    | [] => st
    | old :: q =>
      let new_index := st.reordered_data.length
      let mapping2 := st.mapping.set old new_index
      rebalLoop s fuel
        { queue := q ++ childIndices s old,
          mapping := mapping2,
          reordered_data := st.reordered_data ++ [s.data_array.getD old default],
          new_parent_indices := st.new_parent_indices ++
            [if old = 0 then 0
             else mapping2.getD (s.parent_indices.getD old 0) 0],
          new_child_counts := st.new_child_counts ++ [s.child_counts.getD old 0],
          new_first_child_pos := st.new_first_child_pos ++ [0] }

/-- The `while` loop of `rebuild_structure_bits_locality_optimized`
(lines 499-524), run on the already-reordered storage: every visited node
appends an open and a close bit and enqueues its children. -/
def rebuildBitsLoop (s : SuccinctWorkingStorage V) :
    Nat → List Nat → List Bool
  | 0, _ => []
  | _ + 1, [] => []
  | fuel + 1, cur :: q =>
      true :: false :: rebuildBitsLoop s fuel (q ++ childIndices s cur)

/-- `rebalance_for_locality` (lines 263-326): no-op for `node_count <= 3`;
otherwise relabels all nodes in breadth-first visitation order into fresh
arrays, rebuilds the structure bits over the new arrays, and resets the
operation counter.  The C++ loop terminates when the queue is empty; with
fuel `node_count` the model performs the identical pops under the class
invariants (`rebal_queue_empties` below). -/
def rebalance_for_locality [Inhabited V] (s : SuccinctWorkingStorage V) :
    SuccinctWorkingStorage V :=
  if s.node_count ≤ 3 then s
  else
    let st := rebalLoop s s.node_count
      ⟨[0], List.replicate s.node_count 0, [], [], [], []⟩
    let s2 : SuccinctWorkingStorage V :=
      { s with
        data_array := st.reordered_data,
        parent_indices := st.new_parent_indices,
        child_counts := st.new_child_counts,
        first_child_pos := st.new_first_child_pos }
    { s2 with
      structure_bits := rebuildBitsLoop s2 s2.node_count [0],
      operations_since_balance := 0 }

/-- `check_and_rebalance_for_locality` (lines 456-462), with an explicit
record of whether the reorder ran. -/
def check_and_rebalance_for_locality [Inhabited V]
    (s : SuccinctWorkingStorage V) : SuccinctWorkingStorage V × Bool :=
  if LAZY_BALANCE_THRESHOLD ≤ s.operations_since_balance then
    if needs_locality_rebalancing s then (rebalance_for_locality s, true)
    else (s, false)
  else (s, false)

/-- The pure arena append of `add_child_to_node` (lines 176-193): push the
payload, parent link, zero child count and zero first-child position, bump
the parent's child count (the C++ guards the bump against the post-push
array size), append the open/close bit pair
(`update_structure_bits_for_new_child`, lines 377-382, ignores its
arguments), and advance both counters. -/
def appendChild (s : SuccinctWorkingStorage V) (parent_index : Nat)
    (child_data : V) : SuccinctWorkingStorage V :=
  let cc1 := s.child_counts ++ [0]
  { structure_bits := s.structure_bits ++ [true, false],
    data_array := s.data_array ++ [child_data],
    parent_indices := s.parent_indices ++ [parent_index],
    first_child_pos := s.first_child_pos ++ [0],
    child_counts :=
      if parent_index < cc1.length then
        cc1.set parent_index (cc1.getD parent_index 0 + 1)
      else cc1,
    node_count := s.node_count + 1,
    operations_since_balance := s.operations_since_balance + 1 }

/-- `add_child_to_node` (lines 170-199): throws for an out-of-range parent;
otherwise captures `new_index = node_count` BEFORE the append, appends the
child, runs the embedded lazy rebalance check — which may relabel every
node — and only then returns a view holding the captured pre-rebalance
index. -/
def add_child_to_node [Inhabited V] (s : SuccinctWorkingStorage V)
    (parent_index : Nat) (child_data : V) :
    Option (SuccinctWorkingStorage V × Nat) :=
  if s.node_count ≤ parent_index then none
  else some
    ((check_and_rebalance_for_locality (appendChild s parent_index child_data)).1,
     s.node_count)

/-- The recursion of `collect_descendants` (lines 428-437): the node itself,
then recursively every `i < node_count` whose parent is the node, in index
order.  The C++ recursion terminates because children have larger indices
than their parents; `fuel = node_count` suffices then (the fuel-exhausted
base case is unreachable for the arguments the engine passes). -/
def collect_descendants (s : SuccinctWorkingStorage V) :
    Nat → Nat → List Nat
  | 0, node_index => [node_index]
  | fuel + 1, node_index =>
      node_index ::
        ((List.range s.node_count).filter
          (fun i => s.parent_indices.getD i 0 = node_index)).flatMap
          (fun i => collect_descendants s fuel i)

/-- Descending insertion sort, modeling
`std::sort(to_remove.rbegin(), to_remove.rend())`: any comparison sort
produces the same descending arrangement of these indices. -/
def insertDesc (x : Nat) : List Nat → List Nat
  | [] => [x]
  | y :: ys => if y ≤ x then x :: y :: ys else y :: insertDesc x ys

def sortDesc : List Nat → List Nat
  | [] => []
  | x :: xs => insertDesc x (sortDesc xs)

/-- The erase loop of `remove_node_and_descendants` (lines 413-422): for each
index, in descending order, erase that slot from all four parallel arrays and
decrement `node_count` (guarded by `idx < data_array.size()`). -/
def removeLoop : SuccinctWorkingStorage V → List Nat → SuccinctWorkingStorage V
  | s, [] => s
  | s, idx :: rest =>
      removeLoop
        (if idx < s.data_array.length then
          { s with
            data_array := s.data_array.eraseIdx idx,
            parent_indices := s.parent_indices.eraseIdx idx,
            child_counts := s.child_counts.eraseIdx idx,
            first_child_pos := s.first_child_pos.eraseIdx idx,
            node_count := s.node_count - 1 }
        else s) rest

/-- `update_indices_after_removal` (lines 439-454): shift every parent index
down by the number of removed indices below it. -/
def update_indices_after_removal (s : SuccinctWorkingStorage V)
    (removed_indices : List Nat) : SuccinctWorkingStorage V :=
  { s with parent_indices := s.parent_indices.map (fun p =>
      p - (removed_indices.filter (fun r => decide (r < p))).length) }

/-- `remove_node_and_descendants` (lines 401-426). -/
def remove_node_and_descendants (s : SuccinctWorkingStorage V)
    (node_index : Nat) : SuccinctWorkingStorage V :=
  if s.node_count ≤ node_index then s
  else
    let to_remove := collect_descendants s s.node_count node_index
    update_indices_after_removal (removeLoop s (sortDesc to_remove)) to_remove

/-- The `{node, depth}` worklist loop of `calculate_max_depth`
(lines 526-549), with fuel. -/
def maxDepthLoop (s : SuccinctWorkingStorage V) :
    Nat → List (Nat × Nat) → Nat → Nat
  | 0, _, acc => acc
  | _ + 1, [], acc => acc
  | fuel + 1, (node_idx, d) :: q, acc =>
      maxDepthLoop s fuel
        (q ++ (childIndices s node_idx).map (fun c => (c, d + 1)))
        (max acc d)

/-- `calculate_max_depth` (lines 526-549). -/
def calculate_max_depth (s : SuccinctWorkingStorage V) : Nat :=
  if s.node_count = 0 then 0
  else maxDepthLoop s s.node_count [(0, 1)] 0

/-- The class invariants of a live storage: parallel arrays of length
`node_count`; the root (id 0) is its own parent; every other node's parent
has a smaller id (nodes are only ever appended under existing parents, and
removals shift all ids uniformly); and each node's stored child count is the
number of its children.  These hold for every storage reachable through the
mutators while no removal has been performed (removals leave the removed
parent's stale `child_counts` behind, see C6). -/
def WF (s : SuccinctWorkingStorage V) : Prop :=
  s.data_array.length = s.node_count ∧
  s.parent_indices.length = s.node_count ∧
  s.child_counts.length = s.node_count ∧
  s.first_child_pos.length = s.node_count ∧
  s.parent_indices.getD 0 0 = 0 ∧
  (∀ j, 0 < j → j < s.node_count → s.parent_indices.getD j 0 < j) ∧
  (∀ i, i < s.node_count →
    s.child_counts.getD i 0
      = ((List.range s.node_count).filter
          (fun j => decide (0 < j) && decide (s.parent_indices.getD j 0 = i))).length)

/-- The depth (distance from the root, root at 0) of a node, following the
parent chain; under `WF` the chain strictly descends, so `x` itself bounds
its length. -/
def levelFuel (s : SuccinctWorkingStorage V) : Nat → Nat → Nat
  | 0, _ => 0
  | fuel + 1, x =>
      if x = 0 then 0 else levelFuel s fuel (s.parent_indices.getD x 0) + 1

def levelOf (s : SuccinctWorkingStorage V) (x : Nat) : Nat :=
  levelFuel s x x

/-! ### Child enumeration under the invariants -/

/-- The children of node `i`, as the index scan of `get_child_node_index`
produces them: the indices above `i` whose parent is `i`, in increasing
order. -/
def childrenFilter (s : SuccinctWorkingStorage V) (i : Nat) : List Nat :=
  (List.range' (i + 1) (s.node_count - (i + 1))).filter
    (fun j => decide (s.parent_indices.getD j 0 = i))

theorem findNthChild_eq (parents : List Nat) (p : Nat) :
    ∀ (cand : List Nat) (target : Nat),
      findNthChild parents p cand target
        = (cand.filter (fun x => decide (parents.getD x 0 = p)))[target]? := by
  intro cand
  induction cand with
  | nil => intro target; simp [findNthChild]
  | cons i is ih =>
      intro target
      by_cases h : parents.getD i 0 = p
      · have hf : (i :: is).filter (fun x => decide (parents.getD x 0 = p))
            = i :: is.filter (fun x => decide (parents.getD x 0 = p)) := by
          rw [List.filter_cons, if_pos (decide_eq_true h)]
        rw [findNthChild, if_pos h, hf]
        match target with
        | 0 => simp
        | target + 1 => simp [ih target]
      · have hf : (i :: is).filter (fun x => decide (parents.getD x 0 = p))
            = is.filter (fun x => decide (parents.getD x 0 = p)) := by
          rw [List.filter_cons, if_neg (by simpa using h)]
        rw [findNthChild, if_neg h, hf]
        exact ih target

/-- Splitting the full-range filter of the `child_counts` invariant at
`i + 1` leaves exactly `childrenFilter`: indices `j ≤ i` can never have
parent `i` (the root is its own parent and parents are strictly smaller). -/
theorem count_filter_eq (s : SuccinctWorkingStorage V)
    (hroot : s.parent_indices.getD 0 0 = 0)
    (hpar : ∀ j, 0 < j → j < s.node_count → s.parent_indices.getD j 0 < j)
    (i : Nat) (hi : i < s.node_count) :
    (List.range s.node_count).filter
        (fun j => decide (0 < j) && decide (s.parent_indices.getD j 0 = i))
      = childrenFilter s i := by
  have hsplit : List.range s.node_count
      = List.range' 0 (i + 1) ++ List.range' (i + 1) (s.node_count - (i + 1)) := by
    have happ := List.range'_append 0 (i + 1) (s.node_count - (i + 1)) 1
    simp only [Nat.one_mul, Nat.zero_add] at happ
    rw [List.range_eq_range', happ]
    congr 1
    omega
  rw [hsplit, List.filter_append]
  have hleft : (List.range' 0 (i + 1)).filter
      (fun j => decide (0 < j) && decide (s.parent_indices.getD j 0 = i)) = [] := by
    rw [List.filter_eq_nil_iff]
    intro j hj
    simp only [List.mem_range'_1] at hj
    simp only [Bool.and_eq_true, decide_eq_true_eq, not_and]
    intro hj0
    have hjn : j < s.node_count := by omega
    have := hpar j hj0 hjn
    omega
  have hright : (List.range' (i + 1) (s.node_count - (i + 1))).filter
      (fun j => decide (0 < j) && decide (s.parent_indices.getD j 0 = i))
      = childrenFilter s i := by
    unfold childrenFilter
    apply List.filter_congr
    intro j hj
    simp only [List.mem_range'_1] at hj
    have hj0 : 0 < j := by omega
    simp [hj0]
  rw [hleft, hright, List.nil_append]

theorem filterMap_getElem_eq (α : Type) :
    ∀ l : List α, (List.range l.length).filterMap (fun j => l[j]?) = l := by
  intro l
  induction l with
  | nil => simp
  | cons a l2 ih =>
      have h1 : (a :: l2).length = l2.length + 1 := rfl
      rw [h1, List.range_succ_eq_map, List.filterMap_cons]
      simp only [List.getElem?_cons_zero, List.filterMap_map]
      have h2 : (List.filterMap (fun j => (a :: l2)[Nat.succ j]?)
          (List.range l2.length)) = l2 := by
        have h3 : (fun j => (a :: l2)[Nat.succ j]?)
            = (fun j => l2[j]?) := by
          funext j
          simp
        rw [h3]
        exact ih
      rw [Function.comp_def]
      simp only [List.getElem?_cons_succ] at h2 ⊢
      rw [h2]

/-- Under the invariants, `get_child_node_index i j` returns precisely the
`j`-th element of `childrenFilter i` — in particular it never yields the
`SIZE_MAX` sentinel for `j < child_counts[i]`. -/
theorem get_child_eq (s : SuccinctWorkingStorage V)
    (hcl : s.child_counts.length = s.node_count)
    (hroot : s.parent_indices.getD 0 0 = 0)
    (hpar : ∀ j, 0 < j → j < s.node_count → s.parent_indices.getD j 0 < j)
    (hcc : ∀ i, i < s.node_count →
      s.child_counts.getD i 0
        = ((List.range s.node_count).filter
            (fun j => decide (0 < j) && decide (s.parent_indices.getD j 0 = i))).length)
    (i : Nat) (hi : i < s.node_count) :
    (s.child_counts.getD i 0 = (childrenFilter s i).length) ∧
    (∀ j, j < s.child_counts.getD i 0 →
      get_child_node_index s i j = (childrenFilter s i)[j]?) := by
  have hlen : s.child_counts.getD i 0 = (childrenFilter s i).length := by
    rw [hcc i hi, count_filter_eq s hroot hpar i hi]
  refine ⟨hlen, ?_⟩
  intro j hj
  unfold get_child_node_index
  rw [if_neg (by omega), if_neg (by omega)]
  rw [findNthChild_eq]
  rfl

/-- Under the invariants, the enqueued child list is exactly
`childrenFilter`. -/
theorem childIndices_eq (s : SuccinctWorkingStorage V)
    (hcl : s.child_counts.length = s.node_count)
    (hroot : s.parent_indices.getD 0 0 = 0)
    (hpar : ∀ j, 0 < j → j < s.node_count → s.parent_indices.getD j 0 < j)
    (hcc : ∀ i, i < s.node_count →
      s.child_counts.getD i 0
        = ((List.range s.node_count).filter
            (fun j => decide (0 < j) && decide (s.parent_indices.getD j 0 = i))).length)
    (i : Nat) (hi : i < s.node_count) :
    childIndices s i = childrenFilter s i := by
  obtain ⟨hlen, hget⟩ := get_child_eq s hcl hroot hpar hcc i hi
  unfold childIndices
  rw [hlen]
  have h1 : ∀ j ∈ List.range (childrenFilter s i).length,
      get_child_node_index s i j = (childrenFilter s i)[j]? := by
    intro j hj
    simp only [List.mem_range] at hj
    exact hget j (by omega)
  rw [List.filterMap_congr h1]
  exact filterMap_getElem_eq Nat (childrenFilter s i)

theorem mem_childrenFilter (s : SuccinctWorkingStorage V) (i c : Nat) :
    c ∈ childrenFilter s i
      ↔ i < c ∧ c < s.node_count ∧ s.parent_indices.getD c 0 = i := by
  unfold childrenFilter
  rw [List.mem_filter, List.mem_range'_1]
  simp only [decide_eq_true_eq]
  constructor
  · rintro ⟨⟨h1, h2⟩, h3⟩
    exact ⟨by omega, by omega, h3⟩
  · rintro ⟨h1, h2, h3⟩
    exact ⟨⟨by omega, by omega⟩, h3⟩

/-- Each non-root node is listed exactly once among all the children lists
(under its unique parent): flattening them permutes `1, …, node_count-1`. -/
theorem flatMap_childrenFilter_perm (s : SuccinctWorkingStorage V)
    (hpar : ∀ j, 0 < j → j < s.node_count → s.parent_indices.getD j 0 < j) :
    ((List.range s.node_count).flatMap (childrenFilter s)).Perm
      ((List.range s.node_count).filter (fun c => decide (0 < c))) := by
  rw [List.perm_ext_iff_of_nodup]
  · intro c
    rw [List.mem_flatMap, List.mem_filter]
    simp only [List.mem_range, decide_eq_true_eq]
    constructor
    · rintro ⟨i, hi, hic⟩
      rw [mem_childrenFilter] at hic
      exact ⟨hic.2.1, by omega⟩
    · rintro ⟨hcn, hc0⟩
      have hp := hpar c hc0 hcn
      refine ⟨s.parent_indices.getD c 0, by omega, ?_⟩
      rw [mem_childrenFilter]
      exact ⟨hp, hcn, rfl⟩
  · rw [List.nodup_flatMap]
    constructor
    · intro i _
      exact List.Nodup.filter _ (List.nodup_range' _ _)
    · have hlt : List.Pairwise (· < ·) (List.range s.node_count) :=
        List.pairwise_lt_range _
      refine hlt.imp ?_
      intro i j hij
      intro c hci hcj
      rw [mem_childrenFilter] at hci hcj
      omega
  · exact List.Nodup.filter _ (List.nodup_range _)

theorem filter_pos_range_length (n : Nat) :
    ((List.range n).filter (fun c => decide (0 < c))).length = n - 1 := by
  match n with
  | 0 => simp
  | m + 1 =>
      rw [List.range_succ_eq_map]
      rw [List.filter_cons_of_neg (by simp)]
      rw [List.filter_map]
      have h1 : (List.filter ((fun c => decide (0 < c)) ∘ Nat.succ)
          (List.range m)) = List.range m := by
        apply List.filter_eq_self.2
        intro a _
        simp
      rw [h1]
      simp

/-! ### C9: the locality score -/

/-- The per-edge proximity score, written as a function of the child alone
(its parent is read off the storage). -/
def edgeTerm (s : SuccinctWorkingStorage V) (c : Nat) : ℚ :=
  1 / (1 + (Int.natAbs ((c : ℤ) - (s.parent_indices.getD c 0 : ℤ)) : ℚ) / 10)

/-- The spec's wording of §4.4: one score `1 / (1 + |child − parent| / 10)`
per parent→child edge, i.e. per non-root node. -/
def specEdgeTerms (s : SuccinctWorkingStorage V) : List ℚ :=
  ((List.range s.node_count).filter (fun c => decide (0 < c))).map (edgeTerm s)

theorem localityTerms_eq (s : SuccinctWorkingStorage V)
    (hcl : s.child_counts.length = s.node_count)
    (hroot : s.parent_indices.getD 0 0 = 0)
    (hpar : ∀ j, 0 < j → j < s.node_count → s.parent_indices.getD j 0 < j)
    (hcc : ∀ i, i < s.node_count →
      s.child_counts.getD i 0
        = ((List.range s.node_count).filter
            (fun j => decide (0 < j) && decide (s.parent_indices.getD j 0 = i))).length) :
    localityTerms s
      = ((List.range s.node_count).flatMap (childrenFilter s)).map (edgeTerm s) := by
  unfold localityTerms
  rw [List.map_flatMap]
  apply List.flatMap_congr
  intro i hi
  rw [List.mem_range] at hi
  obtain ⟨hlen, hget⟩ := get_child_eq s hcl hroot hpar hcc i hi
  rw [hlen]
  have h1 : ∀ j ∈ List.range (childrenFilter s i).length,
      (get_child_node_index s i j).map (fun c : Nat =>
          (1 : ℚ) / (1 + (Int.natAbs ((c : ℤ) - (i : ℤ)) : ℚ) / 10))
        = ((childrenFilter s i).map (fun c : Nat =>
            (1 : ℚ) / (1 + (Int.natAbs ((c : ℤ) - (i : ℤ)) : ℚ) / 10)))[j]? := by
    intro j hj
    rw [List.mem_range] at hj
    rw [hget j (by omega), List.getElem?_map]
  rw [List.filterMap_congr h1]
  have h2 := filterMap_getElem_eq ℚ ((childrenFilter s i).map (fun c : Nat =>
    (1 : ℚ) / (1 + (Int.natAbs ((c : ℤ) - (i : ℤ)) : ℚ) / 10)))
  rw [List.length_map] at h2
  rw [h2]
  apply List.map_congr_left
  intro c hc
  rw [mem_childrenFilter] at hc
  unfold edgeTerm
  rw [hc.2.2]

/-! ### C6: removal machinery -/

theorem insertDesc_perm (x : Nat) (l : List Nat) :
    (insertDesc x l).Perm (x :: l) := by
  induction l with
  | nil => simp [insertDesc]
  | cons y ys ih =>
      unfold insertDesc
      by_cases h : y ≤ x
      · rw [if_pos h]
      · rw [if_neg h]
        exact List.Perm.trans (List.Perm.cons y ih) (List.Perm.swap x y ys)

theorem sortDesc_perm (l : List Nat) : (sortDesc l).Perm l := by
  induction l with
  | nil => simp [sortDesc]
  | cons x xs ih =>
      unfold sortDesc
      exact List.Perm.trans (insertDesc_perm x (sortDesc xs))
        (List.Perm.cons x ih)

theorem insertDesc_sorted (x : Nat) (l : List Nat)
    (h : List.Pairwise (fun a b => b ≤ a) l) :
    List.Pairwise (fun a b => b ≤ a) (insertDesc x l) := by
  induction l with
  | nil => simp [insertDesc]
  | cons y ys ih =>
      unfold insertDesc
      rw [List.pairwise_cons] at h
      by_cases hxy : y ≤ x
      · rw [if_pos hxy]
        rw [List.pairwise_cons]
        constructor
        · intro b hb
          rcases List.mem_cons.1 hb with rfl | hb2
          · exact hxy
          · exact le_trans (h.1 b hb2) hxy
        · rw [List.pairwise_cons]
          exact h
      · rw [if_neg hxy]
        rw [List.pairwise_cons]
        constructor
        · intro b hb
          have hperm := insertDesc_perm x ys
          have hb3 := (hperm.mem_iff).1 hb
          rcases List.mem_cons.1 hb3 with rfl | hb2
          · omega
          · exact h.1 b hb2
        · exact ih h.2

theorem sortDesc_sorted (l : List Nat) :
    List.Pairwise (fun a b => b ≤ a) (sortDesc l) := by
  induction l with
  | nil => simp [sortDesc]
  | cons x xs ih => exact insertDesc_sorted x (sortDesc xs) ih

/-- A `Nodup` list sorted weakly descending is strictly descending. -/
theorem sortDesc_strict (l : List Nat) (hnd : l.Nodup) :
    List.Pairwise (fun a b => b < a) (sortDesc l) := by
  have h1 := sortDesc_sorted l
  have h2 : (sortDesc l).Nodup := ((sortDesc_perm l).nodup_iff).2 hnd
  have h3 := List.Pairwise.and h1 h2
  exact h3.imp (fun h => by omega)

/-- The sequential `eraseIdx` of the removal loop, on a single array. -/
def eraseIdxAll (l : List V) : List Nat → List V
  | [] => l
  | idx :: rest => eraseIdxAll (l.eraseIdx idx) rest

theorem eraseIdxAll_length (α : Type) :
    ∀ (idxs : List Nat) (l : List α), (∀ r ∈ idxs, r < l.length) →
      List.Pairwise (fun a b => b < a) idxs →
      (eraseIdxAll l idxs).length = l.length - idxs.length := by
  intro idxs
  induction idxs with
  | nil => intro l _ _; simp [eraseIdxAll]
  | cons idx rest ih =>
      intro l hb hp
      rw [List.pairwise_cons] at hp
      have hidx : idx < l.length := hb idx (by simp)
      unfold eraseIdxAll
      rw [ih (l.eraseIdx idx) ?_ hp.2]
      · rw [List.length_eraseIdx, if_pos hidx]
        simp
        omega
      · intro r hr
        have := hp.1 r hr
        rw [List.length_eraseIdx, if_pos hidx]
        omega

/-- Erasing a strictly descending set of positions: a surviving position `x`
shifts down by the number of erased positions below it, keeping its value. -/
theorem eraseIdxAll_getElem (α : Type) :
    ∀ (idxs : List Nat) (l : List α), (∀ r ∈ idxs, r < l.length) →
      List.Pairwise (fun a b => b < a) idxs →
      ∀ x, x < l.length → x ∉ idxs →
      (eraseIdxAll l idxs)[x - (idxs.filter (fun r => decide (r < x))).length]?
        = l[x]? := by
  intro idxs
  induction idxs with
  | nil => intro l _ _ x _ _; simp [eraseIdxAll]
  | cons idx rest ih =>
      intro l hb hp x hx hnx
      rw [List.pairwise_cons] at hp
      have hidx : idx < l.length := hb idx (by simp)
      have hxi : x ≠ idx := by
        intro h
        exact hnx (by simp [h])
      have hxrest : x ∉ rest := fun h => hnx (by simp [h])
      unfold eraseIdxAll
      rcases lt_or_gt_of_ne hxi with hlt | hgt
      · -- x below the erased position: value and position both unchanged
        have hcount : ((idx :: rest).filter (fun r => decide (r < x))).length
            = (rest.filter (fun r => decide (r < x))).length := by
          rw [List.filter_cons_of_neg (by simp; omega)]
        rw [hcount]
        have hres := ih (l.eraseIdx idx) ?_ hp.2 x ?_ hxrest
        · rw [hres, List.getElem?_eraseIdx, if_pos hlt]
        · intro r hr
          have := hp.1 r hr
          rw [List.length_eraseIdx, if_pos hidx]
          omega
        · rw [List.length_eraseIdx, if_pos hidx]
          omega
      · -- x above: it shifts down one here, and the remaining erased
        -- positions sit strictly below idx < x
        have hcount : ((idx :: rest).filter (fun r => decide (r < x))).length
            = (rest.filter (fun r => decide (r < x))).length + 1 := by
          rw [List.filter_cons_of_pos (by simp; omega)]
          simp
        have hfe : rest.filter (fun r => decide (r < x - 1))
            = rest.filter (fun r => decide (r < x)) := by
          apply List.filter_congr
          intro r hr
          have := hp.1 r hr
          rw [decide_eq_decide]
          omega
        have hres := ih (l.eraseIdx idx) ?_ hp.2 (x - 1) ?_ ?_
        · rw [hfe] at hres
          have harith : x - 1 - (rest.filter (fun r => decide (r < x))).length
              = x - ((idx :: rest).filter (fun r => decide (r < x))).length := by
            rw [hcount]
            omega
          rw [harith] at hres
          rw [hres, List.getElem?_eraseIdx, if_neg (by omega)]
          congr 1
          omega
        · intro r hr
          have := hp.1 r hr
          rw [List.length_eraseIdx, if_pos hidx]
          omega
        · rw [List.length_eraseIdx, if_pos hidx]
          omega
        · intro hcon
          have := hp.1 (x - 1) hcon
          omega

/-- The removal loop acts as `eraseIdxAll` on every array and decrements
`node_count` once per erased slot, provided the arrays are parallel and the
descending index list is in range. -/
theorem removeLoop_chars :
    ∀ (idxs : List Nat) (s : SuccinctWorkingStorage V),
      (∀ r ∈ idxs, r < s.data_array.length) →
      List.Pairwise (fun a b => b < a) idxs →
      s.parent_indices.length = s.data_array.length →
      s.child_counts.length = s.data_array.length →
      s.first_child_pos.length = s.data_array.length →
      (removeLoop s idxs).data_array = eraseIdxAll s.data_array idxs ∧
      (removeLoop s idxs).parent_indices = eraseIdxAll s.parent_indices idxs ∧
      (removeLoop s idxs).node_count = s.node_count - idxs.length := by
  intro idxs
  induction idxs with
  | nil =>
      intro s _ _ _ _ _
      exact ⟨rfl, rfl, by simp [removeLoop, eraseIdxAll]⟩
  | cons idx rest ih =>
      intro s hb hp hlp hlc hlf
      rw [List.pairwise_cons] at hp
      have hidx : idx < s.data_array.length := hb idx (by simp)
      unfold removeLoop
      rw [if_pos hidx]
      have hlen : (s.data_array.eraseIdx idx).length
          = s.data_array.length - 1 := by
        rw [List.length_eraseIdx, if_pos hidx]
      have hres := ih
        { s with
          data_array := s.data_array.eraseIdx idx,
          parent_indices := s.parent_indices.eraseIdx idx,
          child_counts := s.child_counts.eraseIdx idx,
          first_child_pos := s.first_child_pos.eraseIdx idx,
          node_count := s.node_count - 1 }
        (by
          intro r hr
          have := hp.1 r hr
          simp only [hlen]
          omega)
        hp.2
        (by simp [List.length_eraseIdx, hlp, hidx])
        (by simp [List.length_eraseIdx, hlc, hidx])
        (by simp [List.length_eraseIdx, hlf, hidx])
      refine ⟨?_, ?_, ?_⟩
      · rw [hres.1]
        rfl
      · rw [hres.2.1]
        rfl
      · rw [hres.2.2]
        simp
        omega

/-- The parent-chain iterate: `k` applications of "read the parent id". -/
def parentIter (s : SuccinctWorkingStorage V) (k x : Nat) : Nat :=
  (fun y => s.parent_indices.getD y 0)^[k] x

theorem parentIter_succ_outer (s : SuccinctWorkingStorage V) (k x : Nat) :
    parentIter s (k + 1) x = s.parent_indices.getD (parentIter s k x) 0 :=
  Function.iterate_succ_apply' _ _ _

theorem parentIter_succ_inner (s : SuccinctWorkingStorage V) (k x : Nat) :
    parentIter s (k + 1) x = parentIter s k (s.parent_indices.getD x 0) :=
  Function.iterate_succ_apply _ _ _

theorem parentIter_le (s : SuccinctWorkingStorage V)
    (hroot : s.parent_indices.getD 0 0 = 0)
    (hpar : ∀ j, 0 < j → j < s.node_count → s.parent_indices.getD j 0 < j) :
    ∀ (k x : Nat), x < s.node_count →
      parentIter s k x ≤ x ∧ parentIter s k x < s.node_count := by
  intro k
  induction k with
  | zero => intro x hx; exact ⟨le_refl x, hx⟩
  | succ k ih =>
      intro x hx
      rw [parentIter_succ_inner]
      have hpx : s.parent_indices.getD x 0 ≤ x ∧
          s.parent_indices.getD x 0 < s.node_count := by
        rcases Nat.eq_zero_or_pos x with rfl | hx0
        · rw [hroot]
          exact ⟨le_refl 0, hx⟩
        · have := hpar x hx0 hx
          exact ⟨by omega, by omega⟩
      have := ih (s.parent_indices.getD x 0) hpx.2
      exact ⟨le_trans this.1 hpx.1, this.2⟩

/-- The full-range child scan used by `collect_descendants`. -/
def childrenAll (s : SuccinctWorkingStorage V) (x : Nat) : List Nat :=
  (List.range s.node_count).filter
    (fun i => s.parent_indices.getD i 0 = x)

theorem collect_descendants_succ (s : SuccinctWorkingStorage V)
    (fuel x : Nat) :
    collect_descendants s (fuel + 1) x
      = x :: (childrenAll s x).flatMap (collect_descendants s fuel) := rfl

theorem mem_childrenAll (s : SuccinctWorkingStorage V) (x j : Nat) :
    j ∈ childrenAll s x
      ↔ j < s.node_count ∧ s.parent_indices.getD j 0 = x := by
  unfold childrenAll
  rw [List.mem_filter, List.mem_range]
  simp

theorem childrenAll_gt (s : SuccinctWorkingStorage V)
    (hroot : s.parent_indices.getD 0 0 = 0)
    (hpar : ∀ j, 0 < j → j < s.node_count → s.parent_indices.getD j 0 < j)
    (x : Nat) (hx0 : 0 < x) :
    ∀ j ∈ childrenAll s x, x < j ∧ 0 < j ∧ j < s.node_count := by
  intro j hj
  rw [mem_childrenAll] at hj
  have hj0 : 0 < j := by
    rcases Nat.eq_zero_or_pos j with rfl | h
    · rw [hroot] at hj
      omega
    · exact h
  have := hpar j hj0 hj.1
  exact ⟨by omega, hj0, hj.1⟩

/-- Everything the DFS collects descends from the start node by a parent
chain (and is at least as large and in range). -/
theorem desc_sound (s : SuccinctWorkingStorage V)
    (hroot : s.parent_indices.getD 0 0 = 0)
    (hpar : ∀ j, 0 < j → j < s.node_count → s.parent_indices.getD j 0 < j) :
    ∀ (fuel x : Nat), 0 < x → x < s.node_count →
      ∀ y ∈ collect_descendants s fuel x,
        x ≤ y ∧ y < s.node_count ∧ ∃ k, parentIter s k y = x := by
  intro fuel
  induction fuel with
  | zero =>
      intro x _ hx y hy
      unfold collect_descendants at hy
      rcases List.mem_singleton.1 hy with rfl
      exact ⟨le_refl y, hx, 0, rfl⟩
  | succ fuel ih =>
      intro x hx0 hx y hy
      rw [collect_descendants_succ] at hy
      rcases List.mem_cons.1 hy with rfl | hy2
      · exact ⟨le_refl y, hx, 0, rfl⟩
      · rw [List.mem_flatMap] at hy2
        obtain ⟨c, hc, hyc⟩ := hy2
        obtain ⟨hxc, hc0, hcn⟩ := childrenAll_gt s hroot hpar x hx0 c hc
        obtain ⟨hcy, hyn, k, hk⟩ := ih c hc0 hcn y hyc
        refine ⟨by omega, hyn, k + 1, ?_⟩
        rw [parentIter_succ_outer, hk]
        exact ((mem_childrenAll s x c).1 hc).2

/-- Conversely, everything that descends from the start node by a parent
chain is collected, given fuel `≥ node_count - x` (as the engine passes). -/
theorem desc_complete (s : SuccinctWorkingStorage V)
    (hroot : s.parent_indices.getD 0 0 = 0)
    (hpar : ∀ j, 0 < j → j < s.node_count → s.parent_indices.getD j 0 < j) :
    ∀ (k x fuel y : Nat), 0 < x → x < s.node_count →
      s.node_count - x ≤ fuel → y < s.node_count → parentIter s k y = x →
      y ∈ collect_descendants s fuel x := by
  intro k
  induction k with
  | zero =>
      intro x fuel y _ _ _ _ hk
      have hyx : y = x := hk
      subst hyx
      match fuel with
      | 0 => unfold collect_descendants; exact List.mem_singleton.2 rfl
      | fuel + 1 => rw [collect_descendants_succ]; exact List.mem_cons_self _ _
  | succ k ih =>
      intro x fuel y hx0 hx hfuel hy hk
      have hcprop := parentIter_le s hroot hpar k y hy
      set c := parentIter s k y with hc
      have hpc : s.parent_indices.getD c 0 = x := by
        rw [parentIter_succ_outer] at hk
        exact hk
      have hc0 : 0 < c := by
        rcases Nat.eq_zero_or_pos c with h | h
        · rw [h, hroot] at hpc
          omega
        · exact h
      have hxc : x < c := by
        have := hpar c hc0 hcprop.2
        omega
      obtain ⟨fuel2, rfl⟩ : ∃ f, fuel = f + 1 := ⟨fuel - 1, by omega⟩
      rw [collect_descendants_succ]
      apply List.mem_cons_of_mem
      rw [List.mem_flatMap]
      refine ⟨c, (mem_childrenAll s x c).2 ⟨hcprop.2, hpc⟩, ?_⟩
      exact ih c fuel2 y hc0 hcprop.2 (by omega) hy rfl

/-- Two different children of the same node have no common descendant: a
parent chain that reaches both would have to climb from one child through
their shared parent and back down, which the strictly-decreasing ids
forbid. -/
theorem sibling_disjoint (s : SuccinctWorkingStorage V)
    (hroot : s.parent_indices.getD 0 0 = 0)
    (hpar : ∀ j, 0 < j → j < s.node_count → s.parent_indices.getD j 0 < j)
    (x c c' : Nat) (hcn : c < s.node_count) (hcn2 : c' < s.node_count)
    (hxc : x < c) (hxc2 : x < c')
    (hpc : s.parent_indices.getD c 0 = x)
    (hpc2 : s.parent_indices.getD c' 0 = x)
    (hne : c ≠ c') (y : Nat) (hy : y < s.node_count)
    (h1 : ∃ k, parentIter s k y = c) (h2 : ∃ k, parentIter s k y = c') :
    False := by
  obtain ⟨k, hk⟩ := h1
  obtain ⟨k2, hk2⟩ := h2
  have key : ∀ (a b : Nat) (ka kb : Nat), ka ≤ kb →
      a < s.node_count → x < a → x < b →
      s.parent_indices.getD a 0 = x →
      parentIter s ka y = a → parentIter s kb y = b → a ≠ b → False := by
    intro a b ka kb hab han hxa hxb hpa hka hkb hneab
    have hsplit : parentIter s kb y = parentIter s (kb - ka) a := by
      rw [← hka]
      unfold parentIter
      rw [← Function.iterate_add_apply]
      congr 1
      omega
    match hm : kb - ka with
    | 0 =>
        rw [hm] at hsplit
        rw [hkb] at hsplit
        exact hneab (by rw [hsplit]; rfl)
    | m + 1 =>
        rw [hm] at hsplit
        rw [parentIter_succ_inner, hpa] at hsplit
        have hxn : x < s.node_count := by omega
        have := parentIter_le s hroot hpar m x hxn
        rw [hkb] at hsplit
        omega
  rcases le_total k k2 with h | h
  · exact key c c' k k2 h hcn hxc hxc2 hpc hk hk2 hne
  · exact key c' c k2 k h hcn2 hxc2 hxc hpc2 hk2 hk (by omega)

/-- The DFS collection never lists a node twice. -/
theorem desc_nodup (s : SuccinctWorkingStorage V)
    (hroot : s.parent_indices.getD 0 0 = 0)
    (hpar : ∀ j, 0 < j → j < s.node_count → s.parent_indices.getD j 0 < j) :
    ∀ (fuel x : Nat), 0 < x → x < s.node_count →
      (collect_descendants s fuel x).Nodup := by
  intro fuel
  induction fuel with
  | zero =>
      intro x _ _
      unfold collect_descendants
      simp
  | succ fuel ih =>
      intro x hx0 hx
      rw [collect_descendants_succ, List.nodup_cons]
      constructor
      · intro hmem
        rw [List.mem_flatMap] at hmem
        obtain ⟨c, hc, hxc⟩ := hmem
        obtain ⟨hgt, hc0, hcn⟩ := childrenAll_gt s hroot hpar x hx0 c hc
        have := (desc_sound s hroot hpar fuel c hc0 hcn x hxc).1
        omega
      · rw [List.nodup_flatMap]
        constructor
        · intro c hc
          obtain ⟨_, hc0, hcn⟩ := childrenAll_gt s hroot hpar x hx0 c hc
          exact ih c hc0 hcn
        · have hnd : (childrenAll s x).Nodup :=
            List.Nodup.filter _ (List.nodup_range _)
          refine List.Pairwise.imp_of_mem ?_ hnd
          intro c c' hc hc' hne
          show List.Disjoint (collect_descendants s fuel c)
            (collect_descendants s fuel c')
          intro y hyc hyc'
          obtain ⟨hxc, hc0, hcn⟩ := childrenAll_gt s hroot hpar x hx0 c hc
          obtain ⟨hxc2, hc02, hcn2⟩ :=
            childrenAll_gt s hroot hpar x hx0 c' hc'
          obtain ⟨_, hyn, hk⟩ := desc_sound s hroot hpar fuel c hc0 hcn y hyc
          obtain ⟨_, _, hk2⟩ :=
            desc_sound s hroot hpar fuel c' hc02 hcn2 y hyc'
          exact sibling_disjoint s hroot hpar x c c' hcn hcn2 hxc hxc2
            ((mem_childrenAll s x c).1 hc).2 ((mem_childrenAll s x c').1 hc').2
            hne y hyn hk hk2

/-- The set of ids `remove_node_and_descendants` removes. -/
def removedSet (s : SuccinctWorkingStorage V) (i : Nat) : List Nat :=
  collect_descendants s s.node_count i

/-- The id a surviving node ends up at after the compaction: its old id minus
the number of removed ids below it. -/
def newIdx (s : SuccinctWorkingStorage V) (i x : Nat) : Nat :=
  x - ((removedSet s i).filter (fun r => decide (r < x))).length

/-- C6, amended.  `remove_node_and_descendants` removes the node and its
descendants by COMPACTING the arena, not by tombstoning: the `d` removed
slots are erased, every surviving node with a larger id shifts down (its id
is remapped to `newIdx`), `size()` decreases by exactly `d`, and every
surviving node's parent field is rewritten to the surviving parent's new id —
so no surviving node's parent resolves to a removed node. -/
theorem remove_subtree_spec (s : SuccinctWorkingStorage V) (hwf : WF s)
    (i : Nat) (h0 : 0 < i) (hin : i < s.node_count) :
    (i ∈ removedSet s i) ∧
    (∀ y ∈ removedSet s i, i ≤ y ∧ y < s.node_count) ∧
    (removedSet s i).Nodup ∧
    (remove_node_and_descendants s i).node_count
      = s.node_count - (removedSet s i).length ∧
    (∀ x, x < s.node_count → x ∉ removedSet s i →
      (remove_node_and_descendants s i).data_array[newIdx s i x]?
        = s.data_array[x]?) ∧
    (∀ x, 0 < x → x < s.node_count → x ∉ removedSet s i →
      s.parent_indices.getD x 0 ∉ removedSet s i ∧
      (remove_node_and_descendants s i).parent_indices[newIdx s i x]?
        = some (newIdx s i (s.parent_indices.getD x 0))) := by
  obtain ⟨hd, hp, hcl, hf, hroot, hpar, hcc⟩ := hwf
  have hfuel : s.node_count - i ≤ s.node_count := by omega
  have hi : i ∈ removedSet s i :=
    desc_complete s hroot hpar 0 i s.node_count i h0 hin hfuel hin rfl
  have hsub : ∀ y ∈ removedSet s i, i ≤ y ∧ y < s.node_count := by
    intro y hy
    have := desc_sound s hroot hpar s.node_count i h0 hin y hy
    exact ⟨this.1, this.2.1⟩
  have hnd : (removedSet s i).Nodup :=
    desc_nodup s hroot hpar s.node_count i h0 hin
  have hclosure : ∀ x, 0 < x → x < s.node_count → x ∉ removedSet s i →
      s.parent_indices.getD x 0 ∉ removedSet s i := by
    intro x hx0 hx hnx hmem
    apply hnx
    obtain ⟨_, _, k, hk⟩ :=
      desc_sound s hroot hpar s.node_count i h0 hin _ hmem
    refine desc_complete s hroot hpar (k + 1) i s.node_count x h0 hin hfuel hx ?_
    rw [parentIter_succ_inner, hk]
  -- the sorted index list fed to the erase loop
  have hperm : (sortDesc (removedSet s i)).Perm (removedSet s i) :=
    sortDesc_perm _
  have hstrict := sortDesc_strict (removedSet s i) hnd
  have hbound : ∀ r ∈ sortDesc (removedSet s i), r < s.data_array.length := by
    intro r hr
    have := hsub r (hperm.mem_iff.1 hr)
    omega
  have hchars := removeLoop_chars (sortDesc (removedSet s i)) s hbound hstrict
    (by omega) (by omega) (by omega)
  have hunfold : remove_node_and_descendants s i
      = update_indices_after_removal
          (removeLoop s (sortDesc (removedSet s i))) (removedSet s i) := by
    unfold remove_node_and_descendants
    rw [if_neg (by omega)]
    rfl
  have hfiltlen : ∀ x : Nat,
      ((sortDesc (removedSet s i)).filter (fun r => decide (r < x))).length
        = ((removedSet s i).filter (fun r => decide (r < x))).length :=
    fun x => (hperm.filter _).length_eq
  refine ⟨hi, hsub, hnd, ?_, ?_, ?_⟩
  · rw [hunfold]
    show (removeLoop s (sortDesc (removedSet s i))).node_count = _
    rw [hchars.2.2, hperm.length_eq]
  · intro x hx hnx
    rw [hunfold]
    show (removeLoop s (sortDesc (removedSet s i))).data_array[newIdx s i x]?
      = s.data_array[x]?
    rw [hchars.1]
    have := eraseIdxAll_getElem V (sortDesc (removedSet s i)) s.data_array
      hbound hstrict x (by omega) (fun h => hnx (hperm.mem_iff.1 h))
    rw [hfiltlen] at this
    exact this
  · intro x hx0 hx hnx
    refine ⟨hclosure x hx0 hx hnx, ?_⟩
    rw [hunfold]
    unfold update_indices_after_removal
    show ((removeLoop s
        (sortDesc (removedSet s i))).parent_indices.map _)[newIdx s i x]? = _
    rw [List.getElem?_map, hchars.2.1]
    have hbp : ∀ r ∈ sortDesc (removedSet s i), r < s.parent_indices.length := by
      intro r hr
      have := hsub r (hperm.mem_iff.1 hr)
      omega
    have hget := eraseIdxAll_getElem Nat (sortDesc (removedSet s i))
      s.parent_indices hbp hstrict x (by omega)
      (fun h => hnx (hperm.mem_iff.1 h))
    rw [hfiltlen] at hget
    show Option.map _ ((eraseIdxAll s.parent_indices
        (sortDesc (removedSet s i)))[newIdx s i x]?) = _
    rw [show newIdx s i x
        = x - ((removedSet s i).filter (fun r => decide (r < x))).length from rfl]
    rw [hget]
    have hgd : s.parent_indices[x]? = some (s.parent_indices.getD x 0) := by
      rw [List.getD_eq_getElem?_getD,
        List.getElem?_eq_getElem (by omega : x < s.parent_indices.length)]
      rfl
    rw [hgd]
    rfl

theorem edgeTerm_pos_le_one (s : SuccinctWorkingStorage V) (c : Nat) :
    0 < edgeTerm s c ∧ edgeTerm s c ≤ 1 := by
  unfold edgeTerm
  have hd : (0 : ℚ) ≤ (Int.natAbs ((c : ℤ) - (s.parent_indices.getD c 0 : ℤ)) : ℚ) / 10 := by
    positivity
  constructor
  · apply div_pos one_pos
    linarith
  · rw [div_le_one (by linarith)]
    linarith

/-- C9, amended.  In the unified engine, for every non-empty well-formed
storage, `calculate_locality_score` equals the mean over all parent→child
edges of `1 / (1 + |child_id − parent_id| / 10)` whenever at least one edge
exists (`node_count > 1`), is `1.0` for a single-node tree, and always lies
in `(0, 1]`.  (The `NaryTree` array-storage variant computes a different
quantity — see the counterexample.) -/
theorem locality_score_spec (s : SuccinctWorkingStorage V)
    (hwf : WF s) (hn : 0 < s.node_count) :
    (1 < s.node_count →
      calculate_locality_score s
        = (specEdgeTerms s).sum / ((specEdgeTerms s).length : ℚ)) ∧
    0 < calculate_locality_score s ∧ calculate_locality_score s ≤ 1 := by
  obtain ⟨hd, hp, hcl, hf, hroot, hpar, hcc⟩ := hwf
  have hperm : (localityTerms s).Perm (specEdgeTerms s) := by
    rw [localityTerms_eq s hcl hroot hpar hcc]
    unfold specEdgeTerms
    exact (flatMap_childrenFilter_perm s hpar).map _
  by_cases h1 : s.node_count ≤ 1
  · have hsc : calculate_locality_score s = 1 := by
      unfold calculate_locality_score
      rw [if_pos h1]
    refine ⟨by omega, by rw [hsc]; norm_num⟩
  · have hlen : (specEdgeTerms s).length = s.node_count - 1 := by
      unfold specEdgeTerms
      rw [List.length_map, filter_pos_range_length]
    have hne : (localityTerms s).length ≠ 0 := by
      rw [hperm.length_eq, hlen]
      omega
    have hsc : calculate_locality_score s
        = (specEdgeTerms s).sum / ((specEdgeTerms s).length : ℚ) := by
      unfold calculate_locality_score
      rw [if_neg h1, if_neg hne, hperm.sum_eq, hperm.length_eq]
    refine ⟨fun _ => hsc, ?_, ?_⟩
    · rw [hsc]
      apply div_pos
      · apply List.sum_pos
        · intro x hx
          unfold specEdgeTerms at hx
          rw [List.mem_map] at hx
          obtain ⟨c, _, rfl⟩ := hx
          exact (edgeTerm_pos_le_one s c).1
        · intro hcon
          rw [hcon] at hlen
          simp at hlen
          omega
      · have : 0 < (specEdgeTerms s).length := by omega
        exact_mod_cast this
    · rw [hsc]
      have hlenpos : 0 < (specEdgeTerms s).length := by omega
      rw [div_le_one (by exact_mod_cast hlenpos)]
      have hsum := List.sum_le_card_nsmul (specEdgeTerms s) 1 (by
        intro x hx
        unfold specEdgeTerms at hx
        rw [List.mem_map] at hx
        obtain ⟨c, _, rfl⟩ := hx
        exact (edgeTerm_pos_le_one s c).2)
      rw [nsmul_eq_mul, mul_one] at hsum
      exact hsum

theorem locality_score_spec_witness :
    (1 < (⟨[true, false, true, false], [10, 20], [0, 0], [0, 0], [1, 0], 2, 0⟩
        : SuccinctWorkingStorage Nat).node_count →
      calculate_locality_score
        (⟨[true, false, true, false], [10, 20], [0, 0], [0, 0], [1, 0], 2, 0⟩
          : SuccinctWorkingStorage Nat)
        = (specEdgeTerms (⟨[true, false, true, false], [10, 20], [0, 0],
            [0, 0], [1, 0], 2, 0⟩ : SuccinctWorkingStorage Nat)).sum
          / ((specEdgeTerms (⟨[true, false, true, false], [10, 20], [0, 0],
              [0, 0], [1, 0], 2, 0⟩ : SuccinctWorkingStorage Nat)).length : ℚ)) ∧
    0 < calculate_locality_score
      (⟨[true, false, true, false], [10, 20], [0, 0], [0, 0], [1, 0], 2, 0⟩
        : SuccinctWorkingStorage Nat) ∧
    calculate_locality_score
      (⟨[true, false, true, false], [10, 20], [0, 0], [0, 0], [1, 0], 2, 0⟩
        : SuccinctWorkingStorage Nat) ≤ 1 :=
  locality_score_spec _
    ⟨rfl, rfl, rfl, rfl, rfl,
     by intro j hj hj2; interval_cases j <;> simp_all,
     by intro i hi; interval_cases i <;> decide⟩
    (by decide)

/-! ### The breadth-first visitation order of `rebalance_for_locality`

The reorder loop pops a queue seeded with the root and enqueues each popped
node's children.  `bfsOrder` is that pop sequence (with fuel); `layers` and
`layerCat` describe it level by level, which is what makes its properties
(completeness, no duplicates, level monotonicity, contiguous siblings)
provable. -/

/-- The sequence of nodes the reorder queue pops, given initial queue
contents and fuel: pop the head, enqueue its children. -/
def bfsOrder (s : SuccinctWorkingStorage V) : Nat → List Nat → List Nat
  | 0, _ => []
  | _ + 1, [] => []
  | fuel + 1, x :: q => x :: bfsOrder s fuel (q ++ childIndices s x)

/-- The nodes at breadth-first distance `k` from the root, in visitation
order. -/
def layers (s : SuccinctWorkingStorage V) : Nat → List Nat
  | 0 => [0]
  | k + 1 => (layers s k).flatMap (childIndices s)

/-- The concatenation of the first `m` layers. -/
def layerCat (s : SuccinctWorkingStorage V) : Nat → List Nat
  | 0 => []
  | m + 1 => layerCat s m ++ layers s m

/-- The full breadth-first visitation order. -/
def bfsSeq (s : SuccinctWorkingStorage V) : List Nat :=
  layerCat s s.node_count

/-- The new id `rebalance_for_locality` assigns to node `x`: its position in
the breadth-first visitation order. -/
def bfsRank (s : SuccinctWorkingStorage V) (x : Nat) : Nat :=
  List.indexOf x (bfsSeq s)

theorem bfsOrder_nil (s : SuccinctWorkingStorage V) (f : Nat) :
    bfsOrder s f [] = [] := by
  cases f <;> rfl

theorem bfsOrder_cons (s : SuccinctWorkingStorage V) (f x : Nat) (q : List Nat) :
    bfsOrder s (f + 1) (x :: q) = x :: bfsOrder s f (q ++ childIndices s x) :=
  rfl

/-- Popping a whole block `q` off the front of the queue appends the
children of `q`'s members behind the rest. -/
theorem bfsOrder_append (s : SuccinctWorkingStorage V) :
    ∀ (q : List Nat) (f : Nat) (r : List Nat),
      bfsOrder s (q.length + f) (q ++ r)
        = q ++ bfsOrder s f (r ++ q.flatMap (childIndices s)) := by
  intro q
  induction q with
  | nil => intro f r; simp
  | cons x q ih =>
      intro f r
      have hlen : (x :: q).length + f = (q.length + f) + 1 := by
        simp [List.length_cons]; omega
      rw [hlen]
      show bfsOrder s ((q.length + f) + 1) (x :: (q ++ r)) = _
      rw [bfsOrder_cons, List.append_assoc, ih]
      simp [List.flatMap_cons, List.append_assoc]

/-- After exhausting the first `m` layers, the queue holds exactly layer
`m`. -/
theorem bfsOrder_layerCat (s : SuccinctWorkingStorage V) :
    ∀ (m f : Nat),
      bfsOrder s ((layerCat s m).length + f) [0]
        = layerCat s m ++ bfsOrder s f (layers s m) := by
  intro m
  induction m with
  | zero => intro f; simp [layerCat, layers]
  | succ m ih =>
      intro f
      have h1 : (layerCat s (m + 1)).length + f
          = (layerCat s m).length + ((layers s m).length + f) := by
        show (layerCat s m ++ layers s m).length + f = _
        rw [List.length_append]; omega
      rw [h1, ih ((layers s m).length + f)]
      have h2 := bfsOrder_append s (layers s m) f []
      simp only [List.append_nil, List.nil_append] at h2
      rw [h2]
      show layerCat s m ++ (layers s m ++ bfsOrder s f (layers s (m + 1))) = _
      rw [layerCat, List.append_assoc]

/-! ### Levels under the invariants -/

theorem levelFuel_zero (s : SuccinctWorkingStorage V) (fuel : Nat) :
    levelFuel s fuel 0 = 0 := by
  cases fuel <;> simp [levelFuel]

theorem levelOf_zero (s : SuccinctWorkingStorage V) : levelOf s 0 = 0 := rfl

/-- Any fuel at least `x` computes the true level: the parent chain strictly
descends. -/
theorem levelFuel_stable (s : SuccinctWorkingStorage V)
    (hpar : ∀ j, 0 < j → j < s.node_count → s.parent_indices.getD j 0 < j) :
    ∀ x, x < s.node_count → ∀ fuel, x ≤ fuel →
      levelFuel s fuel x = levelOf s x := by
  intro x
  induction x using Nat.strong_induction_on with
  | _ x ih =>
    intro hx fuel hf
    by_cases h0 : x = 0
    · subst h0; rw [levelFuel_zero, levelOf_zero]
    · have hx0 : 0 < x := Nat.pos_of_ne_zero h0
      have hp := hpar x hx0 hx
      obtain ⟨fu, rfl⟩ : ∃ f2, fuel = f2 + 1 := ⟨fuel - 1, by omega⟩
      obtain ⟨x2, hx2⟩ : ∃ x2, x = x2 + 1 := ⟨x - 1, by omega⟩
      have hLHS : levelFuel s (fu + 1) x
          = levelFuel s fu (s.parent_indices.getD x 0) + 1 := by
        rw [levelFuel, if_neg h0]
      have hRHS : levelOf s x
          = levelFuel s x2 (s.parent_indices.getD x 0) + 1 := by
        show levelFuel s x x = _
        rw [hx2, levelFuel, if_neg (by omega)]
      rw [hLHS, hRHS,
        ih (s.parent_indices.getD x 0) hp (by omega) fu (by omega),
        ih (s.parent_indices.getD x 0) hp (by omega) x2 (by omega)]

/-- A non-root node sits one level below its parent. -/
theorem levelOf_parent (s : SuccinctWorkingStorage V)
    (hpar : ∀ j, 0 < j → j < s.node_count → s.parent_indices.getD j 0 < j)
    (x : Nat) (hx0 : 0 < x) (hx : x < s.node_count) :
    levelOf s x = levelOf s (s.parent_indices.getD x 0) + 1 := by
  have hp := hpar x hx0 hx
  obtain ⟨x2, hx2⟩ : ∃ x2, x = x2 + 1 := ⟨x - 1, by omega⟩
  show levelFuel s x x = _
  rw [hx2, levelFuel, if_neg (by omega), ← hx2,
    levelFuel_stable s hpar (s.parent_indices.getD x 0) (by omega) x2 (by omega)]

theorem levelOf_le (s : SuccinctWorkingStorage V)
    (hpar : ∀ j, 0 < j → j < s.node_count → s.parent_indices.getD j 0 < j) :
    ∀ x, x < s.node_count → levelOf s x ≤ x := by
  intro x
  induction x using Nat.strong_induction_on with
  | _ x ih =>
    intro hx
    by_cases h0 : x = 0
    · subst h0; rw [levelOf_zero]
    · have hx0 : 0 < x := Nat.pos_of_ne_zero h0
      have hp := hpar x hx0 hx
      rw [levelOf_parent s hpar x hx0 hx]
      have := ih (s.parent_indices.getD x 0) hp (by omega)
      omega

theorem childrenFilter_nodup (s : SuccinctWorkingStorage V) (i : Nat) :
    (childrenFilter s i).Nodup := by
  exact (List.nodup_range' (i + 1) (s.node_count - (i + 1)) 1 Nat.one_pos).filter _

theorem mem_layers_of (s : SuccinctWorkingStorage V)
    (hcl : s.child_counts.length = s.node_count)
    (hroot : s.parent_indices.getD 0 0 = 0)
    (hpar : ∀ j, 0 < j → j < s.node_count → s.parent_indices.getD j 0 < j)
    (hcc : ∀ i, i < s.node_count →
      s.child_counts.getD i 0
        = ((List.range s.node_count).filter
            (fun j => decide (0 < j) && decide (s.parent_indices.getD j 0 = i))).length)
    (hn : 0 < s.node_count) :
    ∀ k x, x ∈ layers s k → x < s.node_count ∧ levelOf s x = k := by
  intro k
  induction k with
  | zero =>
      intro x hx
      rw [layers, List.mem_singleton] at hx
      subst hx
      exact ⟨hn, levelOf_zero s⟩
  | succ k ih =>
      intro x hx
      rw [layers, List.mem_flatMap] at hx
      obtain ⟨p, hpmem, hxc⟩ := hx
      obtain ⟨hplt, hplev⟩ := ih p hpmem
      rw [childIndices_eq s hcl hroot hpar hcc p hplt, mem_childrenFilter] at hxc
      obtain ⟨hpx, hxn, hxp⟩ := hxc
      refine ⟨hxn, ?_⟩
      rw [levelOf_parent s hpar x (by omega) hxn, hxp, hplev]

theorem mem_layers_inv (s : SuccinctWorkingStorage V)
    (hcl : s.child_counts.length = s.node_count)
    (hroot : s.parent_indices.getD 0 0 = 0)
    (hpar : ∀ j, 0 < j → j < s.node_count → s.parent_indices.getD j 0 < j)
    (hcc : ∀ i, i < s.node_count →
      s.child_counts.getD i 0
        = ((List.range s.node_count).filter
            (fun j => decide (0 < j) && decide (s.parent_indices.getD j 0 = i))).length) :
    ∀ x, x < s.node_count → x ∈ layers s (levelOf s x) := by
  intro x
  induction x using Nat.strong_induction_on with
  | _ x ih =>
    intro hx
    by_cases h0 : x = 0
    · subst h0
      rw [levelOf_zero]
      exact List.mem_singleton.mpr rfl
    · have hx0 : 0 < x := Nat.pos_of_ne_zero h0
      have hp := hpar x hx0 hx
      have hpmem := ih (s.parent_indices.getD x 0) hp (by omega)
      rw [levelOf_parent s hpar x hx0 hx, layers, List.mem_flatMap]
      refine ⟨s.parent_indices.getD x 0, hpmem, ?_⟩
      rw [childIndices_eq s hcl hroot hpar hcc _ (by omega), mem_childrenFilter]
      exact ⟨hp, hx, rfl⟩

theorem layers_nodup (s : SuccinctWorkingStorage V)
    (hcl : s.child_counts.length = s.node_count)
    (hroot : s.parent_indices.getD 0 0 = 0)
    (hpar : ∀ j, 0 < j → j < s.node_count → s.parent_indices.getD j 0 < j)
    (hcc : ∀ i, i < s.node_count →
      s.child_counts.getD i 0
        = ((List.range s.node_count).filter
            (fun j => decide (0 < j) && decide (s.parent_indices.getD j 0 = i))).length)
    (hn : 0 < s.node_count) :
    ∀ k, (layers s k).Nodup := by
  intro k
  induction k with
  | zero => simp [layers]
  | succ k ih =>
      rw [layers, List.nodup_flatMap]
      constructor
      · intro p hpmem
        obtain ⟨hplt, _⟩ := mem_layers_of s hcl hroot hpar hcc hn k p hpmem
        rw [childIndices_eq s hcl hroot hpar hcc p hplt]
        exact childrenFilter_nodup s p
      · refine List.Pairwise.imp_of_mem ?_ ih
        intro a b hamem hbmem hab
        obtain ⟨halt, _⟩ := mem_layers_of s hcl hroot hpar hcc hn k a hamem
        obtain ⟨hblt, _⟩ := mem_layers_of s hcl hroot hpar hcc hn k b hbmem
        show ((childIndices s a).Disjoint (childIndices s b))
        rw [childIndices_eq s hcl hroot hpar hcc a halt,
          childIndices_eq s hcl hroot hpar hcc b hblt]
        intro c hca hcb
        rw [mem_childrenFilter] at hca hcb
        exact hab (hca.2.2 ▸ hcb.2.2)

theorem mem_layerCat (s : SuccinctWorkingStorage V)
    (hcl : s.child_counts.length = s.node_count)
    (hroot : s.parent_indices.getD 0 0 = 0)
    (hpar : ∀ j, 0 < j → j < s.node_count → s.parent_indices.getD j 0 < j)
    (hcc : ∀ i, i < s.node_count →
      s.child_counts.getD i 0
        = ((List.range s.node_count).filter
            (fun j => decide (0 < j) && decide (s.parent_indices.getD j 0 = i))).length)
    (hn : 0 < s.node_count) :
    ∀ m x, x ∈ layerCat s m ↔ x < s.node_count ∧ levelOf s x < m := by
  intro m
  induction m with
  | zero => intro x; simp [layerCat]
  | succ m ih =>
      intro x
      rw [layerCat, List.mem_append, ih]
      constructor
      · rintro (⟨h1, h2⟩ | hx)
        · exact ⟨h1, by omega⟩
        · obtain ⟨h1, h2⟩ := mem_layers_of s hcl hroot hpar hcc hn m x hx
          exact ⟨h1, by omega⟩
      · rintro ⟨h1, h2⟩
        by_cases hlev : levelOf s x < m
        · exact Or.inl ⟨h1, hlev⟩
        · right
          have : levelOf s x = m := by omega
          exact this ▸ mem_layers_inv s hcl hroot hpar hcc x h1

theorem layerCat_nodup (s : SuccinctWorkingStorage V)
    (hcl : s.child_counts.length = s.node_count)
    (hroot : s.parent_indices.getD 0 0 = 0)
    (hpar : ∀ j, 0 < j → j < s.node_count → s.parent_indices.getD j 0 < j)
    (hcc : ∀ i, i < s.node_count →
      s.child_counts.getD i 0
        = ((List.range s.node_count).filter
            (fun j => decide (0 < j) && decide (s.parent_indices.getD j 0 = i))).length)
    (hn : 0 < s.node_count) :
    ∀ m, (layerCat s m).Nodup := by
  intro m
  induction m with
  | zero => simp [layerCat]
  | succ m ih =>
      rw [layerCat]
      refine List.Nodup.append ih (layers_nodup s hcl hroot hpar hcc hn m) ?_
      intro x hx1 hx2
      rw [mem_layerCat s hcl hroot hpar hcc hn] at hx1
      obtain ⟨_, hlev⟩ := mem_layers_of s hcl hroot hpar hcc hn m x hx2
      omega

/-- Every node appears in the first `node_count` layers: the breadth-first
visitation order is a permutation of the id range. -/
theorem bfsSeq_perm_range (s : SuccinctWorkingStorage V)
    (hcl : s.child_counts.length = s.node_count)
    (hroot : s.parent_indices.getD 0 0 = 0)
    (hpar : ∀ j, 0 < j → j < s.node_count → s.parent_indices.getD j 0 < j)
    (hcc : ∀ i, i < s.node_count →
      s.child_counts.getD i 0
        = ((List.range s.node_count).filter
            (fun j => decide (0 < j) && decide (s.parent_indices.getD j 0 = i))).length)
    (hn : 0 < s.node_count) :
    (bfsSeq s).Perm (List.range s.node_count) := by
  show (layerCat s s.node_count).Perm (List.range s.node_count)
  rw [List.perm_ext_iff_of_nodup
    (layerCat_nodup s hcl hroot hpar hcc hn s.node_count) (List.nodup_range _)]
  intro x
  rw [List.mem_range]
  show x ∈ layerCat s s.node_count ↔ _
  rw [mem_layerCat s hcl hroot hpar hcc hn]
  constructor
  · exact fun h => h.1
  · intro hx
    have := levelOf_le s hpar x hx
    exact ⟨hx, by omega⟩

theorem bfsSeq_length (s : SuccinctWorkingStorage V)
    (hcl : s.child_counts.length = s.node_count)
    (hroot : s.parent_indices.getD 0 0 = 0)
    (hpar : ∀ j, 0 < j → j < s.node_count → s.parent_indices.getD j 0 < j)
    (hcc : ∀ i, i < s.node_count →
      s.child_counts.getD i 0
        = ((List.range s.node_count).filter
            (fun j => decide (0 < j) && decide (s.parent_indices.getD j 0 = i))).length)
    (hn : 0 < s.node_count) :
    (bfsSeq s).length = s.node_count := by
  rw [(bfsSeq_perm_range s hcl hroot hpar hcc hn).length_eq, List.length_range]

theorem layers_node_count_nil (s : SuccinctWorkingStorage V)
    (hcl : s.child_counts.length = s.node_count)
    (hroot : s.parent_indices.getD 0 0 = 0)
    (hpar : ∀ j, 0 < j → j < s.node_count → s.parent_indices.getD j 0 < j)
    (hcc : ∀ i, i < s.node_count →
      s.child_counts.getD i 0
        = ((List.range s.node_count).filter
            (fun j => decide (0 < j) && decide (s.parent_indices.getD j 0 = i))).length)
    (hn : 0 < s.node_count) :
    layers s s.node_count = [] := by
  rw [List.eq_nil_iff_forall_not_mem]
  intro x hx
  obtain ⟨hxn, hlev⟩ := mem_layers_of s hcl hroot hpar hcc hn s.node_count x hx
  have := levelOf_le s hpar x hxn
  omega

/-- With fuel `node_count` — and with any surplus fuel — the pop sequence
from the singleton root queue is exactly the full breadth-first order: the
C++ loop performs `node_count` pops and then finds the queue empty. -/
theorem bfsOrder_all (s : SuccinctWorkingStorage V)
    (hcl : s.child_counts.length = s.node_count)
    (hroot : s.parent_indices.getD 0 0 = 0)
    (hpar : ∀ j, 0 < j → j < s.node_count → s.parent_indices.getD j 0 < j)
    (hcc : ∀ i, i < s.node_count →
      s.child_counts.getD i 0
        = ((List.range s.node_count).filter
            (fun j => decide (0 < j) && decide (s.parent_indices.getD j 0 = i))).length)
    (hn : 0 < s.node_count) :
    ∀ g, bfsOrder s (s.node_count + g) [0] = bfsSeq s := by
  intro g
  have h1 : s.node_count + g = (layerCat s s.node_count).length + g := by
    rw [show (layerCat s s.node_count).length = (bfsSeq s).length from rfl,
      bfsSeq_length s hcl hroot hpar hcc hn]
  rw [h1, bfsOrder_layerCat s s.node_count g,
    layers_node_count_nil s hcl hroot hpar hcc hn, bfsOrder_nil, List.append_nil]
  rfl

theorem map_indexOf_self (l : List Nat) (h : l.Nodup) :
    l.map (fun a => List.indexOf a l) = List.range l.length := by
  refine List.ext_getElem (by simp) ?_
  intro i h1 h2
  simp only [List.getElem_map, List.getElem_range]
  exact List.indexOf_getElem h i (by simpa using h1)

theorem mem_take_of_indexOf_lt (l : List Nat) (x m : Nat) (hx : x ∈ l)
    (hr : List.indexOf x l < m) : x ∈ l.take m := by
  have h1 : List.indexOf x l < l.length := List.indexOf_lt_length.mpr hx
  have h2 : List.indexOf x l < (l.take m).length := by
    rw [List.length_take]; omega
  have h4 : (l.take m)[List.indexOf x l] = x := by
    rw [List.getElem_take l, List.getElem_indexOf h1]
  exact h4 ▸ List.getElem_mem h2

theorem mem_bfsSeq (s : SuccinctWorkingStorage V)
    (hcl : s.child_counts.length = s.node_count)
    (hroot : s.parent_indices.getD 0 0 = 0)
    (hpar : ∀ j, 0 < j → j < s.node_count → s.parent_indices.getD j 0 < j)
    (hcc : ∀ i, i < s.node_count →
      s.child_counts.getD i 0
        = ((List.range s.node_count).filter
            (fun j => decide (0 < j) && decide (s.parent_indices.getD j 0 = i))).length)
    (hn : 0 < s.node_count) (x : Nat) :
    x ∈ bfsSeq s ↔ x < s.node_count := by
  rw [(bfsSeq_perm_range s hcl hroot hpar hcc hn).mem_iff, List.mem_range]

theorem bfsRank_lt (s : SuccinctWorkingStorage V)
    (hcl : s.child_counts.length = s.node_count)
    (hroot : s.parent_indices.getD 0 0 = 0)
    (hpar : ∀ j, 0 < j → j < s.node_count → s.parent_indices.getD j 0 < j)
    (hcc : ∀ i, i < s.node_count →
      s.child_counts.getD i 0
        = ((List.range s.node_count).filter
            (fun j => decide (0 < j) && decide (s.parent_indices.getD j 0 = i))).length)
    (hn : 0 < s.node_count) (x : Nat) (hx : x < s.node_count) :
    bfsRank s x < s.node_count := by
  have := List.indexOf_lt_length.mpr
    ((mem_bfsSeq s hcl hroot hpar hcc hn x).mpr hx)
  rw [bfsSeq_length s hcl hroot hpar hcc hn] at this
  exact this

theorem bfsSeq_getElem_rank (s : SuccinctWorkingStorage V) (x : Nat)
    (hx : x ∈ bfsSeq s) :
    (bfsSeq s)[bfsRank s x]? = some x := by
  have h1 : List.indexOf x (bfsSeq s) < (bfsSeq s).length :=
    List.indexOf_lt_length.mpr hx
  show (bfsSeq s)[List.indexOf x (bfsSeq s)]? = some x
  rw [List.getElem?_eq_getElem h1]
  exact congrArg some (List.getElem_indexOf h1)

theorem bfsRank_getElem (s : SuccinctWorkingStorage V)
    (hcl : s.child_counts.length = s.node_count)
    (hroot : s.parent_indices.getD 0 0 = 0)
    (hpar : ∀ j, 0 < j → j < s.node_count → s.parent_indices.getD j 0 < j)
    (hcc : ∀ i, i < s.node_count →
      s.child_counts.getD i 0
        = ((List.range s.node_count).filter
            (fun j => decide (0 < j) && decide (s.parent_indices.getD j 0 = i))).length)
    (hn : 0 < s.node_count) (j : Nat) (hj : j < (bfsSeq s).length) :
    bfsRank s (bfsSeq s)[j] = j :=
  List.indexOf_getElem (layerCat_nodup s hcl hroot hpar hcc hn s.node_count) j hj

theorem bfsRank_inj (s : SuccinctWorkingStorage V)
    (hcl : s.child_counts.length = s.node_count)
    (hroot : s.parent_indices.getD 0 0 = 0)
    (hpar : ∀ j, 0 < j → j < s.node_count → s.parent_indices.getD j 0 < j)
    (hcc : ∀ i, i < s.node_count →
      s.child_counts.getD i 0
        = ((List.range s.node_count).filter
            (fun j => decide (0 < j) && decide (s.parent_indices.getD j 0 = i))).length)
    (hn : 0 < s.node_count) (x y : Nat) (hx : x < s.node_count)
    (hy : y < s.node_count) (hxy : bfsRank s x = bfsRank s y) : x = y := by
  have h1 := bfsSeq_getElem_rank s x ((mem_bfsSeq s hcl hroot hpar hcc hn x).mpr hx)
  have h2 := bfsSeq_getElem_rank s y ((mem_bfsSeq s hcl hroot hpar hcc hn y).mpr hy)
  rw [hxy, h2] at h1
  exact (Option.some_injective _ h1).symm

theorem bfsSeq_head (s : SuccinctWorkingStorage V)
    (hcl : s.child_counts.length = s.node_count)
    (hroot : s.parent_indices.getD 0 0 = 0)
    (hpar : ∀ j, 0 < j → j < s.node_count → s.parent_indices.getD j 0 < j)
    (hcc : ∀ i, i < s.node_count →
      s.child_counts.getD i 0
        = ((List.range s.node_count).filter
            (fun j => decide (0 < j) && decide (s.parent_indices.getD j 0 = i))).length)
    (hn : 0 < s.node_count) :
    ∃ t, bfsSeq s = 0 :: t := by
  obtain ⟨k, hk⟩ : ∃ k, s.node_count = k + 1 := ⟨s.node_count - 1, by omega⟩
  have h := bfsOrder_all s hcl hroot hpar hcc hn 0
  rw [Nat.add_zero, hk] at h
  rw [bfsOrder_cons] at h
  exact ⟨_, h.symm⟩

theorem bfsRank_zero (s : SuccinctWorkingStorage V)
    (hcl : s.child_counts.length = s.node_count)
    (hroot : s.parent_indices.getD 0 0 = 0)
    (hpar : ∀ j, 0 < j → j < s.node_count → s.parent_indices.getD j 0 < j)
    (hcc : ∀ i, i < s.node_count →
      s.child_counts.getD i 0
        = ((List.range s.node_count).filter
            (fun j => decide (0 < j) && decide (s.parent_indices.getD j 0 = i))).length)
    (hn : 0 < s.node_count) :
    bfsRank s 0 = 0 := by
  obtain ⟨t, ht⟩ := bfsSeq_head s hcl hroot hpar hcc hn
  show List.indexOf 0 (bfsSeq s) = 0
  rw [ht]
  exact List.indexOf_cons_self 0 t

theorem layerCat_prefix (s : SuccinctWorkingStorage V) :
    ∀ a b, a ≤ b → ∃ R, layerCat s b = layerCat s a ++ R := by
  intro a b
  induction b with
  | zero =>
      intro h
      have ha : a = 0 := by omega
      subst ha
      exact ⟨[], by simp⟩
  | succ b ih =>
      intro h
      by_cases hab : a = b + 1
      · subst hab
        exact ⟨[], by simp⟩
      · obtain ⟨R, hR⟩ := ih (by omega)
        exact ⟨R ++ layers s b, by rw [layerCat, hR, List.append_assoc]⟩

/-- Ids increase with distance from the root: a node on a strictly smaller
level gets a strictly smaller position in the breadth-first order. -/
theorem bfsRank_lt_of_level_lt (s : SuccinctWorkingStorage V)
    (hcl : s.child_counts.length = s.node_count)
    (hroot : s.parent_indices.getD 0 0 = 0)
    (hpar : ∀ j, 0 < j → j < s.node_count → s.parent_indices.getD j 0 < j)
    (hcc : ∀ i, i < s.node_count →
      s.child_counts.getD i 0
        = ((List.range s.node_count).filter
            (fun j => decide (0 < j) && decide (s.parent_indices.getD j 0 = i))).length)
    (hn : 0 < s.node_count) (x y : Nat) (hx : x < s.node_count)
    (hy : y < s.node_count) (hlt : levelOf s x < levelOf s y) :
    bfsRank s x < bfsRank s y := by
  have hxk : x ∈ layers s (levelOf s x) := mem_layers_inv s hcl hroot hpar hcc x hx
  have hxcat : x ∈ layerCat s (levelOf s x + 1) := by
    rw [mem_layerCat s hcl hroot hpar hcc hn]
    exact ⟨hx, by omega⟩
  have hk1 : levelOf s x + 1 ≤ s.node_count := by
    have := levelOf_le s hpar x hx
    omega
  obtain ⟨R, hR⟩ := layerCat_prefix s (levelOf s x + 1) s.node_count hk1
  have hyn : y ∉ layerCat s (levelOf s x + 1) := by
    intro hmem
    rw [mem_layerCat s hcl hroot hpar hcc hn] at hmem
    omega
  show List.indexOf x (bfsSeq s) < List.indexOf y (bfsSeq s)
  unfold bfsSeq
  rw [hR, List.indexOf_append_of_mem hxcat, List.indexOf_append_of_not_mem hyn]
  have := List.indexOf_lt_length.mpr hxcat
  omega

/-- The children of any node occupy a contiguous range of new ids. -/
theorem bfsRank_children_contiguous (s : SuccinctWorkingStorage V)
    (hcl : s.child_counts.length = s.node_count)
    (hroot : s.parent_indices.getD 0 0 = 0)
    (hpar : ∀ j, 0 < j → j < s.node_count → s.parent_indices.getD j 0 < j)
    (hcc : ∀ i, i < s.node_count →
      s.child_counts.getD i 0
        = ((List.range s.node_count).filter
            (fun j => decide (0 < j) && decide (s.parent_indices.getD j 0 = i))).length)
    (hn : 0 < s.node_count) (p : Nat) (hp : p < s.node_count) :
    ∃ b, (childrenFilter s p).map (bfsRank s)
      = List.range' b (childrenFilter s p).length := by
  by_cases hemp : childrenFilter s p = []
  · exact ⟨0, by rw [hemp]; rfl⟩
  -- p's layer, split around p
  have hpk : p ∈ layers s (levelOf s p) := mem_layers_inv s hcl hroot hpar hcc p hp
  obtain ⟨u, w, hsplit, hpu⟩ := List.eq_append_cons_of_mem hpk
  -- the next layer, with the child scans written out
  have hlay : layers s (levelOf s p + 1)
      = (layers s (levelOf s p)).flatMap (childrenFilter s) := by
    rw [layers]
    refine List.flatMap_congr ?_
    intro q hq
    exact childIndices_eq s hcl hroot hpar hcc q
      (mem_layers_of s hcl hroot hpar hcc hn _ q hq).1
  have hlay2 : layers s (levelOf s p + 1)
      = u.flatMap (childrenFilter s)
        ++ (childrenFilter s p ++ w.flatMap (childrenFilter s)) := by
    rw [hlay, hsplit, List.flatMap_append, List.flatMap_cons]
  -- a child exists, so the layer after the children's layer is still within range
  obtain ⟨c0, hc0⟩ := List.exists_mem_of_ne_nil _ hemp
  have hc0f := (mem_childrenFilter s p c0).mp hc0
  have hc0lev : levelOf s c0 = levelOf s p + 1 := by
    rw [levelOf_parent s hpar c0 (by omega) hc0f.2.1, hc0f.2.2]
  have hk2 : levelOf s p + 2 ≤ s.node_count := by
    have := levelOf_le s hpar c0 hc0f.2.1
    omega
  obtain ⟨R2, hR2⟩ := layerCat_prefix s (levelOf s p + 2) s.node_count hk2
  -- per-child position computation
  have hpos : ∀ c ∈ childrenFilter s p,
      bfsRank s c = (layerCat s (levelOf s p + 1)).length
        + (u.flatMap (childrenFilter s)).length
        + List.indexOf c (childrenFilter s p) := by
    intro c hc
    have hcf := (mem_childrenFilter s p c).mp hc
    have hclev : levelOf s c = levelOf s p + 1 := by
      rw [levelOf_parent s hpar c (by omega) hcf.2.1, hcf.2.2]
    have hcnot : c ∉ layerCat s (levelOf s p + 1) := by
      intro hmem
      rw [mem_layerCat s hcl hroot hpar hcc hn] at hmem
      omega
    have hcnotu : c ∉ u.flatMap (childrenFilter s) := by
      intro hmem
      rw [List.mem_flatMap] at hmem
      obtain ⟨q, hqu, hcq⟩ := hmem
      have hq : q ≠ p := fun h => hpu (h ▸ hqu)
      exact hq (((mem_childrenFilter s q c).mp hcq).2.2.symm.trans hcf.2.2)
    have hcmem : c ∈ layers s (levelOf s p + 1) := by
      rw [hlay2]
      exact List.mem_append_right _ (List.mem_append_left _ hc)
    show List.indexOf c (bfsSeq s) = _
    unfold bfsSeq
    rw [hR2, show layerCat s (levelOf s p + 2)
        = layerCat s (levelOf s p + 1) ++ layers s (levelOf s p + 1) from rfl,
      List.append_assoc, List.indexOf_append_of_not_mem hcnot,
      List.indexOf_append_of_mem hcmem, hlay2,
      List.indexOf_append_of_not_mem hcnotu,
      List.indexOf_append_of_mem hc]
    omega
  refine ⟨(layerCat s (levelOf s p + 1)).length
    + (u.flatMap (childrenFilter s)).length, ?_⟩
  rw [List.map_congr_left hpos]
  have hmm : (childrenFilter s p).map
      (fun c => (layerCat s (levelOf s p + 1)).length
        + (u.flatMap (childrenFilter s)).length
        + List.indexOf c (childrenFilter s p))
      = ((childrenFilter s p).map
          (fun c => List.indexOf c (childrenFilter s p))).map
        (fun i => (layerCat s (levelOf s p + 1)).length
          + (u.flatMap (childrenFilter s)).length + i) := by
    rw [List.map_map]
    rfl
  rw [hmm, map_indexOf_self _ (childrenFilter_nodup s p),
    List.range'_eq_map_range]

theorem getD_set_self_nat (l : List Nat) (i v : Nat) (h : i < l.length) :
    (l.set i v).getD i 0 = v := by
  rw [List.getD_eq_getElem?_getD, List.getElem?_set_self (by simpa using h)]
  rfl

theorem getD_set_ne_nat (l : List Nat) (i j v : Nat) (h : i ≠ j) :
    (l.set i v).getD j 0 = l.getD j 0 := by
  rw [List.getD_eq_getElem?_getD, List.getElem?_set_ne h,
    ← List.getD_eq_getElem?_getD]

theorem rebalLoop_nil_queue [Inhabited V] (s : SuccinctWorkingStorage V)
    (f : Nat) (mp : List Nat) (da : List V) (pa cc2 fc : List Nat) :
    rebalLoop s f ⟨[], mp, da, pa, cc2, fc⟩ = ⟨[], mp, da, pa, cc2, fc⟩ := by
  cases f <;> rfl

theorem rebalLoop_cons_queue [Inhabited V] (s : SuccinctWorkingStorage V)
    (f old : Nat) (q' mp : List Nat) (da : List V) (pa cc2 fc : List Nat) :
    rebalLoop s (f + 1) ⟨old :: q', mp, da, pa, cc2, fc⟩
      = rebalLoop s f
          ⟨q' ++ childIndices s old,
           mp.set old da.length,
           da ++ [s.data_array.getD old default],
           pa ++ [if old = 0 then 0
                  else (mp.set old da.length).getD
                    (s.parent_indices.getD old 0) 0],
           cc2 ++ [s.child_counts.getD old 0],
           fc ++ [0]⟩ := rfl

/-- The reorder loop, run with fuel `node_count` from the initial state,
visits the nodes in breadth-first order and produces exactly the relabeled
arrays: position `bfsRank x` holds node `x`'s payload and child count, and
its parent entry is the parent's new position.  Stated over an arbitrary
intermediate state (`m` nodes already popped) so it can be proved by
induction on the remaining fuel; the queue hypothesis holds for every
surplus fuel, which also shows the queue is empty when the fuel runs out —
the model's fuel-bounded loop performs the same pops as the C++ `while`
loop. -/
theorem rebalLoop_chars [Inhabited V] (s : SuccinctWorkingStorage V)
    (hcl : s.child_counts.length = s.node_count)
    (hroot : s.parent_indices.getD 0 0 = 0)
    (hpar : ∀ j, 0 < j → j < s.node_count → s.parent_indices.getD j 0 < j)
    (hcc : ∀ i, i < s.node_count →
      s.child_counts.getD i 0
        = ((List.range s.node_count).filter
            (fun j => decide (0 < j) && decide (s.parent_indices.getD j 0 = i))).length)
    (hn : 0 < s.node_count) :
    ∀ (f m : Nat) (q mp : List Nat) (da : List V) (pa cc2 fc : List Nat),
      s.node_count ≤ m + f → m ≤ s.node_count →
      (∀ g, bfsOrder s (f + g) q = (bfsSeq s).drop m) →
      mp.length = s.node_count →
      (∀ y, y < s.node_count →
        mp.getD y 0 = if y ∈ (bfsSeq s).take m then bfsRank s y else 0) →
      da = ((bfsSeq s).take m).map (fun x => s.data_array.getD x default) →
      pa = ((bfsSeq s).take m).map
        (fun x => if x = 0 then 0 else bfsRank s (s.parent_indices.getD x 0)) →
      cc2 = ((bfsSeq s).take m).map (fun x => s.child_counts.getD x 0) →
      fc = ((bfsSeq s).take m).map (fun _ => 0) →
      ∃ mp2, rebalLoop s f ⟨q, mp, da, pa, cc2, fc⟩
        = ⟨[], mp2,
           (bfsSeq s).map (fun x => s.data_array.getD x default),
           (bfsSeq s).map
             (fun x => if x = 0 then 0 else bfsRank s (s.parent_indices.getD x 0)),
           (bfsSeq s).map (fun x => s.child_counts.getD x 0),
           (bfsSeq s).map (fun _ => 0)⟩ := by
  intro f
  induction f with
  | zero =>
      intro m q mp da pa cc2 fc hmf hmn hq hml hmp hda hpa hcc2 hfc
      have hm : m = s.node_count := by omega
      subst hm
      have hq1 := hq 1
      rw [List.drop_eq_nil_of_le
        (by rw [bfsSeq_length s hcl hroot hpar hcc hn])] at hq1
      have hqnil : q = [] := by
        cases q with
        | nil => rfl
        | cons a q' =>
            rw [show (0 : Nat) + 1 = 0 + 1 from rfl, bfsOrder_cons] at hq1
            exact absurd hq1 (by simp)
      subst hqnil
      have htake : (bfsSeq s).take s.node_count = bfsSeq s := by
        rw [← bfsSeq_length s hcl hroot hpar hcc hn, List.take_length]
      rw [htake] at hda hpa hcc2 hfc
      refine ⟨mp, ?_⟩
      rw [show rebalLoop s 0 ⟨[], mp, da, pa, cc2, fc⟩
        = ⟨[], mp, da, pa, cc2, fc⟩ from rfl, hda, hpa, hcc2, hfc]
  | succ f2 ih =>
      intro m q mp da pa cc2 fc hmf hmn hq hml hmp hda hpa hcc2 hfc
      by_cases hm : m = s.node_count
      · subst hm
        have hq0 := hq 0
        rw [Nat.add_zero, List.drop_eq_nil_of_le
          (by rw [bfsSeq_length s hcl hroot hpar hcc hn])] at hq0
        have hqnil : q = [] := by
          cases q with
          | nil => rfl
          | cons a q' =>
              rw [bfsOrder_cons] at hq0
              exact absurd hq0 (by simp)
        subst hqnil
        have htake : (bfsSeq s).take s.node_count = bfsSeq s := by
          rw [← bfsSeq_length s hcl hroot hpar hcc hn, List.take_length]
        rw [htake] at hda hpa hcc2 hfc
        refine ⟨mp, ?_⟩
        rw [rebalLoop_nil_queue, hda, hpa, hcc2, hfc]
      · have hmlt : m < s.node_count := by omega
        have hmvs : m < (bfsSeq s).length := by
          rw [bfsSeq_length s hcl hroot hpar hcc hn]; omega
        have hdm : (bfsSeq s).drop m
            = (bfsSeq s)[m] :: (bfsSeq s).drop (m + 1) :=
          List.drop_eq_getElem_cons hmvs
        cases q with
        | nil =>
            have hq0 := hq 0
            rw [Nat.add_zero, bfsOrder_nil, hdm] at hq0
            exact absurd hq0.symm (List.cons_ne_nil _ _)
        | cons old q' =>
            have hq0 := hq 0
            rw [Nat.add_zero, bfsOrder_cons, hdm] at hq0
            have hold : old = (bfsSeq s)[m] := by
              injection hq0
            have hqnew : ∀ g, bfsOrder s (f2 + g) (q' ++ childIndices s old)
                = (bfsSeq s).drop (m + 1) := by
              intro g
              have hg := hq g
              rw [show f2 + 1 + g = (f2 + g) + 1 from by omega,
                bfsOrder_cons, hdm] at hg
              injection hg
            have holdmem : old ∈ bfsSeq s := hold ▸ List.getElem_mem hmvs
            have holdlt : old < s.node_count :=
              (mem_bfsSeq s hcl hroot hpar hcc hn old).mp holdmem
            have hrankold : bfsRank s old = m := by
              rw [hold]
              exact bfsRank_getElem s hcl hroot hpar hcc hn m hmvs
            have hdalen : da.length = m := by
              rw [hda, List.length_map, List.length_take,
                bfsSeq_length s hcl hroot hpar hcc hn]
              omega
            have htake1 : (bfsSeq s).take (m + 1)
                = (bfsSeq s).take m ++ [old] := by
              rw [List.take_succ, List.getElem?_eq_getElem hmvs, hold]
              rfl
            rw [rebalLoop_cons_queue, hdalen]
            refine ih (m + 1) (q' ++ childIndices s old) (mp.set old m) _ _ _ _
              (by omega) (by omega) hqnew ?_ ?_ ?_ ?_ ?_ ?_
            · rw [List.length_set, hml]
            · intro y hy
              by_cases hyold : y = old
              · subst hyold
                rw [getD_set_self_nat mp y m (by rw [hml]; exact hy),
                  htake1, if_pos (List.mem_append_right _
                    (List.mem_singleton.mpr rfl)), hrankold]
              · rw [getD_set_ne_nat mp old y m (fun h => hyold h.symm),
                  hmp y hy, htake1]
                have hiff : y ∈ (bfsSeq s).take m ++ [old]
                    ↔ y ∈ (bfsSeq s).take m := by
                  simp [List.mem_append, hyold]
                rw [if_congr hiff rfl rfl]
            · rw [htake1, List.map_append, ← hda]
              rfl
            · have hentry : (if old = 0 then 0
                  else (mp.set old m).getD (s.parent_indices.getD old 0) 0)
                  = (if old = 0 then 0
                     else bfsRank s (s.parent_indices.getD old 0)) := by
                by_cases h0 : old = 0
                · rw [if_pos h0, if_pos h0]
                · rw [if_neg h0, if_neg h0]
                  have hpold := hpar old (Nat.pos_of_ne_zero h0) holdlt
                  have hpne : old ≠ s.parent_indices.getD old 0 := by omega
                  rw [getD_set_ne_nat mp old _ m hpne, hmp _ (by omega)]
                  have hrankp : bfsRank s (s.parent_indices.getD old 0) < m := by
                    rw [← hrankold]
                    refine bfsRank_lt_of_level_lt s hcl hroot hpar hcc hn _ old
                      (by omega) holdlt ?_
                    rw [levelOf_parent s hpar old (Nat.pos_of_ne_zero h0) holdlt]
                    omega
                  have hmemtake : s.parent_indices.getD old 0
                      ∈ (bfsSeq s).take m :=
                    mem_take_of_indexOf_lt _ _ _
                      ((mem_bfsSeq s hcl hroot hpar hcc hn _).mpr (by omega))
                      hrankp
                  rw [if_pos hmemtake]
              rw [htake1, List.map_append, ← hpa, hentry]
              rfl
            · rw [htake1, List.map_append, ← hcc2]
              rfl
            · rw [htake1, List.map_append, ← hfc]
              rfl

theorem replicate_getD_zero (n y : Nat) :
    (List.replicate n (0 : Nat)).getD y 0 = 0 := by
  rw [List.getD_eq_getElem?_getD, List.getElem?_replicate]
  split <;> rfl

/-- Initial-state instantiation of `rebalLoop_chars`. -/
theorem rebalLoop_initial [Inhabited V] (s : SuccinctWorkingStorage V)
    (hcl : s.child_counts.length = s.node_count)
    (hroot : s.parent_indices.getD 0 0 = 0)
    (hpar : ∀ j, 0 < j → j < s.node_count → s.parent_indices.getD j 0 < j)
    (hcc : ∀ i, i < s.node_count →
      s.child_counts.getD i 0
        = ((List.range s.node_count).filter
            (fun j => decide (0 < j) && decide (s.parent_indices.getD j 0 = i))).length)
    (hn : 0 < s.node_count) (g : Nat) :
    ∃ mp2, rebalLoop s (s.node_count + g)
        ⟨[0], List.replicate s.node_count 0, [], [], [], []⟩
      = ⟨[], mp2,
         (bfsSeq s).map (fun x => s.data_array.getD x default),
         (bfsSeq s).map
           (fun x => if x = 0 then 0 else bfsRank s (s.parent_indices.getD x 0)),
         (bfsSeq s).map (fun x => s.child_counts.getD x 0),
         (bfsSeq s).map (fun _ => 0)⟩ := by
  refine rebalLoop_chars s hcl hroot hpar hcc hn (s.node_count + g) 0 [0]
    (List.replicate s.node_count 0) [] [] [] []
    (by omega) (by omega) ?_ (List.length_replicate _ _) ?_ rfl rfl rfl rfl
  · intro g2
    rw [List.drop_zero, show s.node_count + g + g2 = s.node_count + (g + g2) from by
      omega]
    exact bfsOrder_all s hcl hroot hpar hcc hn (g + g2)
  · intro y hy
    rw [List.take_zero, if_neg (List.not_mem_nil y)]
    exact replicate_getD_zero _ _

/-- The reorder queue is empty once `node_count` pops have happened: surplus
fuel performs no further pops, so the fuel-bounded model runs the C++
`while` loop to completion. -/
theorem rebal_queue_empties [Inhabited V] (s : SuccinctWorkingStorage V)
    (hcl : s.child_counts.length = s.node_count)
    (hroot : s.parent_indices.getD 0 0 = 0)
    (hpar : ∀ j, 0 < j → j < s.node_count → s.parent_indices.getD j 0 < j)
    (hcc : ∀ i, i < s.node_count →
      s.child_counts.getD i 0
        = ((List.range s.node_count).filter
            (fun j => decide (0 < j) && decide (s.parent_indices.getD j 0 = i))).length)
    (hn : 0 < s.node_count) (g : Nat) :
    (rebalLoop s (s.node_count + g)
      ⟨[0], List.replicate s.node_count 0, [], [], [], []⟩).queue = [] := by
  obtain ⟨mp2, h⟩ := rebalLoop_initial s hcl hroot hpar hcc hn g
  rw [h]

/-- The four per-node arrays after `rebalance_for_locality` (for
`node_count > 3`): each is the old array read through the breadth-first
visitation order. -/
theorem rebalance_chars [Inhabited V] (s : SuccinctWorkingStorage V)
    (hcl : s.child_counts.length = s.node_count)
    (hroot : s.parent_indices.getD 0 0 = 0)
    (hpar : ∀ j, 0 < j → j < s.node_count → s.parent_indices.getD j 0 < j)
    (hcc : ∀ i, i < s.node_count →
      s.child_counts.getD i 0
        = ((List.range s.node_count).filter
            (fun j => decide (0 < j) && decide (s.parent_indices.getD j 0 = i))).length)
    (hn3 : 3 < s.node_count) :
    (rebalance_for_locality s).node_count = s.node_count ∧
    (rebalance_for_locality s).data_array
      = (bfsSeq s).map (fun x => s.data_array.getD x default) ∧
    (rebalance_for_locality s).parent_indices
      = (bfsSeq s).map
          (fun x => if x = 0 then 0 else bfsRank s (s.parent_indices.getD x 0)) ∧
    (rebalance_for_locality s).child_counts
      = (bfsSeq s).map (fun x => s.child_counts.getD x 0) ∧
    (rebalance_for_locality s).first_child_pos
      = (bfsSeq s).map (fun _ => 0) ∧
    (rebalance_for_locality s).operations_since_balance = 0 := by
  obtain ⟨mp2, hloop⟩ := rebalLoop_initial s hcl hroot hpar hcc (by omega) 0
  rw [Nat.add_zero] at hloop
  unfold rebalance_for_locality
  rw [if_neg (by omega), hloop]
  exact ⟨rfl, rfl, rfl, rfl, rfl, rfl⟩

theorem map_bfsSeq_getElem (s : SuccinctWorkingStorage V) {W : Type}
    (f : Nat → W) (x : Nat) (hx : x ∈ bfsSeq s) :
    ((bfsSeq s).map f)[bfsRank s x]? = some (f x) := by
  rw [List.getElem?_map, bfsSeq_getElem_rank s x hx]
  rfl

theorem map_bfsSeq_getD (s : SuccinctWorkingStorage V)
    (f : Nat → Nat) (x : Nat) (hx : x ∈ bfsSeq s) :
    ((bfsSeq s).map f).getD (bfsRank s x) 0 = f x := by
  rw [List.getD_eq_getElem?_getD, map_bfsSeq_getElem s f x hx]
  rfl

/-- Each node's payload survives the reorder at its new id. -/
theorem rebalance_data_getElem [Inhabited V] (s : SuccinctWorkingStorage V)
    (hwf : WF s) (hn3 : 3 < s.node_count) (x : Nat) (hx : x < s.node_count) :
    (rebalance_for_locality s).data_array[bfsRank s x]? = s.data_array[x]? := by
  obtain ⟨hdl, hpl, hcl, hfl, hroot, hpar, hcc⟩ := hwf
  obtain ⟨_, hda, _, _, _, _⟩ := rebalance_chars s hcl hroot hpar hcc hn3
  rw [hda, map_bfsSeq_getElem s _ x
    ((mem_bfsSeq s hcl hroot hpar hcc (by omega) x).mpr hx)]
  rw [List.getD_eq_getElem s.data_array default (by omega),
    List.getElem?_eq_getElem (by omega)]

/-- Each node's parent link is transported along the relabeling. -/
theorem rebalance_parent_getD [Inhabited V] (s : SuccinctWorkingStorage V)
    (hwf : WF s) (hn3 : 3 < s.node_count) (x : Nat) (hx0 : 0 < x)
    (hx : x < s.node_count) :
    (rebalance_for_locality s).parent_indices.getD (bfsRank s x) 0
      = bfsRank s (s.parent_indices.getD x 0) := by
  obtain ⟨hdl, hpl, hcl, hfl, hroot, hpar, hcc⟩ := hwf
  obtain ⟨_, _, hpa, _, _, _⟩ := rebalance_chars s hcl hroot hpar hcc hn3
  rw [hpa, map_bfsSeq_getD s _ x
    ((mem_bfsSeq s hcl hroot hpar hcc (by omega) x).mpr hx),
    if_neg (by omega)]

/-- Each node's child count is transported along the relabeling. -/
theorem rebalance_cc_getD [Inhabited V] (s : SuccinctWorkingStorage V)
    (hwf : WF s) (hn3 : 3 < s.node_count) (x : Nat) (hx : x < s.node_count) :
    (rebalance_for_locality s).child_counts.getD (bfsRank s x) 0
      = s.child_counts.getD x 0 := by
  obtain ⟨hdl, hpl, hcl, hfl, hroot, hpar, hcc⟩ := hwf
  obtain ⟨_, _, _, hcz, _, _⟩ := rebalance_chars s hcl hroot hpar hcc hn3
  rw [hcz, map_bfsSeq_getD s _ x
    ((mem_bfsSeq s hcl hroot hpar hcc (by omega) x).mpr hx)]

/-- The reordered storage satisfies the same class invariants. -/
theorem rebalance_WF [Inhabited V] (s : SuccinctWorkingStorage V)
    (hwf : WF s) (hn3 : 3 < s.node_count) :
    WF (rebalance_for_locality s) := by
  obtain ⟨hdl, hpl, hcl, hfl, hroot, hpar, hcc⟩ := hwf
  have hn : 0 < s.node_count := by omega
  obtain ⟨hnc, hda, hpa, hcz, hfz, _⟩ := rebalance_chars s hcl hroot hpar hcc hn3
  have hlen := bfsSeq_length s hcl hroot hpar hcc hn
  have hrank0 := bfsRank_zero s hcl hroot hpar hcc hn
  refine ⟨?_, ?_, ?_, ?_, ?_, ?_, ?_⟩
  · rw [hda, List.length_map, hlen, hnc]
  · rw [hpa, List.length_map, hlen, hnc]
  · rw [hcz, List.length_map, hlen, hnc]
  · rw [hfz, List.length_map, hlen, hnc]
  · have h0 : (rebalance_for_locality s).parent_indices.getD (bfsRank s 0) 0
        = 0 := by
      rw [hpa,
        map_bfsSeq_getD s _ 0 ((mem_bfsSeq s hcl hroot hpar hcc hn 0).mpr hn),
        if_pos rfl]
    rw [hrank0] at h0
    exact h0
  · intro j hj0 hjn
    rw [hnc] at hjn
    have hjvs : j < (bfsSeq s).length := by omega
    set x := (bfsSeq s)[j] with hxdef
    have hxmem : x ∈ bfsSeq s := List.getElem_mem hjvs
    have hxlt : x < s.node_count :=
      (mem_bfsSeq s hcl hroot hpar hcc hn x).mp hxmem
    have hrx : bfsRank s x = j :=
      bfsRank_getElem s hcl hroot hpar hcc hn j hjvs
    have hx0 : 0 < x := by
      rcases Nat.eq_zero_or_pos x with h0 | h0
      · rw [h0] at hrx; rw [hrank0] at hrx; omega
      · exact h0
    rw [← hrx,
      rebalance_parent_getD s ⟨hdl, hpl, hcl, hfl, hroot, hpar, hcc⟩ hn3 x hx0 hxlt]
    have hplt := hpar x hx0 hxlt
    have hlev : levelOf s (s.parent_indices.getD x 0) < levelOf s x := by
      rw [levelOf_parent s hpar x hx0 hxlt]
      omega
    have := bfsRank_lt_of_level_lt s hcl hroot hpar hcc hn
      (s.parent_indices.getD x 0) x (by omega) hxlt hlev
    omega
  · intro i hin
    rw [hnc] at hin
    have hivs : i < (bfsSeq s).length := by omega
    set x := (bfsSeq s)[i] with hxdef
    have hxmem : x ∈ bfsSeq s := List.getElem_mem hivs
    have hxlt : x < s.node_count :=
      (mem_bfsSeq s hcl hroot hpar hcc hn x).mp hxmem
    have hrx : bfsRank s x = i :=
      bfsRank_getElem s hcl hroot hpar hcc hn i hivs
    rw [← hrx,
      rebalance_cc_getD s ⟨hdl, hpl, hcl, hfl, hroot, hpar, hcc⟩ hn3 x hxlt,
      hcc x hxlt, count_filter_eq s hroot hpar x hxlt, hnc]
    -- both sides as lengths of nodup lists with the same members
    have hperm : (((List.range s.node_count).filter
        (fun j => decide (0 < j)
          && decide ((rebalance_for_locality s).parent_indices.getD j 0
            = bfsRank s x)))).Perm
        ((childrenFilter s x).map (bfsRank s)) := by
      rw [List.perm_ext_iff_of_nodup ((List.nodup_range _).filter _) ?_]
      · intro j
        rw [List.mem_filter, List.mem_range, List.mem_map]
        simp only [Bool.and_eq_true, decide_eq_true_eq]
        constructor
        · rintro ⟨hjn2, hj0, hjpar⟩
          have hjvs2 : j < (bfsSeq s).length := by omega
          set y := (bfsSeq s)[j] with hydef
          have hymem : y ∈ bfsSeq s := List.getElem_mem hjvs2
          have hylt : y < s.node_count :=
            (mem_bfsSeq s hcl hroot hpar hcc hn y).mp hymem
          have hry : bfsRank s y = j :=
            bfsRank_getElem s hcl hroot hpar hcc hn j hjvs2
          have hy0 : 0 < y := by
            rcases Nat.eq_zero_or_pos y with h0 | h0
            · rw [h0] at hry; rw [hrank0] at hry; omega
            · exact h0
          rw [← hry, rebalance_parent_getD s
            ⟨hdl, hpl, hcl, hfl, hroot, hpar, hcc⟩ hn3 y hy0 hylt] at hjpar
          have hpy := hpar y hy0 hylt
          have hparx : s.parent_indices.getD y 0 = x :=
            bfsRank_inj s hcl hroot hpar hcc hn _ x (by omega) hxlt hjpar
          refine ⟨y, ?_, hry⟩
          rw [mem_childrenFilter]
          exact ⟨by omega, hylt, hparx⟩
        · rintro ⟨c, hcmem, rfl⟩
          have hcf := (mem_childrenFilter s x c).mp hcmem
          have hc0 : 0 < c := by omega
          refine ⟨bfsRank_lt s hcl hroot hpar hcc hn c hcf.2.1, ?_, ?_⟩
          · rcases Nat.eq_zero_or_pos (bfsRank s c) with h0 | h0
            · exfalso
              have : c = 0 := bfsRank_inj s hcl hroot hpar hcc hn c 0
                hcf.2.1 hn (by rw [h0, hrank0])
              omega
            · exact h0
          · rw [rebalance_parent_getD s
              ⟨hdl, hpl, hcl, hfl, hroot, hpar, hcc⟩ hn3 c hc0 hcf.2.1,
              hcf.2.2]
      · refine List.Nodup.map_on ?_ (childrenFilter_nodup s x)
        intro a hamem b hbmem hab
        have haf := (mem_childrenFilter s x a).mp hamem
        have hbf := (mem_childrenFilter s x b).mp hbmem
        exact bfsRank_inj s hcl hroot hpar hcc hn a b haf.2.1 hbf.2.1 hab
    rw [hperm.length_eq, List.length_map]

/-- Levels are preserved by the relabeling. -/
theorem rebalance_level [Inhabited V] (s : SuccinctWorkingStorage V)
    (hwf : WF s) (hn3 : 3 < s.node_count) :
    ∀ x, x < s.node_count →
      levelOf (rebalance_for_locality s) (bfsRank s x) = levelOf s x := by
  obtain ⟨hdl, hpl, hcl, hfl, hroot, hpar, hcc⟩ := hwf
  have hn : 0 < s.node_count := by omega
  obtain ⟨hnc, _, _, _, _, _⟩ := rebalance_chars s hcl hroot hpar hcc hn3
  obtain ⟨_, _, _, _, _, hpar2, _⟩ := rebalance_WF s
    ⟨hdl, hpl, hcl, hfl, hroot, hpar, hcc⟩ hn3
  have hrank0 := bfsRank_zero s hcl hroot hpar hcc hn
  intro x
  induction x using Nat.strong_induction_on with
  | _ x ih =>
    intro hx
    by_cases h0 : x = 0
    · subst h0
      rw [hrank0, levelOf_zero, levelOf_zero]
    · have hx0 : 0 < x := Nat.pos_of_ne_zero h0
      have hrpos : 0 < bfsRank s x := by
        rcases Nat.eq_zero_or_pos (bfsRank s x) with hr0 | hr0
        · exfalso
          exact h0 (bfsRank_inj s hcl hroot hpar hcc hn x 0 hx hn
            (by rw [hr0, hrank0]))
        · exact hr0
      have hrlt : bfsRank s x < (rebalance_for_locality s).node_count := by
        rw [hnc]
        exact bfsRank_lt s hcl hroot hpar hcc hn x hx
      rw [levelOf_parent (rebalance_for_locality s) hpar2 (bfsRank s x)
        hrpos hrlt,
        rebalance_parent_getD s ⟨hdl, hpl, hcl, hfl, hroot, hpar, hcc⟩ hn3
          x hx0 hx,
        ih (s.parent_indices.getD x 0) (hpar x hx0 hx) (by
          have := hpar x hx0 hx; omega),
        levelOf_parent s hpar x hx0 hx]

/-- The depth worklist of `calculate_max_depth` folds `level + 1` over the
pop sequence: every queued entry's recorded depth is its node's level plus
one. -/
theorem maxDepthLoop_foldl (t : SuccinctWorkingStorage V)
    (hcl : t.child_counts.length = t.node_count)
    (hroot : t.parent_indices.getD 0 0 = 0)
    (hpar : ∀ j, 0 < j → j < t.node_count → t.parent_indices.getD j 0 < j)
    (hcc : ∀ i, i < t.node_count →
      t.child_counts.getD i 0
        = ((List.range t.node_count).filter
            (fun j => decide (0 < j) && decide (t.parent_indices.getD j 0 = i))).length)
    (hn : 0 < t.node_count) :
    ∀ (f : Nat) (qp : List (Nat × Nat)) (acc : Nat),
      (∀ pr ∈ qp, pr.1 < t.node_count ∧ pr.2 = levelOf t pr.1 + 1) →
      maxDepthLoop t f qp acc
        = (bfsOrder t f (qp.map Prod.fst)).foldl
            (fun a x => max a (levelOf t x + 1)) acc := by
  intro f
  induction f with
  | zero => intro qp acc hcons; rfl
  | succ f2 ih =>
      intro qp acc hcons
      cases qp with
      | nil => rfl
      | cons pr qp2 =>
          obtain ⟨nodei, d⟩ := pr
          have h1a : nodei < t.node_count :=
            (hcons (nodei, d) (List.mem_cons_self _ _)).1
          have h1b : d = levelOf t nodei + 1 :=
            (hcons (nodei, d) (List.mem_cons_self _ _)).2
          show maxDepthLoop t f2
              (qp2 ++ (childIndices t nodei).map (fun c => (c, d + 1)))
              (max acc d) = _
          have hmap : (qp2 ++ (childIndices t nodei).map
              (fun c => (c, d + 1))).map Prod.fst
              = qp2.map Prod.fst ++ childIndices t nodei := by
            rw [List.map_append, List.map_map,
              show (Prod.fst ∘ fun c : Nat => (c, d + 1)) = id from rfl,
              List.map_id]
          have hchi := childIndices_eq t hcl hroot hpar hcc nodei h1a
          rw [ih _ (max acc d) ?_, hmap]
          · show _ = (bfsOrder t (f2 + 1) (nodei :: qp2.map Prod.fst)).foldl
                (fun a x => max a (levelOf t x + 1)) acc
            rw [bfsOrder_cons, List.foldl_cons, h1b]
          · intro pr2 hpr2
            rw [List.mem_append] at hpr2
            rcases hpr2 with hl | hr
            · exact hcons pr2 (List.mem_cons_of_mem _ hl)
            · rw [List.mem_map] at hr
              obtain ⟨c, hcmem, rfl⟩ := hr
              rw [hchi] at hcmem
              have hcf := (mem_childrenFilter t nodei c).mp hcmem
              have hlev : levelOf t c = levelOf t nodei + 1 := by
                rw [levelOf_parent t hpar c (by omega) hcf.2.1, hcf.2.2]
              exact ⟨hcf.2.1, by show d + 1 = _; rw [hlev, h1b]⟩

/-- `calculate_max_depth` equals the fold of `level + 1` over the
breadth-first order. -/
theorem calculate_max_depth_eq (t : SuccinctWorkingStorage V)
    (hcl : t.child_counts.length = t.node_count)
    (hroot : t.parent_indices.getD 0 0 = 0)
    (hpar : ∀ j, 0 < j → j < t.node_count → t.parent_indices.getD j 0 < j)
    (hcc : ∀ i, i < t.node_count →
      t.child_counts.getD i 0
        = ((List.range t.node_count).filter
            (fun j => decide (0 < j) && decide (t.parent_indices.getD j 0 = i))).length)
    (hn : 0 < t.node_count) :
    calculate_max_depth t
      = ((bfsSeq t).map (fun x => levelOf t x + 1)).foldl max 0 := by
  unfold calculate_max_depth
  rw [if_neg (by omega)]
  rw [maxDepthLoop_foldl t hcl hroot hpar hcc hn t.node_count [(0, 1)] 0 ?_]
  · have hall := bfsOrder_all t hcl hroot hpar hcc hn 0
    rw [Nat.add_zero] at hall
    rw [show ([((0 : Nat), (1 : Nat))].map Prod.fst) = [0] from rfl, hall,
      List.foldl_map]
  · intro pr hpr
    rw [List.mem_singleton] at hpr
    subst hpr
    exact ⟨hn, by rw [levelOf_zero]⟩

/-- The relabeling map is itself a permutation of the id range. -/
theorem rank_map_range_perm (s : SuccinctWorkingStorage V)
    (hcl : s.child_counts.length = s.node_count)
    (hroot : s.parent_indices.getD 0 0 = 0)
    (hpar : ∀ j, 0 < j → j < s.node_count → s.parent_indices.getD j 0 < j)
    (hcc : ∀ i, i < s.node_count →
      s.child_counts.getD i 0
        = ((List.range s.node_count).filter
            (fun j => decide (0 < j) && decide (s.parent_indices.getD j 0 = i))).length)
    (hn : 0 < s.node_count) :
    ((List.range s.node_count).map (bfsRank s)).Perm
      (List.range s.node_count) := by
  have h1 : ((List.range s.node_count).map (bfsRank s)).Perm
      ((bfsSeq s).map (bfsRank s)) :=
    ((bfsSeq_perm_range s hcl hroot hpar hcc hn).symm).map _
  have h2 : (bfsSeq s).map (bfsRank s) = List.range s.node_count := by
    have h3 : (bfsSeq s).map (bfsRank s)
        = (bfsSeq s).map (fun a => List.indexOf a (bfsSeq s)) := rfl
    rw [h3, map_indexOf_self (bfsSeq s)
      (layerCat_nodup s hcl hroot hpar hcc hn s.node_count),
      bfsSeq_length s hcl hroot hpar hcc hn]
  exact h1.trans (h2 ▸ List.Perm.refl _)

/-- Locality reordering does not change `calculate_max_depth`. -/
theorem rebalance_max_depth [Inhabited V] (s : SuccinctWorkingStorage V)
    (hwf : WF s) (hn3 : 3 < s.node_count) :
    calculate_max_depth (rebalance_for_locality s) = calculate_max_depth s := by
  obtain ⟨hdl, hpl, hcl, hfl, hroot, hpar, hcc⟩ := hwf
  have hn : 0 < s.node_count := by omega
  obtain ⟨hnc, _, _, _, _, _⟩ := rebalance_chars s hcl hroot hpar hcc hn3
  obtain ⟨hdl2, hpl2, hcl2, hfl2, hroot2, hpar2, hcc2⟩ := rebalance_WF s
    ⟨hdl, hpl, hcl, hfl, hroot, hpar, hcc⟩ hn3
  have hn2 : 0 < (rebalance_for_locality s).node_count := by omega
  rw [calculate_max_depth_eq (rebalance_for_locality s) hcl2 hroot2 hpar2
    hcc2 hn2,
    calculate_max_depth_eq s hcl hroot hpar hcc hn]
  refine List.Perm.foldl_op_eq ?_
  -- chain of permutations between the two level lists
  have hA : ((bfsSeq (rebalance_for_locality s)).map
      (fun x => levelOf (rebalance_for_locality s) x + 1)).Perm
      ((List.range s.node_count).map
        (fun x => levelOf (rebalance_for_locality s) x + 1)) := by
    have := (bfsSeq_perm_range (rebalance_for_locality s) hcl2 hroot2
      hpar2 hcc2 hn2).map (fun x => levelOf (rebalance_for_locality s) x + 1)
    rw [hnc] at this
    exact this
  have hB : ((List.range s.node_count).map
      (fun x => levelOf (rebalance_for_locality s) x + 1)).Perm
      ((List.range s.node_count).map (fun x => levelOf s x + 1)) := by
    have hport : (((List.range s.node_count).map (bfsRank s)).map
        (fun x => levelOf (rebalance_for_locality s) x + 1))
        = (List.range s.node_count).map (fun x => levelOf s x + 1) := by
      rw [List.map_map]
      refine List.map_congr_left ?_
      intro x hx
      rw [List.mem_range] at hx
      show levelOf (rebalance_for_locality s) (bfsRank s x) + 1 = _
      rw [rebalance_level s ⟨hdl, hpl, hcl, hfl, hroot, hpar, hcc⟩ hn3 x hx]
    have hstep : ((List.range s.node_count).map
        (fun x => levelOf (rebalance_for_locality s) x + 1)).Perm
        (((List.range s.node_count).map (bfsRank s)).map
          (fun x => levelOf (rebalance_for_locality s) x + 1)) :=
      ((rank_map_range_perm s hcl hroot hpar hcc hn).symm).map _
    exact hstep.trans (hport ▸ List.Perm.refl _)
  have hC : ((List.range s.node_count).map (fun x => levelOf s x + 1)).Perm
      ((bfsSeq s).map (fun x => levelOf s x + 1)) :=
    ((bfsSeq_perm_range s hcl hroot hpar hcc hn).symm).map _
  exact (hA.trans hB).trans hC

theorem rebalance_small [Inhabited V] (s : SuccinctWorkingStorage V)
    (hn3 : s.node_count ≤ 3) : rebalance_for_locality s = s := by
  unfold rebalance_for_locality
  rw [if_pos hn3]

/-- With at most 3 nodes the invariants force the layout to already be in
breadth-first order: the visitation order is the identity. -/
theorem bfsSeq_small (s : SuccinctWorkingStorage V)
    (hcl : s.child_counts.length = s.node_count)
    (hroot : s.parent_indices.getD 0 0 = 0)
    (hpar : ∀ j, 0 < j → j < s.node_count → s.parent_indices.getD j 0 < j)
    (hcc : ∀ i, i < s.node_count →
      s.child_counts.getD i 0
        = ((List.range s.node_count).filter
            (fun j => decide (0 < j) && decide (s.parent_indices.getD j 0 = i))).length)
    (hn : 0 < s.node_count) (hn3 : s.node_count ≤ 3) :
    bfsSeq s = List.range s.node_count := by
  rcases (by omega : s.node_count = 1 ∨ s.node_count = 2 ∨ s.node_count = 3)
    with hcase | hcase | hcase
  · unfold bfsSeq
    rw [hcase]
    rfl
  · have hp1 : s.parent_indices.getD 1 0 = 0 := by
      have := hpar 1 (by omega) (by omega)
      omega
    have hchi0 : childIndices s 0 = [1] := by
      rw [childIndices_eq s hcl hroot hpar hcc 0 (by omega)]
      unfold childrenFilter
      rw [hcase]
      show (List.range' 1 1).filter _ = [1]
      rw [show List.range' 1 1 = [1] from rfl, List.filter_cons,
        if_pos (by simpa using hp1)]
      rfl
    unfold bfsSeq
    rw [hcase]
    show (([] ++ [0]) ++ ([0].flatMap (childIndices s))) = List.range 2
    rw [List.flatMap_cons, List.flatMap_nil, hchi0]
    rfl
  · have hp1 : s.parent_indices.getD 1 0 = 0 := by
      have := hpar 1 (by omega) (by omega)
      omega
    have hp2 : s.parent_indices.getD 2 0 = 0 ∨ s.parent_indices.getD 2 0 = 1 := by
      have := hpar 2 (by omega) (by omega)
      omega
    have hchi2 : childIndices s 2 = [] := by
      rw [childIndices_eq s hcl hroot hpar hcc 2 (by omega)]
      unfold childrenFilter
      rw [hcase]
      rfl
    rcases hp2 with hp2 | hp2
    · have hchi0 : childIndices s 0 = [1, 2] := by
        rw [childIndices_eq s hcl hroot hpar hcc 0 (by omega)]
        unfold childrenFilter
        rw [hcase]
        show (List.range' 1 2).filter _ = [1, 2]
        rw [show List.range' 1 2 = [1, 2] from rfl, List.filter_cons,
          if_pos (by simpa using hp1), List.filter_cons,
          if_pos (by simpa using hp2)]
        rfl
      have hchi1 : childIndices s 1 = [] := by
        rw [childIndices_eq s hcl hroot hpar hcc 1 (by omega)]
        unfold childrenFilter
        rw [hcase]
        show (List.range' 2 1).filter _ = []
        rw [show List.range' 2 1 = [2] from rfl, List.filter_cons,
          if_neg (by simp only [decide_eq_true_eq]; omega)]
        rfl
      unfold bfsSeq
      rw [hcase]
      show ((([] ++ [0]) ++ ([0].flatMap (childIndices s)))
        ++ (([0].flatMap (childIndices s)).flatMap (childIndices s)))
        = List.range 3
      rw [List.flatMap_cons, List.flatMap_nil, hchi0]
      rw [show ([1, 2] ++ [] : List Nat) = [1, 2] from rfl]
      rw [show ([1, 2].flatMap (childIndices s))
        = childIndices s 1 ++ (childIndices s 2 ++ []) from rfl]
      rw [hchi1, hchi2]
      rfl
    · have hchi0 : childIndices s 0 = [1] := by
        rw [childIndices_eq s hcl hroot hpar hcc 0 (by omega)]
        unfold childrenFilter
        rw [hcase]
        show (List.range' 1 2).filter _ = [1]
        rw [show List.range' 1 2 = [1, 2] from rfl, List.filter_cons,
          if_pos (by simpa using hp1), List.filter_cons,
          if_neg (by simp only [decide_eq_true_eq]; omega)]
        rfl
      have hchi1 : childIndices s 1 = [2] := by
        rw [childIndices_eq s hcl hroot hpar hcc 1 (by omega)]
        unfold childrenFilter
        rw [hcase]
        show (List.range' 2 1).filter _ = [2]
        rw [show List.range' 2 1 = [2] from rfl, List.filter_cons,
          if_pos (by simpa using hp2)]
        rfl
      unfold bfsSeq
      rw [hcase]
      show ((([] ++ [0]) ++ ([0].flatMap (childIndices s)))
        ++ (([0].flatMap (childIndices s)).flatMap (childIndices s)))
        = List.range 3
      rw [List.flatMap_cons, List.flatMap_nil, hchi0]
      rw [show ([1] ++ [] : List Nat) = [1] from rfl]
      rw [show ([1].flatMap (childIndices s))
        = childIndices s 1 ++ [] from rfl]
      rw [hchi1]
      rfl

theorem bfsRank_small (s : SuccinctWorkingStorage V)
    (hcl : s.child_counts.length = s.node_count)
    (hroot : s.parent_indices.getD 0 0 = 0)
    (hpar : ∀ j, 0 < j → j < s.node_count → s.parent_indices.getD j 0 < j)
    (hcc : ∀ i, i < s.node_count →
      s.child_counts.getD i 0
        = ((List.range s.node_count).filter
            (fun j => decide (0 < j) && decide (s.parent_indices.getD j 0 = i))).length)
    (hn : 0 < s.node_count) (hn3 : s.node_count ≤ 3) (x : Nat)
    (hx : x < s.node_count) : bfsRank s x = x := by
  show List.indexOf x (bfsSeq s) = x
  rw [bfsSeq_small s hcl hroot hpar hcc hn hn3]
  have h := List.indexOf_getElem (List.nodup_range s.node_count) x (by simpa)
  rwa [List.getElem_range] at h

theorem map_getD_range (l : List V) (d : V) :
    (List.range l.length).map (fun i => l.getD i d) = l := by
  refine List.ext_getElem (by simp) ?_
  intro i h1 h2
  simp only [List.getElem_map, List.getElem_range]
  exact List.getD_eq_getElem l d h2

/-- C4.  On every non-empty well-formed storage, `rebalance_for_locality`
only relabels node ids along a permutation `π` of the id range (the
breadth-first rank): the root keeps id 0, `node_count` is unchanged, the
stored payloads are the same multiset and each one sits at its relabeled
id, each node's parent link and child count are transported along `π`,
`calculate_max_depth` is unchanged, ids increase with distance from the
root, and the children of every node occupy a contiguous id range. -/
theorem rebalance_locality_spec [Inhabited V] (s : SuccinctWorkingStorage V)
    (hwf : WF s) (hn : 0 < s.node_count) :
    ∃ π : Nat → Nat,
      ((List.range s.node_count).map π).Perm (List.range s.node_count) ∧
      π 0 = 0 ∧
      (rebalance_for_locality s).node_count = s.node_count ∧
      (rebalance_for_locality s).data_array.Perm s.data_array ∧
      (∀ x, x < s.node_count →
        (rebalance_for_locality s).data_array[π x]? = s.data_array[x]?) ∧
      (∀ x, 0 < x → x < s.node_count →
        (rebalance_for_locality s).parent_indices.getD (π x) 0
          = π (s.parent_indices.getD x 0)) ∧
      (∀ x, x < s.node_count →
        (rebalance_for_locality s).child_counts.getD (π x) 0
          = s.child_counts.getD x 0) ∧
      calculate_max_depth (rebalance_for_locality s) = calculate_max_depth s ∧
      (∀ x y, x < s.node_count → y < s.node_count →
        levelOf s x < levelOf s y → π x < π y) ∧
      (∀ p, p < s.node_count → ∃ b,
        (childrenFilter s p).map π
          = List.range' b (s.child_counts.getD p 0)) := by
  obtain ⟨hdl, hpl, hcl, hfl, hroot, hpar, hcc⟩ := hwf
  refine ⟨bfsRank s, rank_map_range_perm s hcl hroot hpar hcc hn,
    bfsRank_zero s hcl hroot hpar hcc hn, ?_, ?_, ?_, ?_, ?_, ?_,
    bfsRank_lt_of_level_lt s hcl hroot hpar hcc hn, ?_⟩
  -- node_count
  · by_cases hn3 : s.node_count ≤ 3
    · rw [rebalance_small s hn3]
    · exact (rebalance_chars s hcl hroot hpar hcc (by omega)).1
  -- payload multiset
  · by_cases hn3 : s.node_count ≤ 3
    · rw [rebalance_small s hn3]
    · obtain ⟨_, hda, _, _, _, _⟩ :=
        rebalance_chars s hcl hroot hpar hcc (by omega)
      rw [hda]
      refine ((bfsSeq_perm_range s hcl hroot hpar hcc hn).map _).trans ?_
      rw [show List.range s.node_count = List.range s.data_array.length from by
        rw [hdl], map_getD_range]
  -- payload positions
  · intro x hx
    by_cases hn3 : s.node_count ≤ 3
    · rw [rebalance_small s hn3, bfsRank_small s hcl hroot hpar hcc hn hn3 x hx]
    · exact rebalance_data_getElem s ⟨hdl, hpl, hcl, hfl, hroot, hpar, hcc⟩
        (by omega) x hx
  -- parent links
  · intro x hx0 hx
    by_cases hn3 : s.node_count ≤ 3
    · have hp := hpar x hx0 hx
      rw [rebalance_small s hn3, bfsRank_small s hcl hroot hpar hcc hn hn3 x hx,
        bfsRank_small s hcl hroot hpar hcc hn hn3 _ (by omega)]
    · exact rebalance_parent_getD s ⟨hdl, hpl, hcl, hfl, hroot, hpar, hcc⟩
        (by omega) x hx0 hx
  -- child counts
  · intro x hx
    by_cases hn3 : s.node_count ≤ 3
    · rw [rebalance_small s hn3, bfsRank_small s hcl hroot hpar hcc hn hn3 x hx]
    · exact rebalance_cc_getD s ⟨hdl, hpl, hcl, hfl, hroot, hpar, hcc⟩
        (by omega) x hx
  -- max depth
  · by_cases hn3 : s.node_count ≤ 3
    · rw [rebalance_small s hn3]
    · exact rebalance_max_depth s ⟨hdl, hpl, hcl, hfl, hroot, hpar, hcc⟩
        (by omega)
  -- children occupy a contiguous range of new ids
  · intro p hp
    have hlen : s.child_counts.getD p 0 = (childrenFilter s p).length := by
      rw [hcc p hp, count_filter_eq s hroot hpar p hp]
    rw [hlen]
    exact bfsRank_children_contiguous s hcl hroot hpar hcc hn p hp

/-- A 5-node storage: root 0 with children 1, 2; node 1 with children 3, 4. -/
def c4store : SuccinctWorkingStorage Nat :=
  ⟨[], [1, 2, 3, 4, 5], [0, 0, 0, 1, 1], [0, 0, 0, 0, 0], [2, 2, 0, 0, 0], 5, 0⟩

theorem rebalance_locality_spec_witness :
    ∃ π : Nat → Nat,
      ((List.range c4store.node_count).map π).Perm
        (List.range c4store.node_count) ∧
      π 0 = 0 ∧
      (rebalance_for_locality c4store).node_count = c4store.node_count ∧
      (rebalance_for_locality c4store).data_array.Perm c4store.data_array ∧
      (∀ x, x < c4store.node_count →
        (rebalance_for_locality c4store).data_array[π x]?
          = c4store.data_array[x]?) ∧
      (∀ x, 0 < x → x < c4store.node_count →
        (rebalance_for_locality c4store).parent_indices.getD (π x) 0
          = π (c4store.parent_indices.getD x 0)) ∧
      (∀ x, x < c4store.node_count →
        (rebalance_for_locality c4store).child_counts.getD (π x) 0
          = c4store.child_counts.getD x 0) ∧
      calculate_max_depth (rebalance_for_locality c4store)
        = calculate_max_depth c4store ∧
      (∀ x y, x < c4store.node_count → y < c4store.node_count →
        levelOf c4store x < levelOf c4store y → π x < π y) ∧
      (∀ p, p < c4store.node_count → ∃ b,
        (childrenFilter c4store p).map π
          = List.range' b (c4store.child_counts.getD p 0)) :=
  rebalance_locality_spec c4store
    ⟨rfl, rfl, rfl, rfl, rfl,
     by intro j hj hj2; have h5 : j < 5 := hj2; interval_cases j <;> decide,
     by intro i hi; have h5 : i < 5 := hi; interval_cases i <;> decide⟩
    (by decide)

/-- A 3-node storage: root 0 (value 10) with children 1 (value 20) and
2 (value 30). -/
def c6store : SuccinctWorkingStorage Nat :=
  ⟨[true, false, true, false, true, false], [10, 20, 30],
   [0, 0, 0], [0, 0, 0], [2, 0, 0], 3, 0⟩

/-- C6, counterexample.  Removing node 1 from `c6store` does NOT tombstone:
the arena is compacted (the data array shrinks from 3 slots to 2), the
surviving node that held id 2 is remapped to id 1, so surviving ids are
both remapped and reused; id 2 no longer resolves at all.  Moreover the
root's `child_counts` entry still reads 2 afterwards, though only one child
survives. -/
theorem remove_subtree_compacts :
    (remove_node_and_descendants c6store 1).node_count = 2 ∧
    (remove_node_and_descendants c6store 1).data_array = [10, 30] ∧
    (remove_node_and_descendants c6store 1).data_array[2]? = none ∧
    c6store.data_array[2]? = some 30 ∧
    (remove_node_and_descendants c6store 1).data_array[1]? = some 30 ∧
    c6store.data_array[1]? = some 20 ∧
    (remove_node_and_descendants c6store 1).child_counts = [2, 0] := by
  decide

theorem remove_subtree_spec_witness :
    (1 ∈ removedSet c6store 1) ∧
    (∀ y ∈ removedSet c6store 1, 1 ≤ y ∧ y < c6store.node_count) ∧
    (removedSet c6store 1).Nodup ∧
    (remove_node_and_descendants c6store 1).node_count
      = c6store.node_count - (removedSet c6store 1).length ∧
    (∀ x, x < c6store.node_count → x ∉ removedSet c6store 1 →
      (remove_node_and_descendants c6store 1).data_array[newIdx c6store 1 x]?
        = c6store.data_array[x]?) ∧
    (∀ x, 0 < x → x < c6store.node_count → x ∉ removedSet c6store 1 →
      c6store.parent_indices.getD x 0 ∉ removedSet c6store 1 ∧
      (remove_node_and_descendants c6store 1).parent_indices[newIdx c6store 1 x]?
        = some (newIdx c6store 1 (c6store.parent_indices.getD x 0))) :=
  remove_subtree_spec c6store
    ⟨rfl, rfl, rfl, rfl, rfl,
     by intro j hj hj2; have h3 : j < 3 := hj2; interval_cases j <;> decide,
     by intro i hi; have h3 : i < 3 := hi; interval_cases i <;> decide⟩
    1 (by decide) (by decide)

/-- A 10-node storage one mutation below the lazy-balance threshold: root 0
with children 1, 3, 4, 5, 6, 7, 8, 9 (the high ids give the root's edges
large id-distances, dragging the locality score below 0.7) and node 2 a
child of node 1 (a depth-2 node, so breadth-first order is not the
identity). -/
def c5store : SuccinctWorkingStorage Nat :=
  ⟨[], [100, 101, 102, 103, 104, 105, 106, 107, 108, 109],
   [0, 0, 1, 0, 0, 0, 0, 0, 0, 0], [0, 0, 0, 0, 0, 0, 0, 0, 0, 0],
   [8, 1, 0, 0, 0, 0, 0, 0, 0, 0], 10, 99⟩

/-- `c5store` right after appending value 999 under the root: the state the
embedded rebalance check sees. -/
def c5s1 : SuccinctWorkingStorage Nat :=
  ⟨[true, false],
   [100, 101, 102, 103, 104, 105, 106, 107, 108, 109, 999],
   [0, 0, 1, 0, 0, 0, 0, 0, 0, 0, 0], [0, 0, 0, 0, 0, 0, 0, 0, 0, 0, 0],
   [9, 1, 0, 0, 0, 0, 0, 0, 0, 0, 0], 11, 100⟩

theorem c5s1_WF : WF c5s1 :=
  ⟨rfl, rfl, rfl, rfl, rfl,
   by intro j hj hj2; have h11 : j < 11 := hj2; interval_cases j <;> decide,
   by intro i hi; have h11 : i < 11 := hi; interval_cases i <;> decide⟩

theorem c5s1_score_lt : calculate_locality_score c5s1 < 7 / 10 := by
  obtain ⟨hd1, hp1, hcl1, hf1, hroot1, hpar1, hcc1⟩ := c5s1_WF
  have hperm : (localityTerms c5s1).Perm (specEdgeTerms c5s1) := by
    rw [localityTerms_eq c5s1 hcl1 hroot1 hpar1 hcc1]
    exact (flatMap_childrenFilter_perm c5s1 hpar1).map _
  have hfil : (List.range c5s1.node_count).filter (fun c => decide (0 < c))
      = [1, 2, 3, 4, 5, 6, 7, 8, 9, 10] := by decide
  have hterms : specEdgeTerms c5s1
      = [10/11, 10/11, 10/13, 5/7, 2/3, 5/8, 10/17, 5/9, 10/19, 1/2] := by
    unfold specEdgeTerms
    rw [hfil]
    show [edgeTerm c5s1 1, edgeTerm c5s1 2, edgeTerm c5s1 3, edgeTerm c5s1 4,
      edgeTerm c5s1 5, edgeTerm c5s1 6, edgeTerm c5s1 7, edgeTerm c5s1 8,
      edgeTerm c5s1 9, edgeTerm c5s1 10] = _
    norm_num [edgeTerm, c5s1]
  have hlen : (localityTerms c5s1).length = 10 := by
    rw [hperm.length_eq, hterms]
    rfl
  have hscore : calculate_locality_score c5s1
      = (localityTerms c5s1).sum / ((localityTerms c5s1).length : ℚ) := by
    unfold calculate_locality_score
    rw [if_neg (by decide), if_neg (by omega)]
  rw [hscore, hperm.sum_eq, hterms, hlen]
  norm_num

theorem c5s1_needs : needs_locality_rebalancing c5s1 = true := by
  unfold needs_locality_rebalancing
  rw [if_neg (by decide), decide_eq_true_eq]
  exact c5s1_score_lt

theorem c5s1_check : check_and_rebalance_for_locality c5s1
    = (rebalance_for_locality c5s1, true) := by
  unfold check_and_rebalance_for_locality
  rw [if_pos (by decide), if_pos c5s1_needs]

/-- C5, counterexample.  On `c5store`, the 100th mutation
`add_child_to_node 0 999` triggers the embedded locality reorder (counter
at threshold, 11 > 3 nodes, score 157448587/232792560 < 0.7).  The call
succeeds and hands back the pre-reorder index 10, but the reorder has
relabeled the arena: slot 10 of the returned state holds old node 2's
payload 102, while the newly added child (value 999) actually sits at its
breadth-first rank 9 — the returned id is not the new child's id. -/
theorem add_child_stale_handle :
    (add_child_to_node c5store 0 999).map
        (fun pr => (pr.2, pr.1.data_array[pr.2]?, pr.1.data_array[9]?,
          pr.1.node_count, pr.1.operations_since_balance))
      = some (10, some 102, some 999, 11, 0) := by
  have hmain : add_child_to_node c5store 0 999
      = some ((check_and_rebalance_for_locality c5s1).1, 10) := rfl
  rw [hmain, c5s1_check]
  decide

/-- C5, amended.  `add_child_to_node` succeeds iff the parent id is in
range (ids are never retired in this engine, so in-range means valid).  On
success the append itself behaves exactly as claimed: the appended state
keeps the invariants, grows by one node, stores the value under the parent
at the fresh index `node_count`, and bumps the parent's child count by
exactly one.  But the returned id is the PRE-rebalance index: the embedded
`check_and_rebalance_for_locality` runs after the append, and only when it
does not fire is the returned state the appended one (so the returned id
addresses the new child).  When it fires, the whole arena is relabeled
breadth-first and the new child actually sits at its breadth-first rank,
which the counterexample shows can differ from the returned id. -/
theorem add_child_unified_spec [Inhabited V] (s : SuccinctWorkingStorage V)
    (hwf : WF s) (p : Nat) (v : V) :
    ((add_child_to_node s p v).isSome ↔ p < s.node_count) ∧
    (∀ s2 rid, add_child_to_node s p v = some (s2, rid) →
      rid = s.node_count ∧
      WF (appendChild s p v) ∧
      (appendChild s p v).node_count = s.node_count + 1 ∧
      (appendChild s p v).data_array[rid]? = some v ∧
      (appendChild s p v).parent_indices.getD rid 0 = p ∧
      (appendChild s p v).child_counts.getD p 0
        = s.child_counts.getD p 0 + 1 ∧
      s2 = (check_and_rebalance_for_locality (appendChild s p v)).1 ∧
      s2.node_count = s.node_count + 1 ∧
      ((check_and_rebalance_for_locality (appendChild s p v)).2 = false →
        s2 = appendChild s p v) ∧
      ((check_and_rebalance_for_locality (appendChild s p v)).2 = true →
        s2.data_array[bfsRank (appendChild s p v) rid]? = some v)) := by
  obtain ⟨hdl, hpl, hcl, hfl, hroot, hpar, hcc⟩ := hwf
  constructor
  · unfold add_child_to_node
    by_cases h : s.node_count ≤ p
    · rw [if_pos h]
      simp
      omega
    · rw [if_neg h]
      simp
      omega
  · intro s2 rid heq
    unfold add_child_to_node at heq
    by_cases h : s.node_count ≤ p
    · rw [if_pos h] at heq
      exact absurd heq (by simp)
    rw [if_neg h] at heq
    have hp : p < s.node_count := by omega
    have hn : 0 < s.node_count := by omega
    have hpair := Option.some_injective _ heq
    have hs2eq : s2 = (check_and_rebalance_for_locality (appendChild s p v)).1 :=
      ((Prod.ext_iff.mp hpair).1).symm
    have hrid : rid = s.node_count := ((Prod.ext_iff.mp hpair).2).symm
    subst hrid
    -- component equalities of the appended state
    have hccropt : (appendChild s p v).child_counts
        = (s.child_counts ++ [0]).set p ((s.child_counts ++ [0]).getD p 0 + 1) := by
      simp only [appendChild]
      rw [if_pos (by simp [hcl]; omega)]
    have hccATp : (s.child_counts ++ [0]).getD p 0 = s.child_counts.getD p 0 := by
      rw [List.getD_eq_getElem?_getD,
        List.getElem?_append_left (by rw [hcl]; omega),
        ← List.getD_eq_getElem?_getD]
    have hgetold : ∀ j, j < s.node_count →
        (appendChild s p v).parent_indices.getD j 0
          = s.parent_indices.getD j 0 := by
      intro j hj
      show (s.parent_indices ++ [p]).getD j 0 = _
      rw [List.getD_eq_getElem?_getD,
        List.getElem?_append_left (by rw [hpl]; omega),
        ← List.getD_eq_getElem?_getD]
    have hgetnew : (appendChild s p v).parent_indices.getD s.node_count 0 = p := by
      show (s.parent_indices ++ [p]).getD s.node_count 0 = p
      rw [List.getD_eq_getElem?_getD,
        show s.node_count = s.parent_indices.length from hpl.symm,
        List.getElem?_concat_length]
      rfl
    have hccold : ∀ i, i < s.node_count → i ≠ p →
        (appendChild s p v).child_counts.getD i 0 = s.child_counts.getD i 0 := by
      intro i hi hip
      rw [hccropt, getD_set_ne_nat _ _ _ _ (fun hh => hip hh.symm)]
      rw [List.getD_eq_getElem?_getD,
        List.getElem?_append_left (by rw [hcl]; omega),
        ← List.getD_eq_getElem?_getD]
    have hccp2 : (appendChild s p v).child_counts.getD p 0
        = s.child_counts.getD p 0 + 1 := by
      rw [hccropt, getD_set_self_nat _ _ _ (by simp [hcl]; omega), hccATp]
    have hccn : (appendChild s p v).child_counts.getD s.node_count 0 = 0 := by
      rw [hccropt, getD_set_ne_nat _ _ _ _ (by omega)]
      rw [List.getD_eq_getElem?_getD,
        show s.node_count = s.child_counts.length from hcl.symm,
        List.getElem?_concat_length]
      rfl
    have hn1 : (appendChild s p v).node_count = s.node_count + 1 := rfl
    -- the appended state keeps the invariants
    have hwf1 : WF (appendChild s p v) := by
      refine ⟨?_, ?_, ?_, ?_, ?_, ?_, ?_⟩
      · show (s.data_array ++ [v]).length = s.node_count + 1
        simp [hdl]
      · show (s.parent_indices ++ [p]).length = s.node_count + 1
        simp [hpl]
      · rw [hccropt, List.length_set]
        show (s.child_counts ++ [0]).length = s.node_count + 1
        simp [hcl]
      · show (s.first_child_pos ++ [0]).length = s.node_count + 1
        simp [hfl]
      · rw [hgetold 0 hn, hroot]
      · intro j hj0 hjlt
        rw [hn1] at hjlt
        by_cases hjn : j = s.node_count
        · subst hjn
          rw [hgetnew]
          omega
        · rw [hgetold j (by omega)]
          exact hpar j hj0 (by omega)
      · intro i hi
        rw [hn1] at hi
        have hrange : List.range (appendChild s p v).node_count
            = List.range s.node_count ++ [s.node_count] := by
          rw [hn1, List.range_succ]
        rw [hrange, List.filter_append]
        have hfold : (List.range s.node_count).filter
            (fun j => decide (0 < j)
              && decide ((appendChild s p v).parent_indices.getD j 0 = i))
            = (List.range s.node_count).filter
              (fun j => decide (0 < j)
                && decide (s.parent_indices.getD j 0 = i)) := by
          refine List.filter_congr ?_
          intro j hj
          rw [List.mem_range] at hj
          rw [hgetold j hj]
        rw [hfold]
        by_cases hin : i = s.node_count
        · subst hin
          rw [hccn]
          have h1 : (List.range s.node_count).filter
              (fun j => decide (0 < j)
                && decide (s.parent_indices.getD j 0 = s.node_count)) = [] := by
            refine List.filter_eq_nil_iff.mpr ?_
            intro j hj
            rw [List.mem_range] at hj
            simp only [Bool.and_eq_true, decide_eq_true_eq, not_and]
            intro hj0
            have := hpar j hj0 hj
            omega
          have h2 : [s.node_count].filter
              (fun j => decide (0 < j)
                && decide ((appendChild s p v).parent_indices.getD j 0
                  = s.node_count)) = [] := by
            refine List.filter_eq_nil_iff.mpr ?_
            intro j hj
            rw [List.mem_singleton] at hj
            subst hj
            simp only [Bool.and_eq_true, decide_eq_true_eq, not_and]
            intro _
            rw [hgetnew]
            omega
          rw [h1, h2]
          rfl
        · have hilt : i < s.node_count := by omega
          by_cases hip : i = p
          · rw [hip, hccp2, hcc p hp]
            have h2 : [s.node_count].filter
                (fun j => decide (0 < j)
                  && decide ((appendChild s p v).parent_indices.getD j 0 = p))
                = [s.node_count] := by
              rw [List.filter_cons,
                if_pos (by
                  simp only [Bool.and_eq_true, decide_eq_true_eq]
                  exact ⟨hn, hgetnew⟩)]
              rfl
            rw [h2, List.length_append]
            rfl
          · rw [hccold i hilt hip, hcc i hilt]
            have h2 : [s.node_count].filter
                (fun j => decide (0 < j)
                  && decide ((appendChild s p v).parent_indices.getD j 0 = i))
                = [] := by
              refine List.filter_eq_nil_iff.mpr ?_
              intro j hj
              rw [List.mem_singleton] at hj
              subst hj
              simp only [Bool.and_eq_true, decide_eq_true_eq, not_and]
              intro _
              rw [hgetnew]
              intro hpe
              exact hip hpe.symm
            rw [h2, List.append_nil]
    have hdataval : (appendChild s p v).data_array[s.node_count]? = some v := by
      show (s.data_array ++ [v])[s.node_count]? = some v
      rw [show s.node_count = s.data_array.length from hdl.symm,
        List.getElem?_concat_length]
    refine ⟨rfl, hwf1, hn1, hdataval, hgetnew, hccp2, hs2eq, ?_, ?_, ?_⟩
    all_goals (
      by_cases hth : LAZY_BALANCE_THRESHOLD
        ≤ (appendChild s p v).operations_since_balance)
    case pos =>
      by_cases hndl : needs_locality_rebalancing (appendChild s p v) = true
      · have hchk : check_and_rebalance_for_locality (appendChild s p v)
            = (rebalance_for_locality (appendChild s p v), true) := by
          unfold check_and_rebalance_for_locality
          rw [if_pos hth, if_pos hndl]
        have h3 : 3 < (appendChild s p v).node_count := by
          by_contra hle
          unfold needs_locality_rebalancing at hndl
          rw [if_pos (by omega)] at hndl
          exact absurd hndl (by simp)
        obtain ⟨hd1, hp1, hcl1, hf1, hroot1, hpar1, hcc1⟩ := hwf1
        rw [hs2eq, hchk]
        show (rebalance_for_locality (appendChild s p v)).node_count = _
        rw [(rebalance_chars _ hcl1 hroot1 hpar1 hcc1 h3).1, hn1]
      · have hchk : check_and_rebalance_for_locality (appendChild s p v)
            = (appendChild s p v, false) := by
          unfold check_and_rebalance_for_locality
          rw [if_pos hth, if_neg hndl]
        rw [hs2eq, hchk]
        exact hn1
    case neg =>
      have hchk : check_and_rebalance_for_locality (appendChild s p v)
          = (appendChild s p v, false) := by
        unfold check_and_rebalance_for_locality
        rw [if_neg hth]
      rw [hs2eq, hchk]
      exact hn1
    case pos =>
      by_cases hndl : needs_locality_rebalancing (appendChild s p v) = true
      · have hchk : check_and_rebalance_for_locality (appendChild s p v)
            = (rebalance_for_locality (appendChild s p v), true) := by
          unfold check_and_rebalance_for_locality
          rw [if_pos hth, if_pos hndl]
        intro hff
        rw [hchk] at hff
        exact absurd hff (by simp)
      · have hchk : check_and_rebalance_for_locality (appendChild s p v)
            = (appendChild s p v, false) := by
          unfold check_and_rebalance_for_locality
          rw [if_pos hth, if_neg hndl]
        intro _
        rw [hs2eq, hchk]
    case neg =>
      have hchk : check_and_rebalance_for_locality (appendChild s p v)
          = (appendChild s p v, false) := by
        unfold check_and_rebalance_for_locality
        rw [if_neg hth]
      intro _
      rw [hs2eq, hchk]
    case pos =>
      by_cases hndl : needs_locality_rebalancing (appendChild s p v) = true
      · have hchk : check_and_rebalance_for_locality (appendChild s p v)
            = (rebalance_for_locality (appendChild s p v), true) := by
          unfold check_and_rebalance_for_locality
          rw [if_pos hth, if_pos hndl]
        have h3 : 3 < (appendChild s p v).node_count := by
          by_contra hle
          unfold needs_locality_rebalancing at hndl
          rw [if_pos (by omega)] at hndl
          exact absurd hndl (by simp)
        intro _
        rw [hs2eq, hchk]
        show (rebalance_for_locality (appendChild s p v)).data_array[
          bfsRank (appendChild s p v) s.node_count]? = some v
        rw [rebalance_data_getElem (appendChild s p v) hwf1 h3 s.node_count
          (by rw [hn1]; omega)]
        exact hdataval
      · have hchk : check_and_rebalance_for_locality (appendChild s p v)
            = (appendChild s p v, false) := by
          unfold check_and_rebalance_for_locality
          rw [if_pos hth, if_neg hndl]
        intro htt
        rw [hchk] at htt
        exact absurd htt (by simp)
    case neg =>
      have hchk : check_and_rebalance_for_locality (appendChild s p v)
          = (appendChild s p v, false) := by
        unfold check_and_rebalance_for_locality
        rw [if_neg hth]
      intro htt
      rw [hchk] at htt
      exact absurd htt (by simp)

/-- A 2-node storage: root 0 (value 5) with one child (value 6); the
operation counter is far from the threshold, so the next append cannot
fire the reorder. -/
def c5small : SuccinctWorkingStorage Nat :=
  ⟨[true, false, true, false], [5, 6], [0, 0], [0, 0], [1, 0], 2, 0⟩

theorem add_child_unified_spec_witness :
    ((add_child_to_node c5small 0 7).isSome ↔ 0 < c5small.node_count) ∧
    (∀ s2 rid, add_child_to_node c5small 0 7 = some (s2, rid) →
      rid = c5small.node_count ∧
      WF (appendChild c5small 0 7) ∧
      (appendChild c5small 0 7).node_count = c5small.node_count + 1 ∧
      (appendChild c5small 0 7).data_array[rid]? = some 7 ∧
      (appendChild c5small 0 7).parent_indices.getD rid 0 = 0 ∧
      (appendChild c5small 0 7).child_counts.getD 0 0
        = c5small.child_counts.getD 0 0 + 1 ∧
      s2 = (check_and_rebalance_for_locality (appendChild c5small 0 7)).1 ∧
      s2.node_count = c5small.node_count + 1 ∧
      ((check_and_rebalance_for_locality (appendChild c5small 0 7)).2 = false →
        s2 = appendChild c5small 0 7) ∧
      ((check_and_rebalance_for_locality (appendChild c5small 0 7)).2 = true →
        s2.data_array[bfsRank (appendChild c5small 0 7) rid]? = some 7)) :=
  add_child_unified_spec c5small
    ⟨rfl, rfl, rfl, rfl, rfl,
     by intro j hj hj2; have h2 : j < 2 := hj2; interval_cases j <;> decide,
     by intro i hi; have h2 : i < 2 := hi; interval_cases i <;> decide⟩
    0 7

end Unified

/-! ## `NaryTree`'s array storage (`nary_tree.cpp` lines 20-31, 504-601) -/

/-- `NaryTree<T>::ArrayNode`. -/
structure ArrayNode (V : Type) where
  data : V
  parent_index : Int
  first_child_index : Int
  child_count : Nat
  is_valid : Bool
deriving DecidableEq

instance [Inhabited V] : Inhabited (ArrayNode V) :=
  ⟨⟨default, -1, -1, 0, false⟩⟩

/-- The per-comparison scores accumulated by
`NaryTree::calculate_locality_score` (`nary_tree.cpp` lines 573-601): for
each valid node with children, one proximity term
`1 / (1 + |first_child - i| / 10)` for the FIRST child only, and for each
further child slot `j = 1, …, child_count-1` a flat `1.0` when slot
`first_child + j` is in range and valid ("consecutive children") or `0.5`
otherwise ("gap").  C++ doubles are modeled exactly in `ℚ`; the signed/
unsigned `first_child + j < size()` comparison is false for negative values,
modeled by the `0 ≤ idx` conjunct. -/
def naryLocalityTerms [Inhabited V] (nodes : List (ArrayNode V)) : List ℚ :=
  (List.range nodes.length).flatMap (fun i =>
    match nodes[i]? with
    | none => []
    | some nd =>
      if nd.is_valid = true ∧ 0 < nd.child_count then
        ((1 : ℚ) / (1 + (Int.natAbs (nd.first_child_index - (i : ℤ)) : ℚ) / 10)) ::
        (List.range (nd.child_count - 1)).map (fun j1 =>
          let idx : Int := nd.first_child_index + ((j1 + 1 : Nat) : Int)
          if 0 ≤ idx ∧ idx < (nodes.length : Int) ∧
              (nodes.getD idx.toNat default).is_valid = true then (1 : ℚ)
          else 1 / 2)
      else [])

/-- `NaryTree::calculate_locality_score` (`nary_tree.cpp` lines 573-601). -/
def calculate_locality_score_array [Inhabited V] (use_array_storage_ : Bool)
    (array_nodes_ : List (ArrayNode V)) : ℚ :=
  if use_array_storage_ = false ∨ array_nodes_.isEmpty = true then 1 / 2
  else
    let terms := naryLocalityTerms array_nodes_
    if terms.length = 0 then 1 else terms.sum / terms.length

/-- Modelled from the spec: §4.4's locality score for the array storage —
the mean over all parent→child edges of `1 / (1 + |child_id − parent_id| / 10)`
(one term per valid node with a parent). -/
def specLocalityMeanArray [Inhabited V] (nodes : List (ArrayNode V)) : ℚ :=
  let terms := (List.range nodes.length).flatMap (fun c =>
    match nodes[c]? with
    | none => []
    | some nd =>
      if nd.is_valid = true ∧ 0 ≤ nd.parent_index then
        [(1 : ℚ) / (1 + (Int.natAbs ((c : ℤ) - nd.parent_index) : ℚ) / 10)]
      else [])
  if terms.length = 0 then 1 else terms.sum / terms.length

/-- A 3-node array storage: the root at slot 0 with its two children at
slots 1 and 2. -/
def c9nodes : List (ArrayNode Nat) :=
  [⟨10, -1, 1, 2, true⟩, ⟨20, 0, -1, 0, true⟩, ⟨30, 0, -1, 0, true⟩]

/-- C9, counterexample.  `NaryTree::calculate_locality_score` does NOT
compute the claimed mean of `1 / (1 + |child − parent| / 10)` over all
parent→child edges: on a root with two adjacent children it scores the first
child by proximity (`10/11`) but the second by flat adjacency (`1.0`),
giving `21/22`, while the claimed formula gives
`(10/11 + 10/12) / 2 = 115/132`. -/
theorem array_locality_score_not_edge_mean :
    calculate_locality_score_array true c9nodes = 21 / 22 ∧
    specLocalityMeanArray c9nodes = 115 / 132 ∧
    ¬ (calculate_locality_score_array true c9nodes
        = specLocalityMeanArray c9nodes) := by
  have hA : calculate_locality_score_array true c9nodes = 21 / 22 := by
    simp [calculate_locality_score_array, naryLocalityTerms, c9nodes,
      List.range_succ]
    norm_num
  have hB : specLocalityMeanArray c9nodes = 115 / 132 := by
    simp [specLocalityMeanArray, c9nodes, List.range_succ]
    norm_num
  refine ⟨hA, hB, ?_⟩
  rw [hA, hB]
  norm_num

/-! ## C8: the implicit rebalance trigger -/

/-- The three-node arena (root 0 with children 1, 2) with a given operation
counter, as produced by the trace in the counterexample below. -/
def trigState (ops : Nat) : PyVariant.SuccinctNaryTree Nat :=
  ⟨[10, 20, 30], [[1, 2], [], []], 3, ops⟩

/-- C8, counterexample.  A fully reachable trace on the arena variant —
`set_root`, two `add_child`s, then payload writes — reaches the mutation
counter threshold and `rebalance_for_locality` runs (the `true` flag on the
100th mutation), yet the §4.4 locality score of the tree at that moment is
`115/132 ≈ 0.871`, far above the `0.7` floor: `balance_if_needed` consults
only the counter, never a locality score. -/
theorem reorder_triggered_with_high_score :
    (PyVariant.set_root (⟨[], [], 0, 0⟩ : PyVariant.SuccinctNaryTree Nat) 10
      = (⟨[10], [[]], 1, 1⟩, false)) ∧
    (PyVariant.add_child
        (⟨[10], [[]], 1, 1⟩ : PyVariant.SuccinctNaryTree Nat) 0 20
      = some (⟨[10, 20], [[1], []], 2, 2⟩, false, 1)) ∧
    (PyVariant.add_child
        (⟨[10, 20], [[1], []], 2, 2⟩ : PyVariant.SuccinctNaryTree Nat) 0 30
      = some (trigState 3, false, 2)) ∧
    ((List.range' 3 96).all (fun i =>
      decide (PyVariant.set_data (trigState i) 0 10
        = some (trigState (i + 1), false))) = true) ∧
    (PyVariant.set_data (trigState 99) 0 10 = some (trigState 0, true)) ∧
    (7 : ℚ) / 10 ≤ PyVariant.specLocalityScore (trigState 100) := by
  refine ⟨by decide, by decide, by decide, by decide, by decide, ?_⟩
  have h1 : PyVariant.specLocalityScore (trigState 100) = 115 / 132 := by
    simp [PyVariant.specLocalityScore, trigState, List.range_succ]
    norm_num
  rw [h1]
  norm_num

/-- C8, amended.  In the unified engine, the implicit Locality Reorder runs
exactly when the mutation counter has reached the threshold (100) AND the
tree has more than 3 nodes AND the locality score is below the 0.7 floor,
and it then resets the counter; Full Reconstruction is never invoked by this
policy (the class has no such operation).  In the arena variant, however,
`balance_if_needed` triggers its reorder whenever the counter alone reaches
100 — no locality score is consulted — resets the counter, and likewise never
rebuilds the tree (payloads and links are untouched). -/
theorem rebalance_policy_spec (V : Type) [Inhabited V] :
    (∀ s : Unified.SuccinctWorkingStorage V,
      ((Unified.check_and_rebalance_for_locality s).2 = true ↔
        (Unified.LAZY_BALANCE_THRESHOLD ≤ s.operations_since_balance ∧
         3 < s.node_count ∧
         Unified.calculate_locality_score s < 7 / 10)) ∧
      ((Unified.check_and_rebalance_for_locality s).2 = true →
        (Unified.check_and_rebalance_for_locality s).1.operations_since_balance
          = 0)) ∧
    (∀ t : PyVariant.SuccinctNaryTree V,
      ((PyVariant.balance_if_needed t).2 = true ↔
        PyVariant.LAZY_BALANCE_THRESHOLD ≤ t.operations_since_balance + 1) ∧
      ((PyVariant.balance_if_needed t).2 = true →
        (PyVariant.balance_if_needed t).1.operations_since_balance = 0) ∧
      (PyVariant.balance_if_needed t).1.node_data = t.node_data ∧
      (PyVariant.balance_if_needed t).1.children = t.children) := by
  constructor
  · intro s
    have hneeds : Unified.needs_locality_rebalancing s = true ↔
        (3 < s.node_count ∧ Unified.calculate_locality_score s < 7 / 10) := by
      unfold Unified.needs_locality_rebalancing
      by_cases h3 : s.node_count ≤ 3
      · rw [if_pos h3]
        simp
        omega
      · rw [if_neg h3]
        simp
        omega
    constructor
    · unfold Unified.check_and_rebalance_for_locality
      by_cases h1 : Unified.LAZY_BALANCE_THRESHOLD ≤ s.operations_since_balance
      · rw [if_pos h1]
        by_cases h2 : Unified.needs_locality_rebalancing s
        · rw [if_pos h2]
          simp only [true_iff]
          exact ⟨h1, hneeds.1 h2⟩
        · rw [if_neg h2]
          constructor
          · intro hcon
            simp at hcon
          · rintro ⟨_, hrest⟩
            exact absurd (hneeds.2 hrest) (by simpa using h2)
      · rw [if_neg h1]
        constructor
        · intro hcon
          simp at hcon
        · rintro ⟨hcon, _⟩
          exact absurd hcon h1
    · unfold Unified.check_and_rebalance_for_locality
      by_cases h1 : Unified.LAZY_BALANCE_THRESHOLD ≤ s.operations_since_balance
      · rw [if_pos h1]
        by_cases h2 : Unified.needs_locality_rebalancing s
        · rw [if_pos h2]
          intro _
          have h3 : 3 < s.node_count := (hneeds.1 h2).1
          unfold Unified.rebalance_for_locality
          rw [if_neg (by omega)]
        · rw [if_neg h2]
          intro hcon
          simp at hcon
      · rw [if_neg h1]
        intro hcon
        simp at hcon
  · intro t
    have hframe := PyVariant.balance_if_needed_frame t
    refine ⟨?_, ?_, hframe.1, hframe.2.1⟩
    · unfold PyVariant.balance_if_needed
      by_cases h : PyVariant.LAZY_BALANCE_THRESHOLD
          ≤ t.operations_since_balance + 1
      · rw [if_pos h]
        simpa using h
      · rw [if_neg h]
        simpa using h
    · unfold PyVariant.balance_if_needed
      by_cases h : PyVariant.LAZY_BALANCE_THRESHOLD
          ≤ t.operations_since_balance + 1
      · rw [if_pos h]
        intro _
        rfl
      · rw [if_neg h]
        intro hcon
        simp at hcon

/-- A 7-node storage (not claiming the full invariants — the trigger
condition is definitional) whose only recorded edge spans distance 6, giving
locality score `5/8 < 7/10`, with the counter at the threshold. -/
def c8store : Unified.SuccinctWorkingStorage Nat :=
  ⟨[], [0, 0, 0, 0, 0, 0, 0], [9, 9, 9, 9, 9, 9, 0], [0, 0, 0, 0, 0, 0, 0],
   [1, 0, 0, 0, 0, 0, 0], 7, 100⟩

theorem rebalance_policy_spec_witness :
    ((Unified.check_and_rebalance_for_locality c8store).2 = true ∧
     (Unified.check_and_rebalance_for_locality
        c8store).1.operations_since_balance = 0) ∧
    ((PyVariant.balance_if_needed (trigState 99)).2 = true ∧
     (PyVariant.balance_if_needed (trigState 99)).1.operations_since_balance
        = 0) := by
  have hscore : Unified.calculate_locality_score c8store = 5 / 8 := by
    simp [Unified.calculate_locality_score, Unified.localityTerms, c8store,
      Unified.get_child_node_index, Unified.findNthChild, List.range_succ,
      List.range']
    norm_num
  have htrig : (Unified.check_and_rebalance_for_locality c8store).2 = true :=
    ((rebalance_policy_spec Nat).1 c8store).1.2
      ⟨by decide, by decide, by rw [hscore]; norm_num⟩
  have htrig2 : (PyVariant.balance_if_needed (trigState 99)).2 = true :=
    ((rebalance_policy_spec Nat).2 (trigState 99)).1.2 (by decide)
  exact ⟨⟨htrig, ((rebalance_policy_spec Nat).1 c8store).2 htrig⟩,
    ⟨htrig2, ((rebalance_policy_spec Nat).2 (trigState 99)).2.1 htrig2⟩⟩

end NaryPkg
